import Mathlib

/-! Tokenizer and simplifier of `tokenize.cpp`

A shallow embedding of the token stream, the macro table, `addtoken`,
the combination scan of `TokenizeCode` and the passes of
`SimplifyTokenList`.

The singly linked list that starts at `tokens` is a `List TOKEN`; a
pointer `tok` into the list is the suffix of the list that starts at the
node it points to.  C strings are `String`s; `str[0]` of an empty
string is the terminating NUL.
-/

namespace Cppcheck

/-! ## C library helpers -/

/-- First character of a C string: `str[0]`, the NUL terminator when the string is empty. -/
def str0 (s : String) : Char := s.data.headD (Char.ofNat 0)

/-- C `strchr(set, c) != NULL`: the terminating NUL of `set` is part of the string, so NUL is found. -/
def strchr (set : String) (c : Char) : Bool := c == Char.ofNat 0 || set.data.contains c

/-- C `isdigit` in the "C" locale. -/
def isdigit (c : Char) : Bool := decide ('0' ≤ c) && decide (c ≤ '9')

/-- C `isxdigit` in the "C" locale. -/
def isxdigit (c : Char) : Bool :=
  isdigit c || (decide ('a' ≤ c) && decide (c ≤ 'f')) || (decide ('A' ≤ c) && decide (c ≤ 'F'))

/-- C `isalpha` in the "C" locale. -/
def isalpha (c : Char) : Bool :=
  (decide ('a' ≤ c) && decide (c ≤ 'z')) || (decide ('A' ≤ c) && decide (c ≤ 'Z'))

/-- C `isalnum` in the "C" locale. -/
def isalnum (c : Char) : Bool := isalpha c || isdigit c

/-- C `isspace` in the "C" locale: space, `\t`, `\n`, `\v`, `\f`, `\r`. -/
def isspace (c : Char) : Bool := c == ' ' || (decide (9 ≤ c.toNat) && decide (c.toNat ≤ 13))

/-- C `iscntrl` in the "C" locale. -/
def iscntrl (c : Char) : Bool := decide (c.toNat < 32) || c.toNat == 127

/-- Value of one hexadecimal digit. -/
def hexDigitVal (c : Char) : Nat :=
  if isdigit c then c.toNat - '0'.toNat
  else if decide ('a' ≤ c) && decide (c ≤ 'f') then c.toNat - 'a'.toNat + 10
  else c.toNat - 'A'.toNat + 10

/-- Value of a string of hexadecimal digits, most significant digit first. -/
def hexValue (ds : List Char) : Nat := ds.foldl (fun acc c => 16 * acc + hexDigitVal c) 0

/-- Value of a string of decimal digits, most significant digit first. -/
def decValue (ds : List Char) : Nat := ds.foldl (fun acc c => 10 * acc + (c.toNat - '0'.toNat)) 0

/-- Sizes of the host platform that the source reads through `sizeof` and `unsigned long`. -/
structure Platform where
  sizeof_char : Nat
  sizeof_short : Nat
  sizeof_int : Nat
  sizeof_long : Nat
  sizeof_float : Nat
  sizeof_double : Nat
  sizeof_ptr : Nat
  /-- Largest value of `unsigned long`. -/
  ULONG_MAX : Nat

/-- The common LP64 platform. -/
def lp64 : Platform :=
  { sizeof_char := 1, sizeof_short := 2, sizeof_int := 4, sizeof_long := 8,
    sizeof_float := 4, sizeof_double := 8, sizeof_ptr := 8, ULONG_MAX := 2 ^ 64 - 1 }

/-- The optional sign that `strtoul` and `atoi` accept is skipped. -/
def skipSign (s : List Char) : List Char :=
  if s.head? == some '-' || s.head? == some '+' then s.tail else s

/-- The optional `0x` or `0X` that `strtoul` accepts in base 16 before a digit is skipped. -/
def skip0x (s : List Char) : List Char :=
  match s with
  | '0' :: x :: d :: r => if (x == 'x' || x == 'X') && isxdigit d then d :: r else s
  | _ => s

/-- C `strtoul(s, NULL, 16)`: skips white space, takes an optional sign and an optional
`0x`/`0X`, then the longest run of hexadecimal digits; no digits give 0, a value that
does not fit gives `ULONG_MAX`, and a minus sign negates in `unsigned long`. -/
def strtoul16 (P : Platform) (s : List Char) : Nat :=
  let s1 := s.dropWhile isspace
  let v := hexValue ((skip0x (skipSign s1)).takeWhile isxdigit)
  if v > P.ULONG_MAX then P.ULONG_MAX
  else if s1.head? == some '-' then (P.ULONG_MAX + 1 - v) % (P.ULONG_MAX + 1) else v

/-! ## Data model -/

/-- A node of the token list: `struct TOKEN` without its `next` pointer. -/
structure TOKEN where
  str : String
  linenr : Nat
  FileIndex : Nat
deriving DecidableEq, Repr

/-- A node of the list of defined symbols: `struct DefineSymbol` without its `next` pointer. -/
structure DefineSymbol where
  name : String
  value : String
deriving DecidableEq, Repr

/-- Where the pointer `tokens_back` points. -/
inductive Back where
  /-- To the last node of the list; null for the empty list. -/
  | last
  /-- To a node of the list that `k + 1` nodes follow. -/
  | inner (k : Nat)
  /-- To a node that `DeleteNextToken` has freed. -/
  | freed
  /-- A node has been linked through the pointer to a freed node: the behaviour is undefined
  from here on. -/
  | undefined
deriving DecidableEq, Repr

/-- The process-wide state of the tokenizer: `Files`, the list from `tokens` on, `dsymlist`
(newest symbol first) and the place `tokens_back` points to. -/
structure State where
  Files : List String
  tokens : List TOKEN
  dsymlist : List DefineSymbol
  tokens_back : Back
deriving DecidableEq, Repr

/-- The state before anything is tokenized: `tokens` and `tokens_back` are null. -/
def State.empty : State := { Files := [], tokens := [], dsymlist := [], tokens_back := .last }

/-- The texts of a token list. -/
def texts (l : List TOKEN) : List String := l.map TOKEN.str

/-! ## `Define` and `addtoken` -/

/-- The loop of `Define` that classifies `Value`: `(dec, hex)`. -/
def Define.classify (Value : List Char) : Bool × Bool :=
  (Value.all isdigit,
   (Value.enum.all fun p => isxdigit p.2 || (p.1 == 1 && p.2 == 'x')))

/-- The function `Define`: registers `Name` with a decimal or hexadecimal `Value`; the
hexadecimal value is read from `Value+2` and stored in decimal.  (An extraction that reads no
digit stores 0, one that overflows stores `ULONG_MAX`.) -/
def Define (P : Platform) (Name Value : String) (dsymlist : List DefineSymbol) :
    List DefineSymbol :=
  if Name.data = [] then dsymlist
  else if Value.data = [] then dsymlist
  else
    let c := Define.classify Value.data
    if !c.1 && !c.2 then dsymlist
    else
      let strValue :=
        if !c.1 && c.2 then
          toString (min (hexValue ((Value.data.drop 2).takeWhile isxdigit)) P.ULONG_MAX)
        else Value
      { name := Name, value := strValue } :: dsymlist

/-- The lookup loop at the end of `addtoken`: the value of the first symbol named `str`. -/
def lookupDefine (str : String) : List DefineSymbol → Option String
  | [] => none
  | sym :: rest => if str = sym.name then some sym.value else lookupDefine str rest

/-- The text `addtoken` stores for the lexeme `str`: hexadecimal is replaced by decimal,
then a defined symbol named `str` replaces the text by its value. -/
def addtoken.text (P : Platform) (str : String) (dsymlist : List DefineSymbol) : String :=
  let str2 := if str.data.take 2 = ['0', 'x'] then toString (strtoul16 P (str.data.drop 2)) else str
  match lookupDefine str dsymlist with
  | some v => v
  | none => str2

/-- The function `addtoken`: nothing for an empty `str`, otherwise one new node is linked
after the node `tokens_back` points to, which cuts off the nodes that followed it, and
`tokens_back` moves to the new node; with a null `tokens_back` the new node is the list.  A
`tokens_back` that points to a freed node makes the behaviour undefined. -/
def addtoken (P : Platform) (str : String) (lineno fileno : Nat) (st : State) : State :=
  if str.data = [] then st
  else
    let newtoken : TOKEN :=
      { str := addtoken.text P str st.dsymlist, linenr := lineno, FileIndex := fileno }
    match st.tokens_back with
    | .last => { st with tokens := st.tokens ++ [newtoken] }
    | .inner k =>
      { st with tokens := st.tokens.take (st.tokens.length - (k + 1)) ++ [newtoken],
                tokens_back := .last }
    | .freed => { st with tokens_back := .undefined }
    | .undefined => st

/-! ## `DeleteNextToken`, `InsertTokens`, `combine_2tokens` -/

/-- The function `DeleteNextToken` for `tok` the head of the list: unlinks the second node. -/
def DeleteNextToken : List TOKEN → List TOKEN
  | tok :: _ :: rest => tok :: rest
  | l => l

/-- The function `combine_2tokens` for `tok` the head of the list. -/
def combine_2tokens (str1 str2 : String) : List TOKEN → List TOKEN
  | tok :: next :: rest =>
    if tok.str ≠ str1 || next.str ≠ str2 then tok :: next :: rest
    else DeleteNextToken ({ tok with str := str1 ++ str2 } :: next :: rest)
  | l => l

/-- The 19 pairs of the combination loop of `TokenizeCode`, in the order of the calls. -/
def combinePairs : List (String × String) :=
  [("<", "<"), (">", ">"), ("&", "&"), ("|", "|"),
   ("+", "="), ("-", "="), ("*", "="), ("/", "="), ("&", "="), ("|", "="),
   ("=", "="), ("!", "="), ("<", "="), (">", "="),
   (":", ":"), ("-", ">"),
   ("private", ":"), ("protected", ":"), ("public", ":")]

/-- The body of the combination loop: the 19 calls of `combine_2tokens` on the same `tok`. -/
def combineAt (l : List TOKEN) : List TOKEN :=
  combinePairs.foldl (fun acc p => combine_2tokens p.1 p.2 acc) l

/-- The combination loop of `TokenizeCode`:
`for (tok = tokens; tok && tok->next; tok = tok->next)`, with `tok` the head of the list.
The first argument bounds the number of iterations; the loop only deletes nodes and moves
forward by one node in each iteration, so the length of the list is enough. -/
def combineLoopN : Nat → List TOKEN → List TOKEN
  | 0, l => l
  | _ + 1, [] => []
  | _ + 1, [tok] => [tok]
  | n + 1, tok :: next :: rest =>
    match combineAt (tok :: next :: rest) with
    | [] => []
    | tok2 :: rest2 => tok2 :: combineLoopN n rest2

/-- The combination loop of `TokenizeCode` run from `tokens`. -/
def combineLoop (l : List TOKEN) : List TOKEN := combineLoopN l.length l

/-- The loop of `TokenizeCode` that replaces `->` by `.`. -/
def arrowLoop (l : List TOKEN) : List TOKEN :=
  l.map fun tok => if tok.str = "->" then { tok with str := "." } else tok

/-! ## The external pattern matcher -/

/-- Modelled from the spec: `IsName` of `CommonCheck.h` is not part of the source given; it is
the identifier-syntax predicate, decided on the first character, which is a letter or an
underscore. -/
def IsName (s : String) : Bool := str0 s == '_' || isalpha (str0 s)

/-- Modelled from the spec: `IsNumber` of `CommonCheck.h` is not part of the source given; it is
the numeric-literal predicate, decided on the first character, which is a digit. -/
def IsNumber (s : String) : Bool := isdigit (str0 s)

/-- One word of a pattern string of `Match`: a literal text, `%type%`, `%var%` or `%num%`. -/
inductive Pat where
  | lit (s : String)
  | type
  | var
  | num
deriving DecidableEq, Repr

/-- Whether one token satisfies one word of a pattern. -/
def Pat.ok : Pat → TOKEN → Bool
  | .lit s, t => t.str == s
  | .type, t => IsName t.str
  | .var, t => IsName t.str
  | .num, t => IsNumber t.str

/-- Modelled from the spec: `Match` of `CommonCheck.h` is not part of the source given; it
returns whether the sequence of tokens starting at `tok` satisfies the pattern, word by word
(`%type%` any type name, `%var%` any variable name, `%num%` any numeric literal, any other word
the literal text).  The list is the suffix starting at `tok`, empty for a null pointer; every
pattern of the source has at least one word, so a null pointer never matches. -/
def Match : List TOKEN → List Pat → Bool
  | _, [] => true
  | [], _ :: _ => false
  | t :: ts, p :: ps => p.ok t && Match ts ps

/-- The function `gettok` (and `_gettok`): the suffix that starts `index` nodes after `tok`. -/
def gettok (tok : List TOKEN) (index : Nat) : List TOKEN := tok.drop index

/-- The function `getstr`: the text of the token `index` nodes after `tok`, or `""`. -/
def getstr (tok : List TOKEN) (index : Nat) : String :=
  match gettok tok index with
  | [] => ""
  | t :: _ => t.str

/-- The function `InsertTokens`: copies the first `n` nodes of `src` and links the copies after
`dest`, the head of the list. -/
def InsertTokens (dest : List TOKEN) (src : List TOKEN) (n : Nat) : List TOKEN :=
  match dest with
  | [] => []
  | d :: rest => d :: (src.take n ++ rest)

/-- Reduction of an integer to the range of a 32-bit `int`. -/
def wrap32 (i : Int) : Int := (i + 2 ^ 31) % 2 ^ 32 - 2 ^ 31

/-- C `atoi` on a token text, which is `(int) strtol(s, NULL, 10)`: optional white space and
sign, then the leading decimal digits; a value outside the range of `long` is replaced by
`LONG_MAX` or `LONG_MIN`, and the `long` is reduced to a 32-bit `int`. -/
def atoi (P : Platform) (s : String) : Int :=
  let s1 := s.data.dropWhile isspace
  let v : Int := decValue ((skipSign s1).takeWhile isdigit)
  let LONG_MAX : Int := (P.ULONG_MAX / 2 : Nat)
  let x : Int := if s1.head? == some '-' then -v else v
  wrap32 (max (-LONG_MAX - 1) (min x LONG_MAX))

/-! ## The typedef loop of `TokenizeCode` -/

/-- The inner loop of the two-name typedef: a token whose text is `type2` gets the text
`type1`. -/
def typedefRepl2 (type1 type2 : String) (t : TOKEN) : TOKEN :=
  if t.str = type2 then { t with str := type1 } else t

/-- The inner loop of the three-name typedef: a token whose text is `type3` gets the text
`type1` and a new node with the text `type2` is linked after it. -/
def typedefRepl3 (type1 type2 type3 : String) : List TOKEN → List TOKEN
  | [] => []
  | t :: rest =>
    if t.str = type3 then
      { t with str := type1 } :: { str := type2, linenr := t.linenr, FileIndex := t.FileIndex } ::
        typedefRepl3 type1 type2 type3 rest
    else t :: typedefRepl3 type1 type2 type3 rest

/-- The body of the typedef loop for `tok` the head of the list.  In the two-name form the
nodes of `type1` and `type2` themselves are skipped by the pointer comparisons; in the
three-name form the inner loop starts at the first `;`, the fifth node. -/
def typedefAt (l : List TOKEN) : List TOKEN :=
  if Match l [.lit "typedef", .type, .type, .lit ";"] then
    match l with
    | tok :: t1 :: t2 :: rest =>
      typedefRepl2 t1.str t2.str tok :: t1 :: t2 :: rest.map (typedefRepl2 t1.str t2.str)
    | _ => l
  else if Match l [.lit "typedef", .type, .type, .type, .lit ";"] then
    match l with
    | tok :: t1 :: t2 :: t3 :: rest => tok :: t1 :: t2 :: t3 :: typedefRepl3 t1.str t2.str t3.str rest
    | _ => l
  else l

/-- The typedef loop of `TokenizeCode`, `for (tok = tokens; tok; tok = tok->next)`; the first
argument bounds the number of iterations, `none` when it is used up. -/
def typedefLoop : Nat → List TOKEN → Option (List TOKEN)
  | _, [] => some []
  | 0, _ :: _ => none
  | n + 1, tok :: rest =>
    match typedefAt (tok :: rest) with
    | [] => some []
    | tok2 :: rest2 => (typedefLoop n rest2).map (tok2 :: ·)

/-! ## The token list with its tail pointer -/

/-- A node of the token list together with its address. -/
structure Node where
  addr : Nat
  tok : TOKEN
deriving DecidableEq, Repr

/-- The token list as the pointers see it: the nodes reachable from `tokens`, in order, the
address that `tokens_back` holds (`none` for a null pointer) and the number of nodes
allocated so far, which is the address the next new node gets. -/
structure Heap where
  nodes : List Node
  tokens_back : Option Nat
  allocated : Nat
deriving DecidableEq, Repr

/-- The pointers before anything is tokenized: `tokens` and `tokens_back` are null. -/
def Heap.empty : Heap := { nodes := [], tokens_back := none, allocated := 0 }

/-- The function `addtoken` on the pointers: the new node is linked after the node that
`tokens_back` points to and `tokens_back` moves to it; with a null `tokens_back` it becomes the
head.  Linking after a node cuts off what followed that node.  `none` stands for the write
through a `tokens_back` that points to a freed node. -/
def Heap.addtoken (P : Platform) (str : String) (lineno fileno : Nat)
    (dsymlist : List DefineSymbol) (h : Heap) : Option Heap :=
  if str.data = [] then some h
  else
    let newtoken : Node :=
      { addr := h.allocated, tok := ⟨addtoken.text P str dsymlist, lineno, fileno⟩ }
    match h.tokens_back with
    | none =>
      some { nodes := [newtoken], tokens_back := some newtoken.addr,
             allocated := h.allocated + 1 }
    | some back =>
      match h.nodes.findIdx? (fun nd => nd.addr == back) with
      | none => none
      | some i =>
        some { nodes := h.nodes.take (i + 1) ++ [newtoken], tokens_back := some newtoken.addr,
               allocated := h.allocated + 1 }

/-- The function `DeleteNextToken` on the pointers, for `tok` the node at position `i`: the
node after it is unlinked and freed; `tokens_back` is not touched. -/
def Heap.DeleteNextToken (i : Nat) (h : Heap) : Heap :=
  { h with nodes := h.nodes.eraseIdx (i + 1) }

/-- The function `combine_2tokens` on the pointers, for `tok` the node at position `i`. -/
def Heap.combine_2tokens (i : Nat) (str1 str2 : String) (h : Heap) : Heap :=
  match h.nodes[i]?, h.nodes[i + 1]? with
  | some tok, some next =>
    if tok.tok.str ≠ str1 || next.tok.str ≠ str2 then h
    else
      Heap.DeleteNextToken i
        { h with nodes := h.nodes.set i { tok with tok := { tok.tok with str := str1 ++ str2 } } }
  | _, _ => h

/-- The body of the combination loop on the pointers: the 19 calls of `combine_2tokens` for the
node at position `i`. -/
def Heap.combineAt (i : Nat) (h : Heap) : Heap :=
  combinePairs.foldl (fun acc p => Heap.combine_2tokens i p.1 p.2 acc) h

/-- The combination loop of `TokenizeCode` on the pointers, from the node at position `i` on;
the first argument bounds the number of iterations. -/
def Heap.combineLoop : Nat → Nat → Heap → Heap
  | 0, _, h => h
  | n + 1, i, h =>
    if i + 1 < h.nodes.length then Heap.combineLoop n (i + 1) (Heap.combineAt i h) else h

/-- The function `DeallocateTokens` on the pointers: every node is freed, `tokens` and
`tokens_back` are null. -/
def Heap.DeallocateTokens (h : Heap) : Heap := { h with nodes := [], tokens_back := none }

/-- The loop of `TokenizeCode` that replaces `->` by `.`, on the pointers: texts change, no
node is linked or freed. -/
def Heap.arrowLoop (h : Heap) : Heap :=
  { h with nodes := h.nodes.map fun nd =>
      { nd with tok := if nd.tok.str = "->" then { nd.tok with str := "." } else nd.tok } }

/-- The inner loop of the three-name typedef on the pointers, with the address the next new
node gets: the new node is linked after the renamed one. -/
def Heap.typedefRepl3 (type1 type2 type3 : String) : List Node → Nat → List Node × Nat
  | [], a => ([], a)
  | nd :: rest, a =>
    if nd.tok.str = type3 then
      let r := Heap.typedefRepl3 type1 type2 type3 rest (a + 1)
      ({ nd with tok := { nd.tok with str := type1 } } ::
        ⟨a, ⟨type2, nd.tok.linenr, nd.tok.FileIndex⟩⟩ :: r.1, r.2)
    else
      let r := Heap.typedefRepl3 type1 type2 type3 rest a
      (nd :: r.1, r.2)

/-- The body of the typedef loop on the pointers, for `tok` the node at position `i`;
`tokens_back` is not touched. -/
def Heap.typedefAt (i : Nat) (h : Heap) : Heap :=
  let l := h.nodes.drop i
  if Match (l.map Node.tok) [.lit "typedef", .type, .type, .lit ";"] then
    match l with
    | tok :: t1 :: t2 :: rest =>
      let f := fun (nd : Node) => { nd with tok := typedefRepl2 t1.tok.str t2.tok.str nd.tok }
      { h with nodes := h.nodes.take i ++ f tok :: t1 :: t2 :: rest.map f }
    | _ => h
  else if Match (l.map Node.tok) [.lit "typedef", .type, .type, .type, .lit ";"] then
    match l with
    | tok :: t1 :: t2 :: t3 :: rest =>
      let r := Heap.typedefRepl3 t1.tok.str t2.tok.str t3.tok.str rest h.allocated
      { h with nodes := h.nodes.take i ++ tok :: t1 :: t2 :: t3 :: r.1, allocated := r.2 }
    | _ => h
  else h

/-- The typedef loop of `TokenizeCode` on the pointers, from the node at position `i` on; the
first argument bounds the number of iterations, `none` when it is used up. -/
def Heap.typedefLoop : Nat → Nat → Heap → Option Heap
  | 0, i, h => if i < h.nodes.length then none else some h
  | n + 1, i, h =>
    if i < h.nodes.length then Heap.typedefLoop n (i + 1) (Heap.typedefAt i h) else some h

/-- The pointers of a state: the nodes of the list get the addresses 0, 1, 2, ..., and a freed
node has an address that no node of the list has. -/
def State.heap (st : State) : Heap :=
  { nodes := st.tokens.enum.map fun p => ⟨p.1, p.2⟩
    tokens_back :=
      match st.tokens_back with
      | .last => if st.tokens = [] then none else some (st.tokens.length - 1)
      | .inner k => some (st.tokens.length - (k + 2))
      | _ => some st.tokens.length
    allocated := st.tokens.length + 1 }

/-- The place `tokens_back` points to, read from the pointers. -/
def Heap.back (h : Heap) : Back :=
  match h.tokens_back with
  | none => .last
  | some a =>
    match h.nodes.findIdx? (fun nd => nd.addr == a) with
    | none => .freed
    | some i => if i + 1 = h.nodes.length then .last else .inner (h.nodes.length - (i + 2))

/-! ## The lexer of `TokenizeCode` -/

/-- What surrounds the tokenizer: the platform, the files that `std::ifstream` can open (with
their content) and `SameFileName` of `CommonCheck.h`. -/
structure Env where
  P : Platform
  fs : String → Option (List Char)
  SameFileName : String → String → Bool

/-- How a call of the tokenizer ends. -/
inductive Outcome where
  /-- The call returns with this state. -/
  | ok (st : State)
  /-- The call leaves through `std::out_of_range`, thrown by `std::string::erase`. -/
  | out_of_range
  /-- The behaviour is undefined: the call reads `Files.back()` of an empty vector, writes
  behind the 1000 characters of `CurrentToken` or reads them without a terminating NUL, or
  links a node through a `tokens_back` that points to a freed node. -/
  | undefined
  /-- The bound on the number of iterations is used up. -/
  | fuel
deriving DecidableEq, Repr

/-- The text of a character buffer read as a C string: the characters before the first NUL. -/
def cstr (buf : List Char) : String := ⟨buf.takeWhile (· != Char.ofNat 0)⟩

/-- The character that `(char)code.get()` gives at the end of the stream: `(char)EOF`. -/
def eofChar : Char := Char.ofNat 255

/-- `std::getline`: the line up to the next line feed, and the stream after the line feed. -/
def getline (code : List Char) : List Char × List Char :=
  (code.takeWhile (· != '\n'), (code.dropWhile (· != '\n')).tail)

/-- `std::string::find` of a pattern: whether `pat` occurs in `l`. -/
def hasSub (pat l : List Char) : Bool := l.tails.any fun t => pat.isPrefixOf t

/-- The position after the last `\` or `/` of a path, if it has one: `1 + find_last_of`. -/
def dirLength (path : List Char) : Option Nat :=
  let r := path.reverse.dropWhile fun c => !(c == '\\' || c == '/')
  if r = [] then none else some r.length

/-- The states of the scan of a `#define` line. -/
inductive DefState where
  | Space1 | Id | Space2 | Value
deriving DecidableEq, Repr

/-- The scan of a `#define` line from index 8: the state, `strId` and `CurrentToken` at the
end of the loop.  `CurrentToken` holds 1000 characters: `none` when the scan writes behind
them, or copies them to `strId` without a terminating NUL. -/
def scanDefine : List Char → DefState → Option String → List Char →
    Option (DefState × Option String × List Char)
  | [], State, strId, cur => some (State, strId, cur)
  | c :: rest, State, strId, cur =>
    match State with
    | .Space1 => if isspace c then scanDefine rest .Space1 strId cur
                 else if cur.length < 1000 then scanDefine rest .Id strId (cur ++ [c])
                 else none
    | .Space2 => if isspace c then scanDefine rest .Space2 strId cur
                 else if cur.length < 1000 then scanDefine rest .Value strId (cur ++ [c])
                 else none
    | .Id => if isspace c then
               if cur.length < 1000 then scanDefine rest .Space2 (some (cstr cur)) [] else none
             else if !isalnum c then some (.Id, strId, cur)
             else if cur.length < 1000 then scanDefine rest .Id strId (cur ++ [c])
             else none
    | .Value => if cur.length < 1000 then scanDefine rest .Value strId (cur ++ [c]) else none

/-- The branch of `TokenizeCode` for a `#define` line (`line` starts with `#define`): the
tokens `def`, the name and `;`, then `Define`, when the scan ends in the state `Value`;
`none` when the scan leaves the 1000 characters of `CurrentToken` or `Define` reads them
without a terminating NUL. -/
def defineDirective (P : Platform) (line : List Char) (lineno FileIndex : Nat) (st : State) :
    Option State :=
  match scanDefine (line.drop 8) .Space1 none [] with
  | none => none
  | some (.Value, some strId, cur) =>
    if cur.length < 1000 then
      let st1 := addtoken P "def" lineno FileIndex st
      let st2 := addtoken P strId lineno FileIndex st1
      let st3 := addtoken P ";" lineno FileIndex st2
      some { st3 with dsymlist := Define P strId (cstr cur) st3.dsymlist }
    else none
  | some _ => some st

/-- The loop of a block comment: reads up to and including the closing `*/`, counting the
line feeds. -/
def skipBlockComment : List Char → Char → Char → Nat → List Char × Nat
  | [], _, _, lineno => ([], lineno)
  | c :: rest, chPrev, ch, lineno =>
    if chPrev != '*' || ch != '/' then
      skipBlockComment rest ch c (if c == '\n' then lineno + 1 else lineno)
    else (c :: rest, lineno)

/-- The `do ... while` loop of a string literal after a character has been appended: the
buffer and the stream when the loop is left.  Appending stops 10 characters before the end of
the buffer of 1000 characters. -/
def readString : List Char → Bool → List Char → List Char × List Char
  | [], _, buf => (buf, [])
  | c :: rest, special, buf =>
    if special || c != '"' then
      readString rest (if special then false else c == '\\')
        (if buf.length < 990 then buf ++ [c] else buf)
    else (buf, rest)

/-- The tokens of a line comment: `delete`, the first word and `;` when the comment follows a
new statement and contains ` deleted `. -/
def commentTokens (P : Platform) (newstatement : Bool) (comment : List Char)
    (lineno FileIndex : Nat) (st : State) : State :=
  let comment := comment ++ [' ']
  if newstatement && hasSub " deleted ".data comment then
    let st1 := addtoken P "delete" lineno FileIndex st
    let w := comment.dropWhile fun c => c == ' ' || c == '\t'
    let firstWord := w.takeWhile fun c => c != ' '
    let st2 := addtoken P (cstr firstWord) lineno FileIndex st1
    addtoken P ";" lineno FileIndex st2
  else st

/-- The variables of the reading loop of `TokenizeCode`. -/
structure Lex where
  code : List Char
  CurrentToken : List Char
  lineno : Nat
  st : State
deriving DecidableEq, Repr

/-- The end of the loop body of `TokenizeCode`, from the branch of the character literal on,
for the character `ch` and the stream `code` after it, when `CurrentToken` holds the
characters `cur` and they are fewer than 1000 (the reading loop stops before this body when
the 1000 characters are used up). -/
def lexChar (P : Platform) (FileIndex : Nat) (ch : Char) (code : List Char)
    (cur : List Char) (lineno : Nat) (st : State) : Lex :=
  if ch == '\'' then
    let st1 := addtoken P (cstr cur) lineno FileIndex st
    let c1 := code.headD eofChar
    let c2 := code.tail.headD eofChar
    let tok := if c1 == '\\' then [ch, c1, c2, code.tail.tail.headD eofChar] else [ch, c1, c2]
    let code2 := if c1 == '\\' then code.drop 3 else code.drop 2
    { code := code2, CurrentToken := [], lineno := lineno,
      st := addtoken P (cstr tok) lineno FileIndex st1 }
  else if ch == '"' then
    let st1 := addtoken P (cstr cur) lineno FileIndex st
    let r := readString code false ['"']
    { code := r.2, CurrentToken := [], lineno := lineno,
      st := addtoken P (cstr (r.1 ++ ['"'])) lineno FileIndex st1 }
  else if strchr "+-*/%&|^?!=<>[]()\x7b\x7d;:,." ch then
    let st1 := addtoken P (cstr cur) lineno FileIndex st
    { code := code, CurrentToken := [], lineno := lineno,
      st := addtoken P (cstr [ch]) lineno FileIndex st1 }
  else if isspace ch || iscntrl ch then
    { code := code, CurrentToken := [], lineno := lineno,
      st := addtoken P (cstr cur) lineno FileIndex st }
  else
    { code := code, CurrentToken := cur ++ [ch], lineno := lineno, st := st }

/-- The three loops at the end of `TokenizeCode`: combination, `->` to `.`, typedef.  The
typedef loop gets the bound `n`.  None of the loops writes `tokens_back`: the place it
points to afterwards is read from the same loops on the pointers. -/
def finishTokens (n : Nat) (st : State) : Outcome :=
  if st.tokens_back = .undefined then .undefined
  else
    match typedefLoop n (arrowLoop (combineLoop st.tokens)),
        Heap.typedefLoop n 0 (Heap.arrowLoop (Heap.combineLoop st.tokens.length 0 st.heap)) with
    | some l, some h => .ok { st with tokens := l, tokens_back := h.back }
    | _, _ => .fuel

/-- The reading loop of `TokenizeCode`, and through `#include` the functions `Tokenize` and
`TokenizeCode` for the included file.  The first argument bounds the number of iterations of
the reading loop (over all files) and of each typedef loop.  The behaviour is undefined once
a node has been linked through a freed `tokens_back`, and when a character that is not
skipped and starts no directive arrives while `CurrentToken` holds 1000 characters: every
branch it can take reads the buffer as a C string or appends to it. -/
def lexLoop (E : Env) : Nat → Nat → Lex → Outcome
  | 0, _, _ => .fuel
  | n + 1, FileIndex, L =>
    if L.st.tokens_back = .undefined then .undefined
    else
    match L.code with
    | [] => .ok L.st
    | ch :: code =>
      if ch.toNat ≥ 128 then lexLoop E n FileIndex { L with code := code }
      else if ch == '#' && cstr L.CurrentToken == "" then
        let line := '#' :: (getline code).1
        let code1 := (getline code).2
        if "#include".data.isPrefixOf line && line.contains '"' then
          let line1 := (line.dropWhile (· != '"')).tail
          if !line1.contains '"' then .out_of_range
          else
            let line2 := line1.takeWhile (· != '"')
            match L.st.Files.getLast? with
            | none => .undefined
            | some back =>
              let line3 := match dirLength back.data with
                | some k => back.data.take k ++ line2
                | none => line2
              let st1 := addtoken E.P "#include" L.lineno FileIndex L.st
              let st2 := addtoken E.P (cstr line3) L.lineno FileIndex st1
              let FileName := cstr line3
              let included : Outcome :=
                if st2.Files.any (fun f => E.SameFileName f FileName) then .ok st2
                else
                  let st3 := { st2 with Files := st2.Files ++ [FileName] }
                  match lexLoop E n (st3.Files.length - 1)
                      { code := (E.fs FileName).getD [], CurrentToken := [], lineno := 1,
                        st := st3 } with
                  | .ok st4 => finishTokens n st4
                  | o => o
              match included with
              | .ok st5 =>
                lexLoop E n FileIndex
                  { code := code1, CurrentToken := L.CurrentToken, lineno := L.lineno + 1,
                    st := st5 }
              | o => o
        else if "#define".data.isPrefixOf line then
          match defineDirective E.P line L.lineno FileIndex L.st with
          | none => .undefined
          | some st1 =>
            lexLoop E n FileIndex
              { code := code1, CurrentToken := [], lineno := L.lineno + 1, st := st1 }
        else
          let st1 := addtoken E.P "#" L.lineno FileIndex L.st
          lexLoop E n FileIndex
            { code := code1, CurrentToken := L.CurrentToken, lineno := L.lineno + 1,
              st := addtoken E.P ";" L.lineno FileIndex st1 }
      else if L.CurrentToken.length ≥ 1000 then .undefined
      else if ch == '\n' then
        lexLoop E n FileIndex
          { code := code, CurrentToken := [], lineno := L.lineno + 1,
            st := addtoken E.P (cstr L.CurrentToken) L.lineno FileIndex L.st }
      else if ch == '/' then
        let newstatement := strchr ";\x7b\x7d" (L.CurrentToken.headD (Char.ofNat 0))
        let st1 := addtoken E.P (cstr L.CurrentToken) L.lineno FileIndex L.st
        let ch2 := code.headD eofChar
        let code2 := code.tail
        if ch2 == '/' then
          lexLoop E n FileIndex
            { code := (getline code2).2, CurrentToken := [], lineno := L.lineno + 1,
              st := commentTokens E.P newstatement (getline code2).1 L.lineno FileIndex st1 }
        else if ch2 == '*' then
          let r := skipBlockComment code2 'A' 'A' L.lineno
          lexLoop E n FileIndex { code := r.1, CurrentToken := [], lineno := r.2, st := st1 }
        else
          let st2 := addtoken E.P "/" L.lineno FileIndex st1
          lexLoop E n FileIndex (lexChar E.P FileIndex ch2 code2 [] L.lineno st2)
      else
        lexLoop E n FileIndex (lexChar E.P FileIndex ch code L.CurrentToken L.lineno L.st)

/-- The function `TokenizeCode` on the stream `code`. -/
def TokenizeCode (E : Env) (n : Nat) (code : List Char) (FileIndex : Nat) (st : State) :
    Outcome :=
  match lexLoop E n FileIndex { code := code, CurrentToken := [], lineno := 1, st := st } with
  | .ok st1 => finishTokens n st1
  | o => o

/-- The function `Tokenize` on the stream `code` of the file `FileName`. -/
def Tokenize (E : Env) (n : Nat) (code : List Char) (FileName : String) (st : State) :
    Outcome :=
  if st.Files.any (fun f => E.SameFileName f FileName) then .ok st
  else
    let st1 := { st with Files := st.Files ++ [FileName] }
    TokenizeCode E n code (st1.Files.length - 1) st1

/-- An environment without files, on the LP64 platform, where file names are compared as
texts. -/
def env0 : Env := { P := lp64, fs := fun _ => none, SameFileName := fun a b => a == b }

/-- The texts of the token list a call returns with, if it returns. -/
def tokenTexts : Outcome → Option (List String)
  | .ok st => some (texts st.tokens)
  | _ => none

/-! ## The passes of `SimplifyTokenList` -/

/-- A loop `for (tok = ...; tok; tok = tok->next) body`, with `tok` the head of the list.
The body gets the list from `tok` on and gives back the nodes it is done with, from the old
`tok` up to the node `tok` points to when the body ends, and the nodes after them, at which
the loop goes on; a body that leaves with `break` is done with all nodes.  The first argument
bounds the number of iterations; when it is used up the rest is left as it is. -/
def forTok (body : List TOKEN → List TOKEN × List TOKEN) : Nat → List TOKEN → List TOKEN
  | _, [] => []
  | 0, tok :: rest => tok :: rest
  | n + 1, tok :: rest => (body (tok :: rest)).1 ++ forTok body n (body (tok :: rest)).2

/-- A body that does not move `tok`: the loop goes on at the node after the head. -/
def stay (l : List TOKEN) : List TOKEN × List TOKEN := (l.take 1, l.drop 1)

/-- The first loop of `SimplifyTokenList`: the keyword `unsigned` after `tok` is deleted. -/
def unsignedBody (l : List TOKEN) : List TOKEN × List TOKEN :=
  stay (if getstr l 1 = "unsigned" ∧ gettok l 1 ≠ [] then DeleteNextToken l else l)

/-- The inner loop of the constant replacement: a token with the text `sym` gets the text
`num`. -/
def constRepl (sym num : String) (t : TOKEN) : TOKEN :=
  if t.str = sym then { t with str := num } else t

/-- The body of the loop "Replace constants": the list from `tok` on after the body. -/
def constAt (l : List TOKEN) : List TOKEN :=
  if Match l [.lit "const", .type, .var, .lit "=", .num, .lit ";"] then
    l.take 6 ++ (gettok l 6).map (constRepl (getstr l 2) (getstr l 4))
  else l

/-- The body of the loop "Replace constants". -/
def constBody (l : List TOKEN) : List TOKEN × List TOKEN := stay (constAt l)

/-- The map `TypeSize`: the latest entry for a name comes first. -/
abbrev TypeSizeMap := List (String × Nat)

/-- The function `SizeOfType`: the size in the map, 0 for a name without entry. -/
def SizeOfType (TypeSize : TypeSizeMap) (type : String) : Int :=
  match TypeSize.lookup type with
  | some n => wrap32 n
  | none => 0

/-- The entries of `TypeSize` for the builtin types. -/
def builtinTypeSize (P : Platform) : TypeSizeMap :=
  [("double", P.sizeof_double), ("float", P.sizeof_float), ("long", P.sizeof_long),
   ("int", P.sizeof_int), ("short", P.sizeof_short), ("char", P.sizeof_char)]

/-- The loop "Fill the map TypeSize" from `tok` on: `class` names get 11, `struct` names 13. -/
def fillTypeSize : List TOKEN → TypeSizeMap → TypeSizeMap
  | [], m => m
  | tok :: rest, m =>
    if Match (tok :: rest) [.lit "class", .var] then
      fillTypeSize rest ((getstr (tok :: rest) 1, 11) :: m)
    else if Match (tok :: rest) [.lit "struct", .var] then
      fillTypeSize rest ((getstr (tok :: rest) 1, 13) :: m)
    else fillTypeSize rest m

/-- The text of `tok` is replaced and the `k` nodes after it are deleted. -/
def replaceAndDelete (str : String) (k : Nat) : List TOKEN → List TOKEN
  | [] => []
  | tok :: rest => { tok with str := str } :: rest.drop k

/-- The body of the loop "Replace 'sizeof(type)'": the list from `tok` on after the body. -/
def sizeofTypeAt (P : Platform) (TypeSize : TypeSizeMap) (l : List TOKEN) : List TOKEN :=
  if getstr l 0 ≠ "sizeof" then l
  else if Match l [.lit "sizeof", .lit "(", .type, .lit "*", .lit ")"] then
    replaceAndDelete (toString P.sizeof_ptr) 4 l
  else if Match l [.lit "sizeof", .lit "(", .type, .lit ")"] then
    if SizeOfType TypeSize (getstr l 2) > 0 then
      replaceAndDelete (toString (SizeOfType TypeSize (getstr l 2))) 3 l
    else l
  else l

/-- The body of the loop "Replace 'sizeof(type)'". -/
def sizeofTypeBody (P : Platform) (TypeSize : TypeSizeMap) (l : List TOKEN) :
    List TOKEN × List TOKEN :=
  stay (sizeofTypeAt P TypeSize l)

/-- The inner loop of "Replace 'sizeof(var)'" from `tok2` on, with the brace depth
`indentlevel`; the first argument bounds the number of iterations. -/
def sizeofVarScan (varname : String) (total_size : Int) : Nat → Int → List TOKEN → List TOKEN
  | _, _, [] => []
  | 0, _, tok2 :: rest => tok2 :: rest
  | n + 1, indentlevel, tok2 :: rest =>
    if str0 tok2.str == '\x7b' then
      tok2 :: sizeofVarScan varname total_size n (indentlevel + 1) rest
    else if str0 tok2.str == '\x7d' then
      if indentlevel - 1 < 0 then tok2 :: rest
      else tok2 :: sizeofVarScan varname total_size n (indentlevel - 1) rest
    else if Match (tok2 :: rest) [.lit "sizeof", .lit "(", .var, .lit ")"] then
      if getstr (tok2 :: rest) 2 = varname then
        { tok2 with str := toString total_size } ::
          sizeofVarScan varname total_size n indentlevel (rest.drop 3)
      else tok2 :: sizeofVarScan varname total_size n indentlevel rest
    else tok2 :: sizeofVarScan varname total_size n indentlevel rest

/-- The body of the loop "Replace 'sizeof(var)'": the list from `tok` on after the body. -/
def sizeofVarAt (P : Platform) (TypeSize : TypeSizeMap) (l : List TOKEN) : List TOKEN :=
  if !Match l [.type, .var, .lit "[", .num, .lit "]", .lit ";"] then l
  else if SizeOfType TypeSize (getstr l 0) ≤ 0 then l
  else
    l.take 5 ++ sizeofVarScan (getstr l 1)
      (wrap32 (SizeOfType TypeSize (getstr l 0) * atoi P (getstr l 3)))
      (gettok l 5).length 0 (gettok l 5)

/-- The body of the loop "Replace 'sizeof(var)'". -/
def sizeofVarBody (P : Platform) (TypeSize : TypeSizeMap) (l : List TOKEN) :
    List TOKEN × List TOKEN :=
  stay (sizeofVarAt P TypeSize l)

/-- The `switch` of the simple calculations: the result of `i1 op i2` as an `int`; `none`
when the division traps, which it does for a divisor 0 and for `INT_MIN / -1`. -/
def calcOp (op : Char) (i1 i2 : Int) : Option Int :=
  if op == '+' then some (wrap32 (i1 + i2))
  else if op == '-' then some (wrap32 (i1 - i2))
  else if op == '*' then some (wrap32 (i1 * i2))
  else if op == '/' then
    if i2 = 0 ∨ (i1 = -2 ^ 31 ∧ i2 = -1) then none else some (wrap32 (Int.tdiv i1 i2))
  else some i1

/-- The first statement of the body of the simple calculations: `* 1` or `1 *` after `tok`
is deleted; the flag tells whether it was. -/
def calcDeleteOne (l : List TOKEN) : List TOKEN × Bool :=
  if Match (gettok l 1) [.lit "*", .lit "1"] || Match (gettok l 1) [.lit "1", .lit "*"] then
    (DeleteNextToken (DeleteNextToken l), true)
  else (l, false)

/-- The condition of the second statement of the body of the simple calculations. -/
def calcCond (l : List TOKEN) : Bool :=
  strchr "[,(=<>" (str0 (getstr l 0)) && IsNumber (getstr l 1) &&
    strchr "+-*/" (str0 (getstr l 2)) && IsNumber (getstr l 3) &&
    strchr "],);=<>" (str0 (getstr l 4))

/-- The body of the `for` loop of the simple calculations; the flag tells whether `done` was
set to `false`; `none` when the division traps. -/
def calcBody (P : Platform) (l : List TOKEN) : Option ((List TOKEN × List TOKEN) × Bool) :=
  let d := calcDeleteOne l
  if calcCond d.1 then
    if atoi P (getstr d.1 3) = 0 ∧ str0 (getstr d.1 2) = '/' then some (stay d.1, d.2)
    else
      match calcOp (str0 (getstr d.1 2)) (atoi P (getstr d.1 1)) (atoi P (getstr d.1 3)) with
      | none => none
      | some i1 =>
        some ((d.1.take 1 ++ replaceAndDelete (toString i1) 2 ((gettok d.1 1).take 3),
          gettok d.1 4), true)
  else some (stay d.1, d.2)

/-- The `for` loop of the simple calculations from `tok` on: the list after the sweep, and
whether `done` was set to `false`; `none` when a division traps. -/
def calcSweep (P : Platform) : Nat → List TOKEN → Option (List TOKEN × Bool)
  | _, [] => some ([], false)
  | 0, tok :: rest => some (tok :: rest, false)
  | n + 1, tok :: rest =>
    match calcBody P (tok :: rest) with
    | none => none
    | some b =>
      match calcSweep P n b.1.2 with
      | none => none
      | some r => some (b.1.1 ++ r.1, b.2 || r.2)

/-- How the simple calculations, and with them `SimplifyTokenList`, end. -/
inductive Simplified where
  /-- The loops end with this list. -/
  | done (l : List TOKEN)
  /-- A division traps: the signal stops the process inside the loop. -/
  | trap
  /-- The bound on the number of iterations is used up. -/
  | fuel
deriving DecidableEq, Repr

/-- The loop `while (!done)` of the simple calculations; the first argument bounds the number
of sweeps. -/
def calcWhile (P : Platform) : Nat → List TOKEN → Simplified
  | 0, _ => .fuel
  | n + 1, l =>
    match calcSweep P l.length l with
    | none => .trap
    | some r => if r.2 then calcWhile P n r.1 else .done r.1

/-- The body of the loop that replaces `*(str + num)` by `str[num]`. -/
def pointerBody (l : List TOKEN) : List TOKEN × List TOKEN :=
  if !strchr ";\x7b\x7d(=<>" (str0 (getstr l 0)) then stay l
  else if gettok l 1 = [] then (l, [])
  else if Match (gettok l 1) [.lit "*", .lit "(", .var, .lit "+", .num, .lit ")"] then
    match l with
    | tok :: t1 :: t2 :: t3 :: t4 :: rest =>
      ([tok, { t1 with str := getstr l 3 }, { t2 with str := "[" },
        { t3 with str := getstr l 5 }, { t4 with str := "]" }], rest.drop 2)
    | _ => stay l
  else stay l

/-- The chain of `Match` calls of the declaration splitting on `type0`: the index of `tok2`
counted from `type0`, and `typelen`. -/
def splitShape (type0 : List TOKEN) : Option (Nat × Nat) :=
  if Match type0 [.type, .var, .lit ","] then some (2, 1)
  else if Match type0 [.type, .lit "*", .var, .lit ","] then some (3, 1)
  else if Match type0 [.type, .var, .lit "[", .num, .lit "]", .lit ","] then some (5, 1)
  else if Match type0 [.type, .lit "*", .var, .lit "[", .num, .lit "]", .lit ","] then some (6, 1)
  else if Match type0 [.lit "struct", .type, .var, .lit ","] then some (3, 2)
  else if Match type0 [.lit "struct", .type, .lit "*", .var, .lit ","] then some (4, 2)
  else if Match type0 [.type, .var, .lit "="] then some (2, 1)
  else if Match type0 [.type, .lit "*", .var, .lit "="] then some (3, 1)
  else if Match type0 [.lit "struct", .type, .lit "*", .var, .lit "="] then some (4, 2)
  else none

/-- The loop `while (tok2)` of the declaration splitting from `tok2` on, with the depth
`parlevel`: `none` when the loop ends without a `;` or `,` at depth 0, otherwise the list with
a found `,` turned into `;` followed by the copies `ins` of the type. -/
def splitScan (ins : List TOKEN) : Int → List TOKEN → Option (List TOKEN)
  | _, [] => none
  | parlevel, tok2 :: rest =>
    if strchr "\x7b(" (str0 tok2.str) then
      (splitScan ins (parlevel + 1) rest).map (tok2 :: ·)
    else if strchr "\x7d)" (str0 tok2.str) then
      if parlevel < 0 then none
      else (splitScan ins (parlevel - 1) rest).map (tok2 :: ·)
    else if parlevel == 0 && strchr ";," (str0 tok2.str) then
      if str0 tok2.str == ',' then
        some (InsertTokens ({ tok2 with str := ";" } :: rest) ins ins.length)
      else some (tok2 :: rest)
    else (splitScan ins parlevel rest).map (tok2 :: ·)

/-- The body of the loop "Split up variable declarations". -/
def splitBody (l : List TOKEN) : List TOKEN × List TOKEN :=
  if !strchr "\x7b\x7d;" (str0 (getstr l 0)) then stay l
  else if gettok l 1 = [] then (l, [])
  else if getstr l 1 = "else" then stay l
  else
    let type0 := gettok l 1
    match splitShape type0 with
    | none => stay l
    | some (k, typelen) =>
      match gettok type0 k with
      | [] => stay l
      | tok2 :: after =>
        if str0 tok2.str == ',' then
          stay (l.take (k + 1) ++
            InsertTokens ({ tok2 with str := ";" } :: after) type0 typelen)
        else
          let VarTok :=
            if str0 (getstr type0 typelen) == '*' then gettok type0 (typelen + 1)
            else gettok type0 typelen
          match splitScan (type0.take typelen) 0 (tok2 :: after) with
          | some (eq :: after2) =>
            stay (l.take (k + 1) ++ InsertTokens ({ eq with str := ";" } :: after2) VarTok 2)
          | _ => stay l

/-- The loop "Split up variable declarations"; it inserts nodes, the first argument bounds
the number of iterations, `none` when it is used up. -/
def splitLoop : Nat → List TOKEN → Option (List TOKEN)
  | _, [] => some []
  | 0, _ :: _ => none
  | n + 1, tok :: rest =>
    (splitLoop n (splitBody (tok :: rest)).2).map ((splitBody (tok :: rest)).1 ++ ·)

/-- The first loop of `SimplifyTokenList` run from `tokens`. -/
def unsignedPass (l : List TOKEN) : List TOKEN := forTok unsignedBody l.length l

/-- The loop "Replace constants" run from `tokens`. -/
def constPass (l : List TOKEN) : List TOKEN := forTok constBody l.length l

/-- The loop "Replace 'sizeof(type)'" run from `tokens`. -/
def sizeofTypePass (P : Platform) (TypeSize : TypeSizeMap) (l : List TOKEN) : List TOKEN :=
  forTok (sizeofTypeBody P TypeSize) l.length l

/-- The loop "Replace 'sizeof(var)'" run from `tokens`. -/
def sizeofVarPass (P : Platform) (TypeSize : TypeSizeMap) (l : List TOKEN) : List TOKEN :=
  forTok (sizeofVarBody P TypeSize) l.length l

/-- The loop that replaces `*(str + num)` by `str[num]` run from `tokens`. -/
def pointerPass (l : List TOKEN) : List TOKEN := forTok pointerBody l.length l

/-- The function `SimplifyTokenList` on the list `tokens`; the argument `n` bounds the number
of sweeps of the simple calculations and the number of iterations of the declaration
splitting. -/
def SimplifyTokenList (P : Platform) (n : Nat) (tokens : List TOKEN) : Simplified :=
  let l2 := constPass (unsignedPass tokens)
  let TypeSize := fillTypeSize l2 (builtinTypeSize P)
  match calcWhile P n (sizeofVarPass P TypeSize (sizeofTypePass P TypeSize l2)) with
  | .done l5 =>
    match splitLoop n (pointerPass l5) with
    | some l6 => .done l6
    | none => .fuel
  | o => o

/-- The tokens with the given texts, on line 1 of file 0. -/
def toks (l : List String) : List TOKEN := l.map fun s => ⟨s, 1, 0⟩

/-- The texts of the list the simple calculations end with, if they end. -/
def doneTexts : Simplified → Option (List String)
  | .done l => some (texts l)
  | _ => none

/-- What the constant replacement can do to one token: leave it, or give a token whose text
is a name the text of a number. -/
def ConstStep (t t2 : TOKEN) : Prop :=
  t2 = t ∨ (IsName t.str = true ∧ IsNumber t2.str = true)

/-- The names `NAME` of the statements `const T NAME = NUM ;` that the loop "Replace constants"
finds in its first `n` iterations on the list `l`, in the order of the iterations. -/
def constNames : Nat → List TOKEN → List String
  | 0, _ => []
  | _ + 1, [] => []
  | n + 1, tok :: rest =>
    (if Match (tok :: rest) [.lit "const", .type, .var, .lit "=", .num, .lit ";"] then
      [getstr (tok :: rest) 2] else []) ++ constNames n (constBody (tok :: rest)).2

/-- What the constant replacement can do to one token when no constant has a name of `K`:
leave it, or give a token whose text is a name outside `K` the text of a number. -/
def ConstKeep (K : List String) (t t2 : TOKEN) : Prop :=
  t2 = t ∨ (IsName t.str = true ∧ t.str ∉ K ∧ IsNumber t2.str = true)

/-- The value of `NUM1 OP NUM2` in the words of the spec: 32-bit signed arithmetic with
truncating division. -/
def foldValue (op : String) (i1 i2 : Int) : Int :=
  if op = "+" then wrap32 (i1 + i2)
  else if op = "-" then wrap32 (i1 - i2)
  else if op = "*" then wrap32 (i1 * i2)
  else wrap32 (Int.tdiv i1 i2)

/-- The brace depth after a token: one more after a token that starts with `{`, one less
after a token that starts with `}`. -/
def braceStep (lvl : Int) (t : TOKEN) : Int :=
  if str0 t.str == '\x7b' then lvl + 1 else if str0 t.str == '\x7d' then lvl - 1 else lvl

/-- The brace depth after a list of tokens. -/
def depthAfter (lvl : Int) (l : List TOKEN) : Int := l.foldl braceStep lvl

/-- The tokens are inside the scope that is open at depth `lvl`: the depth never becomes
negative. -/
def InScope (lvl : Int) : List TOKEN → Bool
  | [] => true
  | t :: rest => decide (0 ≤ braceStep lvl t) && InScope (braceStep lvl t) rest

/-- The inner loop of "Replace 'sizeof(var)'" with the length of the list as the bound. -/
def sizeofVarScanAll (varname : String) (total_size : Int) (lvl : Int) (l : List TOKEN) :
    List TOKEN :=
  sizeofVarScan varname total_size l.length lvl l

/-- No match of `sizeof ( %var% )` that starts at an earlier token reaches into `w`. -/
def NoReach (w : List TOKEN) : Prop :=
  ∀ (t : TOKEN) (pre : List TOKEN), pre.length < 3 →
    Match (t :: pre ++ w) [.lit "sizeof", .lit "(", .var, .lit ")"] = false

/-- The tokens `a1 , a2 , ... , an` of a declaration, each variable but the last paired with
the comma after it, followed by `rest`. -/
def declTail (vs : List (TOKEN × TOKEN)) (an : TOKEN) (rest : List TOKEN) : List TOKEN :=
  match vs with
  | [] => an :: rest
  | (a, c) :: vs2 => a :: c :: declTail vs2 an rest

/-- The split declaration in the words of the spec: `T a1 ; T a2 ; ... ; T an`, where each `;`
is the node of the former comma. -/
def splitOut (T : TOKEN) (vs : List (TOKEN × TOKEN)) (an : TOKEN) : List TOKEN :=
  match vs with
  | [] => [T, an]
  | (a, c) :: vs2 => T :: a :: { c with str := ";" } :: splitOut T vs2 an

/-- The body never leaves more nodes after `tok` than there were. -/
def Shrinks (body : List TOKEN → List TOKEN × List TOKEN) : Prop :=
  ∀ (t : TOKEN) (rest : List TOKEN), (body (t :: rest)).2.length ≤ rest.length

/-- The body does not look at, and does not change, the nodes from `w` on. -/
def LocalTo (body : List TOKEN → List TOKEN × List TOKEN) (w : List TOKEN) : Prop :=
  ∀ (t : TOKEN) (pre : List TOKEN),
    body (t :: pre ++ w) = ((body (t :: pre)).1, (body (t :: pre)).2 ++ w)

/-- A text that the simple calculations neither delete nor fold: not `*`, not `1`, not a
number and not an operator. -/
def Inert (s : String) : Prop :=
  s ≠ "*" ∧ s ≠ "1" ∧ IsNumber s = false ∧ strchr "+-*/" (str0 s) = false

/-- The `for` loop of the simple calculations with the length of the list as the bound. -/
def calcSweepAll (P : Platform) (l : List TOKEN) : Option (List TOKEN × Bool) :=
  calcSweep P l.length l

/-- No number token of the list is read by `atoi` as -1, which takes a literal of at least
4294967295: no division of the simple calculations has the divisor -1. -/
def NoMinusOne (P : Platform) (l : List TOKEN) : Prop :=
  ∀ t ∈ l, IsNumber t.str = true → atoi P t.str ≠ -1

/-- A run of adjacent tokens that every sweep of the simple calculations that returns keeps,
whatever stands before and after it. -/
def Stable (P : Platform) (S : List TOKEN) : Prop :=
  ∀ (A B : List TOKEN) (r : List TOKEN × Bool), calcSweepAll P (A ++ S ++ B) = some r →
    ∃ A2 B2, r.1 = A2 ++ S ++ B2

/-! ## The combination scan, as the spec words it -/

/-- The combination scan in the words of the spec: going from left to right, an adjacent pair
whose texts are one of the 19 idioms becomes one token with the concatenated text, and the scan
goes on after it. -/
def fuseSpec : List TOKEN → List TOKEN
  | [] => []
  | [t] => [t]
  | a :: b :: rest =>
    if (a.str, b.str) ∈ combinePairs then { a with str := a.str ++ b.str } :: fuseSpec rest
    else a :: fuseSpec (b :: rest)

/-- How the loop `while (tokenstr[i])` of `findtoken` is left: at the null entry that ends the
pattern, by `break` at an entry that differs from the token, or by `return NULL` at the end of
the token list. -/
inductive ScanEnd where
  | matched
  | mismatch
  | listEnd
deriving DecidableEq, Repr

/-- The loop `while (tokenstr[i])` of `findtoken` from the token `tok` and the entry
`tokenstr[i]` on; the pattern is the list of its entries before the null entry. -/
def findtoken.scan : List TOKEN → List String → ScanEnd
  | _, [] => .matched
  | [], _ :: _ => .listEnd
  | tok :: rest, s :: ss =>
    if s ≠ "" ∧ s ≠ tok.str then .mismatch else findtoken.scan rest ss

/-- The function `findtoken`: the list from the returned token on, `none` for `NULL`. -/
def findtoken : List TOKEN → List String → Option (List TOKEN)
  | [], _ => none
  | ret :: rest, tokenstr =>
    match findtoken.scan (ret :: rest) tokenstr with
    | .matched => some (ret :: rest)
    | .listEnd => none
    | .mismatch => findtoken rest tokenstr

/-- The function `DeallocateTokens`: the nodes of the token list and of the list of defined
symbols are freed and both lists are left empty, `tokens_back` is null; `Files` is not
touched. -/
def DeallocateTokens (st : State) : State :=
  { st with tokens := [], dsymlist := [], tokens_back := .last }

/-- In the words of the spec: the tokens that the pattern needs, counted from the head of `l`,
all exist, and each entry of the pattern is the empty text or the text of its token. -/
def MatchesAt (l : List TOKEN) (p : List String) : Prop :=
  ∀ i, i < p.length → ∃ t, l[i]? = some t ∧ (p[i]? = some "" ∨ p[i]? = some t.str)

/-- An environment with the one header file `src/sub/a.h`, whose text is `int a;`, on the LP64
platform, where file names are compared as texts. -/
def envHeader : Env :=
  { P := lp64
    fs := fun f => if f = "src/sub/a.h" then some "int a;\n".data else none
    SameFileName := fun a b => a == b }

/-- An environment without files, on the LP64 platform, whose `SameFileName` is reflexive and
not transitive: it takes `f.c` and `G.c` for the same file, and `G.c` and `F.c`, but not
`f.c` and `F.c`. -/
def envLoose : Env :=
  { P := lp64
    fs := fun _ => none
    SameFileName := fun a b =>
      a == b || (a == "f.c" && b == "G.c") || (a == "G.c" && b == "F.c") }

/-! ## The alias `u32`, as the spec words it -/

/-- In the words of the spec: every `u32` token replaced by the two tokens `unsigned` `int`,
the second one on the line and in the file of the first. -/
def aliasExpand (l : List TOKEN) : List TOKEN :=
  l.flatMap fun t =>
    if t.str = "u32" then [{ t with str := "unsigned" }, ⟨"int", t.linenr, t.FileIndex⟩] else [t]

/-- In the words of the spec: the same tokens written directly with `int` in place of `u32`. -/
def aliasDirect (l : List TOKEN) : List TOKEN :=
  l.map fun t => if t.str = "u32" then { t with str := "int" } else t

/-- No `unsigned` token is directly followed by `unsigned` or by `u32`. -/
def PlainUnsigned (l : List TOKEN) : Prop :=
  List.Chain' (fun a b => a.str = "unsigned" → b.str ≠ "unsigned" ∧ b.str ≠ "u32") l

/-! ## The initializer of a declaration, as the spec words it -/

/-- In the words of the spec: the initializer, read from the depth `lvl`, closes every `(` and
`\x7b` it opens and nothing more, ends at depth 0, and has no `;` or `,` at depth 0. -/
def InitOk : Int → List TOKEN → Bool
  | lvl, [] => lvl == 0
  | lvl, t :: rest =>
    if strchr "\x7b(" (str0 t.str) then InitOk (lvl + 1) rest
    else if strchr "\x7d)" (str0 t.str) then decide (1 ≤ lvl) && InitOk (lvl - 1) rest
    else if lvl == 0 && strchr ";," (str0 t.str) then false
    else InitOk lvl rest

/-- In the words of the spec: what follows the initializer after the split: the `;` that ends
the declaration, or for a `,` the `;` it becomes and a copy of the type. -/
def initTail (ins : List TOKEN) (term : TOKEN) (rest : List TOKEN) : List TOKEN :=
  if term.str = "," then { term with str := ";" } :: (ins ++ rest) else term :: rest

/-- Whether the loop "Split up variable declarations" passes over the tokens `X`, which are
followed by `tail`, without a change: at every token of `X` the body leaves the list as it is
and the loop goes on at the next token. -/
def splitKeeps (tail : List TOKEN) : List TOKEN → Bool
  | [] => true
  | t :: X => splitBody (t :: (X ++ tail)) == ([t], X ++ tail) && splitKeeps tail X

/-- In the words of the spec: going from left to right, a token whose first character is one
of `; { } ( = < >` (the test of the source, `strchr`) and that is directly followed by the six
tokens `* ( V + N )`, `V` a variable name and `N` a numeric literal, keeps its place, the six
tokens become the four tokens `V [ N ]` and the scan goes on after them; every other token is
kept as it is. -/
def subscriptSpec : List TOKEN → List TOKEN
  | [] => []
  | [t] => [t]
  | [t, a] => [t, a]
  | [t, a, b] => [t, a, b]
  | [t, a, b, c] => [t, a, b, c]
  | [t, a, b, c, d] => [t, a, b, c, d]
  | [t, a, b, c, d, e] => [t, a, b, c, d, e]
  | t :: a :: b :: c :: d :: e :: f :: r =>
    if strchr ";\x7b\x7d(=<>" (str0 t.str) ∧ a.str = "*" ∧ b.str = "(" ∧ IsName c.str = true ∧
        d.str = "+" ∧ IsNumber e.str = true ∧ f.str = ")" then
      t :: { a with str := c.str } :: { b with str := "[" } :: { c with str := e.str } ::
        { d with str := "]" } :: subscriptSpec r
    else t :: subscriptSpec (a :: b :: c :: d :: e :: f :: r)

/-! ## The calls of `addtoken` by the reading loop -/

/-- In the words of the spec: `tokens_back` is null when the list is empty and otherwise
points to the last node reachable from `tokens`. -/
def TailOk (h : Heap) : Bool := h.tokens_back == h.nodes.getLast?.map Node.addr

/-! ## Properties of the combination scan -/

theorem combine_2tokens_skip (s1 s2 s : String) (ln fi : Nat) (l : List TOKEN) (h : s ≠ s1) :
    combine_2tokens s1 s2 (⟨s, ln, fi⟩ :: l) = ⟨s, ln, fi⟩ :: l := by
  cases l with
  | nil => rfl
  | cons b rest => simp [combine_2tokens, h]

theorem combine_2tokens_skip2 (s1 s2 sa sb : String) (la fa lb fb : Nat) (l : List TOKEN)
    (h : ¬ sa = s1 ∨ ¬ sb = s2) :
    combine_2tokens s1 s2 (⟨sa, la, fa⟩ :: ⟨sb, lb, fb⟩ :: l) =
      ⟨sa, la, fa⟩ :: ⟨sb, lb, fb⟩ :: l := by
  simp only [combine_2tokens]
  rw [if_pos]
  simpa using h

theorem combine_2tokens_fire2 (s1 s2 : String) (la fa lb fb : Nat) (l : List TOKEN) :
    combine_2tokens s1 s2 (⟨s1, la, fa⟩ :: ⟨s2, lb, fb⟩ :: l) = ⟨s1 ++ s2, la, fa⟩ :: l := by
  simp [combine_2tokens, DeleteNextToken]

theorem combineAt_pair (a b : TOKEN) (rest : List TOKEN) :
    combineAt (a :: b :: rest) =
      if (a.str, b.str) ∈ combinePairs then { a with str := a.str ++ b.str } :: rest
      else a :: b :: rest := by
  obtain ⟨sa, la, fa⟩ := a
  obtain ⟨sb, lb, fb⟩ := b
  by_cases h : (sa, sb) ∈ combinePairs
  · rw [if_pos h]
    simp only [combinePairs, List.mem_cons, Prod.mk.injEq, List.mem_singleton,
      List.not_mem_nil, or_false] at h
    rcases h with h | h | h | h | h | h | h | h | h | h | h | h | h | h | h | h | h | h | h <;>
    · obtain ⟨rfl, rfl⟩ := h
      simp only [combineAt, combinePairs, List.foldl_cons, List.foldl_nil]
      simp (disch := decide) only [combine_2tokens_skip2, combine_2tokens_fire2,
        combine_2tokens_skip]
  · rw [if_neg h]
    simp only [combinePairs, List.mem_cons, Prod.mk.injEq, List.mem_singleton,
      List.not_mem_nil, or_false, not_or, not_and_or] at h
    simp only [combineAt, combinePairs, List.foldl_cons, List.foldl_nil]
    obtain ⟨h1, h2, h3, h4, h5, h6, h7, h8, h9, h10, h11, h12, h13, h14, h15, h16, h17, h18,
      h19⟩ := h
    simp only [combine_2tokens_skip2 _ _ _ _ _ _ _ _ _ h1, combine_2tokens_skip2 _ _ _ _ _ _ _ _ _ h2,
      combine_2tokens_skip2 _ _ _ _ _ _ _ _ _ h3, combine_2tokens_skip2 _ _ _ _ _ _ _ _ _ h4,
      combine_2tokens_skip2 _ _ _ _ _ _ _ _ _ h5, combine_2tokens_skip2 _ _ _ _ _ _ _ _ _ h6,
      combine_2tokens_skip2 _ _ _ _ _ _ _ _ _ h7, combine_2tokens_skip2 _ _ _ _ _ _ _ _ _ h8,
      combine_2tokens_skip2 _ _ _ _ _ _ _ _ _ h9, combine_2tokens_skip2 _ _ _ _ _ _ _ _ _ h10,
      combine_2tokens_skip2 _ _ _ _ _ _ _ _ _ h11, combine_2tokens_skip2 _ _ _ _ _ _ _ _ _ h12,
      combine_2tokens_skip2 _ _ _ _ _ _ _ _ _ h13, combine_2tokens_skip2 _ _ _ _ _ _ _ _ _ h14,
      combine_2tokens_skip2 _ _ _ _ _ _ _ _ _ h15, combine_2tokens_skip2 _ _ _ _ _ _ _ _ _ h16,
      combine_2tokens_skip2 _ _ _ _ _ _ _ _ _ h17, combine_2tokens_skip2 _ _ _ _ _ _ _ _ _ h18,
      combine_2tokens_skip2 _ _ _ _ _ _ _ _ _ h19]

theorem combineLoopN_step (n : Nat) (a b : TOKEN) (rest : List TOKEN) :
    combineLoopN (n + 1) (a :: b :: rest) =
      match combineAt (a :: b :: rest) with
      | [] => []
      | tok2 :: rest2 => tok2 :: combineLoopN n rest2 := rfl

theorem combineLoopN_eq_fuseSpec (n : Nat) (l : List TOKEN) (h : l.length ≤ n) :
    combineLoopN n l = fuseSpec l := by
  induction n generalizing l with
  | zero =>
    have : l = [] := List.length_eq_zero.mp (Nat.le_zero.mp h)
    subst this
    rfl
  | succ n ih =>
    match l with
    | [] => rfl
    | [t] => rfl
    | a :: b :: rest =>
      rw [combineLoopN_step, combineAt_pair, fuseSpec]
      simp only [List.length_cons] at h
      by_cases hp : (a.str, b.str) ∈ combinePairs
      · rw [if_pos hp, if_pos hp]
        simp only
        rw [ih rest (by omega)]
      · rw [if_neg hp, if_neg hp]
        simp only
        rw [ih (b :: rest) (by simp only [List.length_cons]; omega)]

theorem combineLoop_eq_fuseSpec (l : List TOKEN) : combineLoop l = fuseSpec l :=
  combineLoopN_eq_fuseSpec l.length l (le_refl _)

theorem minus_not_second : ∀ p ∈ combinePairs, p.2 ≠ "-" := by decide

theorem fuseSpec_cons_cons (a b : TOKEN) (rest : List TOKEN) :
    fuseSpec (a :: b :: rest) =
      if (a.str, b.str) ∈ combinePairs then { a with str := a.str ++ b.str } :: fuseSpec rest
      else a :: fuseSpec (b :: rest) := by
  rw [fuseSpec]

theorem fuseSpec_arrow (pre post : List TOKEN) (m g : TOKEN) (hm : m.str = "-")
    (hg : g.str = ">") :
    fuseSpec (pre ++ m :: g :: post) = fuseSpec pre ++ { m with str := "->" } :: fuseSpec post := by
  have hmg : (m.str, g.str) ∈ combinePairs := by rw [hm, hg]; decide
  have e : m.str ++ g.str = "->" := by rw [hm, hg]; rfl
  induction pre using fuseSpec.induct with
  | case1 =>
    show fuseSpec (m :: g :: post) = _
    rw [fuseSpec_cons_cons, if_pos hmg, e]
    rfl
  | case2 t =>
    have ht : (t.str, m.str) ∉ combinePairs := by
      intro h
      exact minus_not_second _ h hm
    show fuseSpec (t :: m :: g :: post) = _
    rw [fuseSpec_cons_cons, if_neg ht, fuseSpec_cons_cons, if_pos hmg, e]
    rfl
  | case3 a b rest hp ih =>
    show fuseSpec (a :: b :: (rest ++ m :: g :: post)) = _
    rw [fuseSpec_cons_cons, if_pos hp, ih, fuseSpec_cons_cons, if_pos hp]
    rfl
  | case4 a b rest hp ih =>
    have ih2 : fuseSpec (b :: (rest ++ m :: g :: post)) = _ := ih
    show fuseSpec (a :: b :: (rest ++ m :: g :: post)) = _
    rw [fuseSpec_cons_cons, if_neg hp, ih2, fuseSpec_cons_cons, if_neg hp]
    rfl

theorem arrowLoop_no_arrow (l : List TOKEN) : "->" ∉ texts (arrowLoop l) := by
  simp only [texts, arrowLoop, List.map_map, List.mem_map, Function.comp, not_exists, not_and]
  intro t _
  by_cases h : t.str = "->"
  · simp [h]
  · simp only [if_neg h]
    exact h

theorem IsName_ne_arrow (s : String) (h : IsName s = true) : s ≠ "->" := by
  rintro rfl
  revert h
  decide

theorem typedefRepl3_no_arrow (t1 t2 t3 : String) (l : List TOKEN) (h1 : t1 ≠ "->")
    (h2 : t2 ≠ "->") (h : "->" ∉ texts l) : "->" ∉ texts (typedefRepl3 t1 t2 t3 l) := by
  induction l with
  | nil => simp [typedefRepl3, texts]
  | cons t rest ih =>
    simp only [texts, List.map_cons, List.mem_cons, not_or] at h
    have ih2 := ih h.2
    simp only [typedefRepl3]
    split
    · simp only [texts, List.map_cons, List.mem_cons, not_or]
      exact ⟨fun e => h1 e.symm, fun e => h2 e.symm, ih2⟩
    · simp only [texts, List.map_cons, List.mem_cons, not_or]
      exact ⟨h.1, ih2⟩

theorem typedefRepl2_no_arrow (t1 t2 : String) (t : TOKEN) (h1 : t1 ≠ "->")
    (h : t.str ≠ "->") : (typedefRepl2 t1 t2 t).str ≠ "->" := by
  unfold typedefRepl2
  split
  · exact h1
  · exact h

theorem typedefAt_no_arrow (l : List TOKEN) (h : "->" ∉ texts l) :
    "->" ∉ texts (typedefAt l) := by
  unfold typedefAt
  split
  · rename_i hm
    match l, hm, h with
    | tok :: t1 :: t2 :: rest, hm, h =>
      simp only [Match, Pat.ok, Bool.and_eq_true] at hm
      simp only [texts, List.map_cons, List.mem_cons, not_or, List.mem_map, not_exists,
        not_and, List.map_map] at h ⊢
      have hn := IsName_ne_arrow _ hm.2.1
      refine ⟨fun e => typedefRepl2_no_arrow _ _ _ hn (fun e2 => h.1 e2.symm) e.symm,
        h.2.1, h.2.2.1, ?_⟩
      intro t ht e
      exact typedefRepl2_no_arrow _ _ _ hn (fun e2 => h.2.2.2 t ht e2) e
    | [], _, h => exact h
    | [_], _, h => exact h
    | [_, _], _, h => exact h
  · split
    · rename_i hm
      match l, hm, h with
      | tok :: t1 :: t2 :: t3 :: rest, hm, h =>
        simp only [Match, Pat.ok, Bool.and_eq_true] at hm
        have hn1 := IsName_ne_arrow _ hm.2.1
        have hn2 := IsName_ne_arrow _ hm.2.2.1
        have hr : "->" ∉ texts rest := by
          simp only [texts, List.map_cons, List.mem_cons, not_or] at h
          exact h.2.2.2.2
        have := typedefRepl3_no_arrow t1.str t2.str t3.str rest hn1 hn2 hr
        simp only [texts, List.map_cons, List.mem_cons, not_or] at h ⊢
        exact ⟨h.1, h.2.1, h.2.2.1, h.2.2.2.1, this⟩
      | [], _, h => exact h
      | [_], _, h => exact h
      | [_, _], _, h => exact h
      | [_, _, _], _, h => exact h
    · exact h

theorem typedefLoop_no_arrow (n : Nat) (l r : List TOKEN) (h : "->" ∉ texts l)
    (hr : typedefLoop n l = some r) : "->" ∉ texts r := by
  induction n generalizing l r with
  | zero =>
    cases l with
    | nil => simp only [typedefLoop, Option.some.injEq] at hr; subst hr; exact h
    | cons t rest => simp [typedefLoop] at hr
  | succ n ih =>
    cases l with
    | nil => simp only [typedefLoop, Option.some.injEq] at hr; subst hr; exact h
    | cons t rest =>
      have h2 := typedefAt_no_arrow _ h
      simp only [typedefLoop] at hr
      split at hr
      · simp only [Option.some.injEq] at hr; subst hr; simp [texts]
      · rename_i tok2 rest2 he
        rw [he] at h2
        simp only [texts, List.map_cons, List.mem_cons, not_or] at h2
        simp only [Option.map_eq_some'] at hr
        obtain ⟨r2, hr2, rfl⟩ := hr
        simp only [texts, List.map_cons, List.mem_cons, not_or]
        exact ⟨h2.1, ih rest2 r2 h2.2 hr2⟩

theorem finishTokens_no_arrow (n : Nat) (st st2 : State) (h : finishTokens n st = .ok st2) :
    "->" ∉ texts st2.tokens := by
  unfold finishTokens at h
  split at h
  · exact absurd h (by simp)
  · split at h
    · rename_i l hp hl hh
      simp only [Outcome.ok.injEq] at h
      subst h
      exact typedefLoop_no_arrow n _ l (arrowLoop_no_arrow _) hl
    · simp at h

theorem TokenizeCode_no_arrow (E : Env) (n : Nat) (code : List Char) (FileIndex : Nat)
    (st st2 : State) (h : TokenizeCode E n code FileIndex st = .ok st2) :
    "->" ∉ texts st2.tokens := by
  unfold TokenizeCode at h
  split at h
  · exact finishTokens_no_arrow n _ _ h
  · rename_i o ho
    exact absurd h (ho st2)

/-- C3, with the last part on tokens: `x -> y` and `x . y` both give the tokens `x`, `.`, `y`;
when `TokenizeCode` returns no token has the text `->`; and every token `-` directly followed
by a token `>` in the lexed list has become one token `.`, the tokens before and after being
scanned on their own. -/
theorem member_access_normalized :
    tokenTexts (TokenizeCode env0 20 "x -> y\n".data 0 State.empty) = some ["x", ".", "y"] ∧
    tokenTexts (TokenizeCode env0 20 "x . y\n".data 0 State.empty) = some ["x", ".", "y"] ∧
    (∀ (E : Env) (n : Nat) (code : List Char) (FileIndex : Nat) (st st2 : State),
      TokenizeCode E n code FileIndex st = .ok st2 → "->" ∉ texts st2.tokens) ∧
    (∀ (pre post : List TOKEN) (m g : TOKEN), m.str = "-" → g.str = ">" →
      arrowLoop (combineLoop (pre ++ m :: g :: post)) =
        arrowLoop (combineLoop pre) ++ { m with str := "." } :: arrowLoop (combineLoop post)) := by
  refine ⟨by decide, by decide, TokenizeCode_no_arrow, ?_⟩
  intro pre post m g hm hg
  rw [combineLoop_eq_fuseSpec, combineLoop_eq_fuseSpec, combineLoop_eq_fuseSpec,
    fuseSpec_arrow pre post m g hm hg]
  simp [arrowLoop]

theorem member_access_normalized_witness :
    "->" ∉ texts [(⟨"p", 1, 0⟩ : TOKEN), ⟨".", 1, 0⟩, ⟨"q", 1, 0⟩] ∧
    arrowLoop (combineLoop ([(⟨"p", 1, 0⟩ : TOKEN)] ++ ⟨"-", 1, 0⟩ :: ⟨">", 1, 0⟩ :: [⟨"q", 1, 0⟩])) =
      arrowLoop (combineLoop [⟨"p", 1, 0⟩]) ++ ⟨".", 1, 0⟩ :: arrowLoop (combineLoop [⟨"q", 1, 0⟩]) :=
  ⟨member_access_normalized.2.2.1 env0 20 "p->q\n".data 0 State.empty
      { Files := [], tokens := [⟨"p", 1, 0⟩, ⟨".", 1, 0⟩, ⟨"q", 1, 0⟩], dsymlist := [],
        tokens_back := .last }
      (by decide),
   member_access_normalized.2.2.2 [⟨"p", 1, 0⟩] [⟨"q", 1, 0⟩] ⟨"-", 1, 0⟩ ⟨">", 1, 0⟩
      (by decide) (by decide)⟩

/-- C3, as stated, fails on a string literal: the input has a `-` directly followed by `>`,
and the tokens are `s`, `=`, the string literal and `;`, none of them `.`. -/
theorem arrow_in_string_literal :
    hasSub "->".data "s = \"a->b\" ;\n".data = true ∧
    tokenTexts (TokenizeCode env0 20 "s = \"a->b\" ;\n".data 0 State.empty) =
      some ["s", "=", "\"a->b\"", ";"] ∧
    "." ∉ ["s", "=", "\"a->b\"", ";"] := by
  decide

/-! ## Character classes -/

theorem isdigit_range (c : Char) (h : isdigit c = true) : 48 ≤ c.toNat ∧ c.toNat ≤ 57 := by
  simp only [isdigit, Bool.and_eq_true, decide_eq_true_eq] at h
  exact h

theorem isxdigit_range (c : Char) (h : isxdigit c = true) :
    (48 ≤ c.toNat ∧ c.toNat ≤ 57) ∨ (97 ≤ c.toNat ∧ c.toNat ≤ 102) ∨
      (65 ≤ c.toNat ∧ c.toNat ≤ 70) := by
  simp only [isxdigit, isdigit, Bool.or_eq_true, Bool.and_eq_true, decide_eq_true_eq] at h
  rcases h with (h | h) | h
  · exact Or.inl h
  · exact Or.inr (Or.inl h)
  · exact Or.inr (Or.inr h)

theorem isalnum_range (c : Char) (h : isalnum c = true) :
    (48 ≤ c.toNat ∧ c.toNat ≤ 57) ∨ (97 ≤ c.toNat ∧ c.toNat ≤ 122) ∨
      (65 ≤ c.toNat ∧ c.toNat ≤ 90) := by
  simp only [isalnum, isalpha, isdigit, Bool.or_eq_true, Bool.and_eq_true,
    decide_eq_true_eq] at h
  rcases h with (h | h) | h
  · exact Or.inr (Or.inl h)
  · exact Or.inr (Or.inr h)
  · exact Or.inl h

theorem isspace_range (c : Char) (h : isspace c = true) :
    c.toNat = 32 ∨ (9 ≤ c.toNat ∧ c.toNat ≤ 13) := by
  simp only [isspace, Bool.or_eq_true, Bool.and_eq_true, decide_eq_true_eq, beq_iff_eq] at h
  rcases h with h | h
  · left; rw [h]; rfl
  · exact Or.inr h

theorem isspace_false_of_ge (c : Char) (h : 48 ≤ c.toNat) : isspace c = false := by
  cases hs : isspace c with
  | false => rfl
  | true =>
    rcases isspace_range c hs with h1 | h1 <;> omega

theorem ne_of_toNat_lt (c d : Char) (h : d.toNat < c.toNat) : c ≠ d := by
  rintro rfl
  exact lt_irrefl _ h

theorem isxdigit_ge (c : Char) (h : isxdigit c = true) : 48 ≤ c.toNat := by
  rcases isxdigit_range c h with h1 | h1 | h1 <;> omega

theorem isalnum_ge (c : Char) (h : isalnum c = true) : 48 ≤ c.toNat := by
  rcases isalnum_range c h with h1 | h1 | h1 <;> omega

/-! ## Hexadecimal lexemes -/

theorem takeWhile_all {α : Type} (p : α → Bool) (l : List α) (h : l.all p = true) :
    l.takeWhile p = l := by
  induction l with
  | nil => rfl
  | cons a l ih =>
    simp only [List.all_cons, Bool.and_eq_true] at h
    simp [List.takeWhile_cons, h.1, ih h.2]

theorem skipSign_of_ge (c : Char) (r : List Char) (hc : 48 ≤ c.toNat) :
    skipSign (c :: r) = c :: r := by
  have h1 : c ≠ '-' := ne_of_toNat_lt c '-' (lt_of_lt_of_le (by decide) hc)
  have h2 : c ≠ '+' := ne_of_toNat_lt c '+' (lt_of_lt_of_le (by decide) hc)
  simp [skipSign, h1, h2]

theorem skip0x_hex (H : List Char) (hx : H.all isxdigit = true) : skip0x H = H := by
  unfold skip0x
  split
  · rename_i x d r2
    simp only [List.all_cons, Bool.and_eq_true] at hx
    have hxr := isxdigit_range x hx.2.1
    have e1 : x ≠ 'x' := by
      intro e; subst e
      have : ('x' : Char).toNat = 120 := rfl
      omega
    have e2 : x ≠ 'X' := by
      intro e; subst e
      have : ('X' : Char).toNat = 88 := rfl
      omega
    simp [e1, e2]
  · rfl

theorem strtoul16_hex (P : Platform) (H : List Char) (hx : H.all isxdigit = true)
    (hv : hexValue H ≤ P.ULONG_MAX) : strtoul16 P H = hexValue H := by
  cases H with
  | nil => simp [strtoul16, skipSign, skip0x, hexValue]
  | cons c r =>
    have hx2 := hx
    simp only [List.all_cons, Bool.and_eq_true] at hx2
    have hc := isxdigit_ge c hx2.1
    have hsp : isspace c = false := isspace_false_of_ge c hc
    have h1 : c ≠ '-' := ne_of_toNat_lt c '-' (lt_of_lt_of_le (by decide) hc)
    have hd : (c :: r).dropWhile isspace = c :: r := by simp [List.dropWhile_cons, hsp]
    unfold strtoul16
    simp only [hd, skipSign_of_ge c r hc, skip0x_hex (c :: r) hx,
      takeWhile_all isxdigit (c :: r) hx]
    simp [Nat.not_lt.mpr hv, h1]

/-- C2, with the macro table and the tail pointer taken into account: when `tokens_back`
points to the last node of the stream (or is null for the empty stream), `addtoken` on the
lexeme `0x` followed by the hexadecimal digits `H`, whose value fits in an `unsigned long`,
links exactly one new token at the tail and changes nothing else; its text is the decimal
value of `H`, unless a symbol named by the lexeme is defined, whose value is then the text;
with no symbol defined `0x2A` gives `42`. -/
theorem addtoken_hex (P : Platform) (H : List Char) (lineno fileno : Nat) (st : State)
    (_hne : H ≠ []) (hx : H.all isxdigit = true) (hv : hexValue H ≤ P.ULONG_MAX)
    (hb : st.tokens_back = .last) :
    addtoken P ⟨'0' :: 'x' :: H⟩ lineno fileno st =
      { st with tokens := st.tokens ++
          [⟨(lookupDefine ⟨'0' :: 'x' :: H⟩ st.dsymlist).getD (toString (hexValue H)),
            lineno, fileno⟩] } ∧
    addtoken lp64 "0x2A" lineno fileno { st with dsymlist := [] } =
      { st with dsymlist := [], tokens := st.tokens ++ [⟨"42", lineno, fileno⟩] } := by
  constructor
  · simp only [addtoken, List.cons_ne_nil, if_false, addtoken.text, List.take_succ_cons,
      List.take_zero, if_true, List.drop_succ_cons, List.drop_zero, strtoul16_hex P H hx hv, hb]
    cases lookupDefine ⟨'0' :: 'x' :: H⟩ st.dsymlist <;> rfl
  · simp only [addtoken, hb]
    rfl

theorem addtoken_hex_witness :
    addtoken lp64 ⟨'0' :: 'x' :: ['f', 'F']⟩ 3 0 State.empty =
      { State.empty with tokens := State.empty.tokens ++ [⟨(lookupDefine ⟨'0' :: 'x' :: ['f', 'F']⟩
        State.empty.dsymlist).getD (toString (hexValue ['f', 'F'])), 3, 0⟩] } :=
  (addtoken_hex lp64 ['f', 'F'] 3 0 State.empty (by decide) (by decide) (by decide) rfl).1

/-- C2, as stated, fails when the lexeme is the name of a defined symbol: after
`#define 0x2A 7` the lexeme `0x2A` is stored with the text `7`, not `42`. -/
theorem hex_lexeme_defined :
    tokenTexts (TokenizeCode env0 40 "#define 0x2A 7\n0x2A\n".data 0 State.empty) =
      some ["def", "42", ";", "7"] ∧
    (addtoken lp64 "0x2A" 2 0 { State.empty with dsymlist := [⟨"0x2A", "7"⟩] }).tokens =
      [⟨"7", 2, 0⟩] ∧
    toString (hexValue "2A".data) = "42" := by
  decide

/-! ## `#define` and the substitution at creation -/

theorem scanDefine_Value (v : List Char) (strId : Option String) (cur : List Char)
    (hl : cur.length + v.length ≤ 1000) :
    scanDefine v .Value strId cur = some (.Value, strId, cur ++ v) := by
  induction v generalizing cur with
  | nil => simp [scanDefine]
  | cons c v ih =>
    simp only [List.length_cons] at hl
    have h1 : cur.length < 1000 := by omega
    have h2 : (cur ++ [c]).length + v.length ≤ 1000 := by
      simp only [List.length_append, List.length_singleton]; omega
    simp [scanDefine, h1, ih (cur ++ [c]) h2]

theorem scanDefine_Id_cons (c : Char) (rest : List Char) (strId : Option String)
    (cur : List Char) (hl : cur.length < 1000) :
    scanDefine (c :: rest) .Id strId cur =
      if isspace c then scanDefine rest .Space2 (some (cstr cur)) []
      else if !isalnum c then some (.Id, strId, cur)
      else scanDefine rest .Id strId (cur ++ [c]) := by
  simp only [scanDefine, hl, if_true]

theorem scanDefine_Id (name rest : List Char) (strId : Option String) (cur : List Char)
    (h : name.all isalnum = true) (hl : cur.length + name.length < 1000) :
    scanDefine (name ++ ' ' :: rest) .Id strId cur =
      scanDefine rest .Space2 (some (cstr (cur ++ name))) [] := by
  induction name generalizing cur with
  | nil =>
    show scanDefine (' ' :: rest) .Id strId cur = _
    rw [scanDefine_Id_cons _ _ _ _ (by simpa using hl), if_pos (by decide), List.append_nil]
  | cons c name ih =>
    simp only [List.all_cons, Bool.and_eq_true] at h
    simp only [List.length_cons] at hl
    have hsp := isspace_false_of_ge c (isalnum_ge c h.1)
    have h2 : (cur ++ [c]).length + name.length < 1000 := by
      simp only [List.length_append, List.length_singleton]; omega
    show scanDefine (c :: (name ++ ' ' :: rest)) .Id strId cur = _
    rw [scanDefine_Id_cons _ _ _ _ (by omega), hsp, h.1, ih (cur ++ [c]) h.2 h2,
      List.append_assoc]
    rfl

theorem all_ge_of_isalnum (l : List Char) (h : l.all isalnum = true) :
    ∀ c ∈ l, 48 ≤ c.toNat := by
  intro c hc
  exact isalnum_ge c (List.all_eq_true.mp h c hc)

theorem scanDefine_Space_cons (c : Char) (rest : List Char) (strId : Option String)
    (cur : List Char) (h : isspace c = false) (hl : cur.length < 1000) :
    scanDefine (c :: rest) .Space1 strId cur = scanDefine rest .Id strId (cur ++ [c]) ∧
    scanDefine (c :: rest) .Space2 strId cur = scanDefine rest .Value strId (cur ++ [c]) := by
  constructor <;> simp [scanDefine, h, hl]

theorem forTok_succ (body : List TOKEN → List TOKEN × List TOKEN) (n : Nat) (t : TOKEN)
    (rest : List TOKEN) :
    forTok body (n + 1) (t :: rest) =
      (body (t :: rest)).1 ++ forTok body n (body (t :: rest)).2 := rfl

theorem forTok_nil (body : List TOKEN → List TOKEN × List TOKEN) (n : Nat) :
    forTok body n [] = [] := by
  cases n <;> rfl

theorem forTok_fuel_aux (body : List TOKEN → List TOKEN × List TOKEN) (hs : Shrinks body)
    (n : Nat) : ∀ (m : Nat) (l : List TOKEN), l.length ≤ n → l.length ≤ m →
      forTok body n l = forTok body m l := by
  induction n with
  | zero =>
    intro m l h _
    have : l = [] := List.length_eq_zero.mp (Nat.le_zero.mp h)
    subst this
    rw [forTok_nil, forTok_nil]
  | succ n ih =>
    intro m l h hm
    cases l with
    | nil => rw [forTok_nil, forTok_nil]
    | cons t rest =>
      cases m with
      | zero => simp at hm
      | succ m =>
        simp only [List.length_cons, Nat.add_le_add_iff_right] at h hm
        rw [forTok_succ, forTok_succ]
        rw [ih m _ (le_trans (hs t rest) h) (le_trans (hs t rest) hm)]

/-- With a body that does not add nodes, the length of the list bounds the number of
iterations: more fuel gives the same list. -/
theorem forTok_fuel (body : List TOKEN → List TOKEN × List TOKEN) (hs : Shrinks body)
    (n : Nat) (l : List TOKEN) (h : l.length ≤ n) :
    forTok body n l = forTok body l.length l :=
  forTok_fuel_aux body hs n l.length l h (le_refl _)

theorem forTok_append_aux (body : List TOKEN → List TOKEN × List TOKEN) (hs : Shrinks body)
    (w : List TOKEN) (hl : LocalTo body w) (k : Nat) : ∀ (pre : List TOKEN), pre.length ≤ k →
      forTok body (pre ++ w).length (pre ++ w) =
        forTok body pre.length pre ++ forTok body w.length w := by
  induction k with
  | zero =>
    intro pre h
    have : pre = [] := List.length_eq_zero.mp (Nat.le_zero.mp h)
    subst this
    simp [forTok_nil]
  | succ k ih =>
    intro pre h
    cases pre with
    | nil => simp [forTok_nil]
    | cons t pre =>
      simp only [List.length_cons, Nat.add_le_add_iff_right] at h
      have hsh := hs t pre
      show forTok body ((pre ++ w).length + 1) (t :: (pre ++ w)) =
        forTok body (pre.length + 1) (t :: pre) ++ _
      rw [forTok_succ, forTok_succ]
      have e : body (t :: (pre ++ w)) = ((body (t :: pre)).1, (body (t :: pre)).2 ++ w) :=
        hl t pre
      rw [e]
      simp only
      rw [forTok_fuel body hs (pre ++ w).length ((body (t :: pre)).2 ++ w)
        (by simp only [List.length_append]; omega)]
      rw [ih _ (le_trans hsh h)]
      rw [forTok_fuel body hs pre.length (body (t :: pre)).2 hsh, List.append_assoc]

/-- A loop whose body is local to `w` treats the nodes before `w` and the nodes from `w` on
separately. -/
theorem forTok_append (body : List TOKEN → List TOKEN × List TOKEN) (hs : Shrinks body)
    (w : List TOKEN) (hl : LocalTo body w) (pre : List TOKEN) :
    forTok body (pre ++ w).length (pre ++ w) =
      forTok body pre.length pre ++ forTok body w.length w :=
  forTok_append_aux body hs w hl pre.length pre (le_refl _)

theorem stay_shrinks (l : List TOKEN) (rest : List TOKEN)
    (h : l.length ≤ rest.length + 1) : (stay l).2.length ≤ rest.length := by
  simp only [stay, List.length_drop]
  omega

theorem Match_length (l : List TOKEN) (pat : List Pat) (h : Match l pat = true) :
    pat.length ≤ l.length := by
  induction pat generalizing l with
  | nil => simp
  | cons p ps ih =>
    cases l with
    | nil => simp [Match] at h
    | cons t ts =>
      simp only [Match, Bool.and_eq_true] at h
      simp only [List.length_cons, Nat.add_le_add_iff_right]
      exact ih ts h.2

theorem Match_nil (l : List TOKEN) : Match l [] = true := by
  cases l <;> rfl

theorem Match_cons (t : TOKEN) (ts : List TOKEN) (p : Pat) (ps : List Pat) :
    Match (t :: ts) (p :: ps) = (p.ok t && Match ts ps) := rfl

theorem Match_append (l w : List TOKEN) (pat : List Pat) (h : pat.length ≤ l.length) :
    Match (l ++ w) pat = Match l pat := by
  induction pat generalizing l with
  | nil => rw [Match_nil, Match_nil]
  | cons p ps ih =>
    cases l with
    | nil => simp at h
    | cons t ts =>
      simp only [List.length_cons, Nat.add_le_add_iff_right] at h
      show Match (t :: (ts ++ w)) (p :: ps) = _
      rw [Match_cons, Match_cons, ih ts h]

theorem stay_append (x w : List TOKEN) (h : x ≠ []) :
    stay (x ++ w) = ((stay x).1, (stay x).2 ++ w) := by
  cases x with
  | nil => exact absurd rfl h
  | cons a x => simp [stay]

theorem forTok_canon (body : List TOKEN → List TOKEN × List TOKEN) (hs : Shrinks body)
    (t : TOKEN) (rest : List TOKEN) :
    forTok body (t :: rest).length (t :: rest) =
      (body (t :: rest)).1 ++ forTok body (body (t :: rest)).2.length (body (t :: rest)).2 := by
  show forTok body (rest.length + 1) (t :: rest) = _
  rw [forTok_succ, forTok_fuel body hs rest.length _ (hs t rest)]

/-! ## `sizeof` of a type -/

theorem replaceAndDelete_length (str : String) (k : Nat) (l : List TOKEN) :
    (replaceAndDelete str k l).length ≤ l.length := by
  cases l with
  | nil => simp [replaceAndDelete]
  | cons t rest => simp [replaceAndDelete]

theorem sizeofTypeAt_length (P : Platform) (ts : TypeSizeMap) (l : List TOKEN) :
    (sizeofTypeAt P ts l).length ≤ l.length := by
  unfold sizeofTypeAt
  split
  · exact le_refl _
  · split
    · exact replaceAndDelete_length _ _ _
    · split
      · split
        · exact replaceAndDelete_length _ _ _
        · exact le_refl _
      · exact le_refl _

theorem sizeofTypeBody_shrinks (P : Platform) (ts : TypeSizeMap) :
    Shrinks (sizeofTypeBody P ts) := by
  intro t rest
  exact stay_shrinks _ rest (sizeofTypeAt_length P ts (t :: rest))

theorem sizeofTypeAt_ne_nil (P : Platform) (ts : TypeSizeMap) (t : TOKEN) (l : List TOKEN) :
    sizeofTypeAt P ts (t :: l) ≠ [] := by
  unfold sizeofTypeAt
  split
  · simp
  · split
    · simp [replaceAndDelete]
    · split
      · split
        · simp [replaceAndDelete]
        · simp
      · simp

theorem replaceAndDelete_append (str : String) (k : Nat) (t : TOKEN) (pre w : List TOKEN)
    (h : k ≤ pre.length) :
    replaceAndDelete str k (t :: pre ++ w) = replaceAndDelete str k (t :: pre) ++ w := by
  simp [replaceAndDelete, List.drop_append_of_le_length h]

theorem getstr_cons_append (t : TOKEN) (pre w : List TOKEN) (i : Nat) (h : i ≤ pre.length) :
    getstr (t :: pre ++ w) i = getstr (t :: pre) i := by
  unfold getstr gettok
  cases i with
  | zero => rfl
  | succ i =>
    simp only [List.cons_append, List.drop_succ_cons]
    have h2 : i < pre.length := h
    rw [List.drop_append_of_le_length (le_of_lt h2)]
    cases hd : pre.drop i with
    | nil =>
      have := List.drop_eq_nil_iff.mp hd
      omega
    | cons a r => rfl

theorem Match_sizeof5_local (t : TOKEN) (pre w : List TOKEN) (w0 w1 : TOKEN)
    (h0 : w0.str = "sizeof") (h1 : w1.str = "(") :
    Match (t :: pre ++ w0 :: w1 :: w) [.lit "sizeof", .lit "(", .type, .lit "*", .lit ")"] =
      Match (t :: pre) [.lit "sizeof", .lit "(", .type, .lit "*", .lit ")"] := by
  rcases pre with _ | ⟨a, _ | ⟨b, _ | ⟨c, _ | ⟨d, r⟩⟩⟩⟩
  · simp [Match, Pat.ok, h0, h1]
  · simp [Match, Pat.ok, h0, h1]
  · simp [Match, Pat.ok, h0, h1]
  · simp [Match, Pat.ok, h0, h1]
  · exact Match_append (t :: a :: b :: c :: d :: r) _ _ (by simp)

theorem Match_sizeof4_local (t : TOKEN) (pre w : List TOKEN) (w0 w1 : TOKEN)
    (h0 : w0.str = "sizeof") (h1 : w1.str = "(") :
    Match (t :: pre ++ w0 :: w1 :: w) [.lit "sizeof", .lit "(", .type, .lit ")"] =
      Match (t :: pre) [.lit "sizeof", .lit "(", .type, .lit ")"] := by
  rcases pre with _ | ⟨a, _ | ⟨b, _ | ⟨c, r⟩⟩⟩
  · simp [Match, Pat.ok, h0, h1]
  · simp [Match, Pat.ok, h0, h1]
  · simp [Match, Pat.ok, h0, h1]
  · exact Match_append (t :: a :: b :: c :: r) _ _ (by simp)

theorem sizeofTypeBody_local (P : Platform) (ts : TypeSizeMap) (w : List TOKEN) (w0 w1 : TOKEN)
    (h0 : w0.str = "sizeof") (h1 : w1.str = "(") :
    LocalTo (sizeofTypeBody P ts) (w0 :: w1 :: w) := by
  intro t pre
  have key : sizeofTypeAt P ts (t :: pre ++ w0 :: w1 :: w) =
      sizeofTypeAt P ts (t :: pre) ++ w0 :: w1 :: w := by
    unfold sizeofTypeAt
    rw [Match_sizeof5_local t pre w w0 w1 h0 h1, Match_sizeof4_local t pre w w0 w1 h0 h1]
    have g0 : getstr (t :: pre ++ w0 :: w1 :: w) 0 = getstr (t :: pre) 0 := rfl
    rw [g0]
    split
    · rfl
    · split
      · rename_i hm
        have := Match_length _ _ hm
        simp only [List.length_cons] at this
        exact replaceAndDelete_append _ 4 t pre _ (by omega)
      · split
        · rename_i hm
          have := Match_length _ _ hm
          simp only [List.length_cons] at this
          rw [getstr_cons_append t pre _ 2 (by omega)]
          split
          · exact replaceAndDelete_append _ 3 t pre _ (by omega)
          · rfl
        · rfl
  unfold sizeofTypeBody
  rw [key]
  exact stay_append _ _ (sizeofTypeAt_ne_nil P ts t pre)

theorem sizeofTypeAt_other (P : Platform) (ts : TypeSizeMap) (t : TOKEN) (rest : List TOKEN)
    (h : t.str ≠ "sizeof") : sizeofTypeAt P ts (t :: rest) = t :: rest := by
  unfold sizeofTypeAt
  rw [if_pos (by simpa [getstr, gettok] using h)]

theorem sizeofTypeAt_no_paren (P : Platform) (ts : TypeSizeMap) (t r0 : TOKEN)
    (rest : List TOKEN) (h : r0.str ≠ "(") :
    sizeofTypeAt P ts (t :: r0 :: rest) = t :: r0 :: rest := by
  unfold sizeofTypeAt
  simp [Match, Pat.ok, h]

theorem sizeofTypeBody_stay (P : Platform) (ts : TypeSizeMap) (t : TOKEN) (rest : List TOKEN)
    (h : sizeofTypeAt P ts (t :: rest) = t :: rest) :
    forTok (sizeofTypeBody P ts) (t :: rest).length (t :: rest) =
      t :: forTok (sizeofTypeBody P ts) rest.length rest := by
  rw [forTok_canon _ (sizeofTypeBody_shrinks P ts)]
  simp [sizeofTypeBody, h, stay]

/-- C6: in the token list given to the `sizeof` loop of `SimplifyTokenList`, wherever they
stand, the five tokens `sizeof ( T * )` with a name `T` become one token with the pointer size
of the platform, the four tokens `sizeof ( T )` with a positive size of `T` in the type size
table become one token with that size, and with no entry for `T` they stay as they are; the
tokens before and after are treated by the loop on their own.  On LP64 `sizeof ( int )`
becomes `4`. -/
theorem sizeof_type_resolution (P : Platform) (ts : TypeSizeMap) (pre post : List TOKEN)
    (s lp T rp : TOKEN) (hs : s.str = "sizeof") (hlp : lp.str = "(")
    (hT : IsName T.str = true) (hrp : rp.str = ")") :
    (∀ st : TOKEN, st.str = "*" →
      sizeofTypePass P ts (pre ++ s :: lp :: T :: st :: rp :: post) =
        sizeofTypePass P ts pre ++
          { s with str := toString P.sizeof_ptr } :: sizeofTypePass P ts post) ∧
    (SizeOfType ts T.str > 0 →
      sizeofTypePass P ts (pre ++ s :: lp :: T :: rp :: post) =
        sizeofTypePass P ts pre ++
          { s with str := toString (SizeOfType ts T.str) } :: sizeofTypePass P ts post) ∧
    (ts.lookup T.str = none →
      sizeofTypePass P ts (pre ++ s :: lp :: T :: rp :: post) =
        sizeofTypePass P ts pre ++ s :: lp :: T :: rp :: sizeofTypePass P ts post) ∧
    texts (sizeofTypePass lp64 (builtinTypeSize lp64)
      (toks ["x", "=", "sizeof", "(", "int", ")", ";"])) = ["x", "=", "4", ";"] := by
  have hsh := sizeofTypeBody_shrinks P ts
  refine ⟨?_, ?_, ?_, by decide⟩
  · intro st hst
    unfold sizeofTypePass
    rw [forTok_append _ hsh _ (sizeofTypeBody_local P ts _ s lp hs hlp) pre,
      forTok_canon _ hsh]
    have e : sizeofTypeAt P ts (s :: lp :: T :: st :: rp :: post) =
        { s with str := toString P.sizeof_ptr } :: post := by
      unfold sizeofTypeAt
      simp [Match, Pat.ok, hs, hlp, hT, hst, hrp, getstr, gettok, replaceAndDelete]
    simp [sizeofTypeBody, e, stay]
  · intro hsz
    unfold sizeofTypePass
    rw [forTok_append _ hsh _ (sizeofTypeBody_local P ts _ s lp hs hlp) pre,
      forTok_canon _ hsh]
    have e : sizeofTypeAt P ts (s :: lp :: T :: rp :: post) =
        { s with str := toString (SizeOfType ts T.str) } :: post := by
      unfold sizeofTypeAt
      simp [Match, Pat.ok, hs, hlp, hT, hrp, getstr, gettok, replaceAndDelete, hsz]
    simp [sizeofTypeBody, e, stay]
  · intro hno
    have hz : ¬ SizeOfType ts T.str > 0 := by simp [SizeOfType, hno]
    unfold sizeofTypePass
    rw [forTok_append _ hsh _ (sizeofTypeBody_local P ts _ s lp hs hlp) pre]
    have e : sizeofTypeAt P ts (s :: lp :: T :: rp :: post) = s :: lp :: T :: rp :: post := by
      unfold sizeofTypeAt
      simp [Match, Pat.ok, hs, hlp, hT, hrp, getstr, gettok, hz]
    rw [sizeofTypeBody_stay P ts _ _ e,
      sizeofTypeBody_stay P ts _ _ (sizeofTypeAt_other P ts lp _ (by rw [hlp]; decide)),
      sizeofTypeBody_stay P ts _ _ (sizeofTypeAt_no_paren P ts T rp _ (by rw [hrp]; decide)),
      sizeofTypeBody_stay P ts _ _ (sizeofTypeAt_other P ts rp _ (by rw [hrp]; decide))]

theorem sizeof_type_resolution_witness :
    sizeofTypePass lp64 (builtinTypeSize lp64)
        (toks ["a"] ++ ⟨"sizeof", 2, 0⟩ :: ⟨"(", 2, 0⟩ :: ⟨"long", 2, 0⟩ :: ⟨"*", 2, 0⟩ ::
          ⟨")", 2, 0⟩ :: toks ["b"]) =
      sizeofTypePass lp64 (builtinTypeSize lp64) (toks ["a"]) ++
        ⟨"8", 2, 0⟩ :: sizeofTypePass lp64 (builtinTypeSize lp64) (toks ["b"]) ∧
    sizeofTypePass lp64 (builtinTypeSize lp64)
        (toks ["a"] ++ ⟨"sizeof", 2, 0⟩ :: ⟨"(", 2, 0⟩ :: ⟨"long", 2, 0⟩ :: ⟨")", 2, 0⟩ ::
          toks ["b"]) =
      sizeofTypePass lp64 (builtinTypeSize lp64) (toks ["a"]) ++
        ⟨toString (SizeOfType (builtinTypeSize lp64) "long"), 2, 0⟩ ::
          sizeofTypePass lp64 (builtinTypeSize lp64) (toks ["b"]) :=
  ⟨(sizeof_type_resolution lp64 (builtinTypeSize lp64) (toks ["a"]) (toks ["b"])
      ⟨"sizeof", 2, 0⟩ ⟨"(", 2, 0⟩ ⟨"long", 2, 0⟩ ⟨")", 2, 0⟩ (by decide) (by decide)
      (by decide) (by decide)).1 ⟨"*", 2, 0⟩ (by decide),
   (sizeof_type_resolution lp64 (builtinTypeSize lp64) (toks ["a"]) (toks ["b"])
      ⟨"sizeof", 2, 0⟩ ⟨"(", 2, 0⟩ ⟨"long", 2, 0⟩ ⟨")", 2, 0⟩ (by decide) (by decide)
      (by decide) (by decide)).2.1 (by decide)⟩

/-! ## Pointer arithmetic to subscript -/

theorem boundary_facts (s : String) (h : strchr ";\x7b\x7d(=<>" (str0 s) = true) :
    IsName s = false ∧ IsNumber s = false ∧ s ≠ "+" ∧ s ≠ ")" ∧ s ≠ "*" := by
  refine ⟨?_, ?_, ?_, ?_, ?_⟩
  · unfold IsName
    generalize str0 s = c at h
    simp only [strchr, Bool.or_eq_true, beq_iff_eq, List.contains_eq_any_beq, List.any_cons,
      List.any_nil, Bool.or_false] at h
    rcases h with h | h | h | h | h | h | h | h <;> subst h <;> decide
  · unfold IsNumber
    generalize str0 s = c at h
    simp only [strchr, Bool.or_eq_true, beq_iff_eq, List.contains_eq_any_beq, List.any_cons,
      List.any_nil, Bool.or_false] at h
    rcases h with h | h | h | h | h | h | h | h <;> subst h <;> decide
  · rintro rfl
    revert h
    decide
  · rintro rfl
    revert h
    decide
  · rintro rfl
    revert h
    decide

theorem pointerBody_shrinks : Shrinks pointerBody := by
  intro t rest
  unfold pointerBody
  split
  · simp [stay]
  · split
    · simp
    · split
      · split
        · rename_i h
          simp only [List.cons.injEq] at h
          obtain ⟨_, rfl⟩ := h
          simp only [List.length_drop, List.length_cons]
          omega
        · simp [stay]
      · simp [stay]

theorem pointerBody_seven (t a b c d e f : TOKEN) (r : List TOKEN)
    (hb : strchr ";\x7b\x7d(=<>" (str0 t.str) = true) :
    pointerBody (t :: a :: b :: c :: d :: e :: f :: r) =
      if Match [a, b, c, d, e, f] [.lit "*", .lit "(", .var, .lit "+", .num, .lit ")"] then
        ([t, { a with str := c.str }, { b with str := "[" }, { c with str := e.str },
          { d with str := "]" }], r)
      else ([t], a :: b :: c :: d :: e :: f :: r) := by
  have g0 : getstr (t :: a :: b :: c :: d :: e :: f :: r) 0 = t.str := rfl
  have g1 : gettok (t :: a :: b :: c :: d :: e :: f :: r) 1 = a :: b :: c :: d :: e :: f :: r :=
    rfl
  have g3 : getstr (t :: a :: b :: c :: d :: e :: f :: r) 3 = c.str := rfl
  have g5 : getstr (t :: a :: b :: c :: d :: e :: f :: r) 5 = e.str := rfl
  have gm : Match (a :: b :: c :: d :: e :: f :: r)
      [.lit "*", .lit "(", .var, .lit "+", .num, .lit ")"] =
      Match [a, b, c, d, e, f] [.lit "*", .lit "(", .var, .lit "+", .num, .lit ")"] := by
    simp only [Match_cons, Match_nil]
  unfold pointerBody
  rw [g0, g1, g3, g5, gm, hb]
  simp only [Bool.not_true, Bool.false_eq_true, if_false, List.cons_ne_nil]
  split
  · simp
  · simp [stay]

theorem pointerBody_local (w : List TOKEN) (sep st : TOKEN)
    (hsep : strchr ";\x7b\x7d(=<>" (str0 sep.str) = true) (hst : st.str = "*") :
    LocalTo pointerBody (sep :: st :: w) := by
  obtain ⟨h1, h2, h3, h4, h5⟩ := boundary_facts sep.str hsep
  have hstar : IsName "*" = false := by decide
  intro t pre
  by_cases hb : strchr ";\x7b\x7d(=<>" (str0 t.str) = true
  · rcases pre with _ | ⟨a, _ | ⟨b, _ | ⟨c, _ | ⟨d, _ | ⟨e, _ | ⟨f, r⟩⟩⟩⟩⟩⟩
    · simp [pointerBody, getstr, hb, gettok, Match, Pat.ok, h5, stay]
    · simp [pointerBody, getstr, hb, gettok, Match, Pat.ok, hst, hstar, stay]
    · simp [pointerBody, getstr, hb, gettok, Match, Pat.ok, h1, stay]
    · simp [pointerBody, getstr, hb, gettok, Match, Pat.ok, h3, stay]
    · simp [pointerBody, getstr, hb, gettok, Match, Pat.ok, h2, stay]
    · simp [pointerBody, getstr, hb, gettok, Match, Pat.ok, h4, stay]
    · show pointerBody (t :: a :: b :: c :: d :: e :: f :: (r ++ sep :: st :: w)) =
        ((pointerBody (t :: a :: b :: c :: d :: e :: f :: r)).1,
          (pointerBody (t :: a :: b :: c :: d :: e :: f :: r)).2 ++ sep :: st :: w)
      rw [pointerBody_seven t a b c d e f _ hb, pointerBody_seven t a b c d e f _ hb]
      split <;> rfl
  · have hb3 : strchr ";\x7b\x7d(=<>" (str0 t.str) = false := by simpa using hb
    have e2 : ∀ x : List TOKEN, pointerBody (t :: x) = ([t], x) := by
      intro x
      have g0 : getstr (t :: x) 0 = t.str := rfl
      unfold pointerBody
      rw [g0, hb3]
      rfl
    show pointerBody (t :: (pre ++ sep :: st :: w)) = _
    rw [e2, e2]

theorem pointerBody_other (t : TOKEN) (rest : List TOKEN) (h : "*" ∉ texts rest) :
    pointerBody (t :: rest) = ([t], rest) := by
  unfold pointerBody
  split
  · simp [stay]
  · split
    · rename_i h2
      simp only [gettok, List.drop_succ_cons, List.drop_zero] at h2
      subst h2
      rfl
    · split
      · rename_i hm
        cases rest with
        | nil => simp [gettok, Match] at hm
        | cons a r =>
          simp only [gettok, List.drop_succ_cons, List.drop_zero, Match_cons, Pat.ok,
            Bool.and_eq_true, beq_iff_eq] at hm
          simp only [texts, List.map_cons, List.mem_cons, not_or] at h
          exact absurd hm.1.symm h.1
      · simp [stay]

theorem pointerPass_no_star (l : List TOKEN) (h : "*" ∉ texts l) : pointerPass l = l := by
  unfold pointerPass
  induction l with
  | nil => rfl
  | cons t rest ih =>
    simp only [texts, List.map_cons, List.mem_cons, not_or] at h
    rw [forTok_canon _ pointerBody_shrinks, pointerBody_other t rest h.2]
    simp only [List.singleton_append, List.cons.injEq, true_and]
    exact ih h.2

theorem pointerBody_short (t : TOKEN) (rest : List TOKEN) (h : rest.length < 6) :
    pointerBody (t :: rest) = ([t], rest) := by
  unfold pointerBody
  split
  · simp [stay]
  · split
    · rename_i h2
      simp only [gettok, List.drop_succ_cons, List.drop_zero] at h2
      subst h2
      rfl
    · split
      · rename_i hm
        have := Match_length _ _ hm
        simp only [gettok, List.drop_succ_cons, List.drop_zero, List.length_cons,
          List.length_nil] at this
        omega
      · simp [stay]

theorem pointerBody_plain (t : TOKEN) (rest : List TOKEN)
    (h : strchr ";\x7b\x7d(=<>" (str0 t.str) = false) :
    pointerBody (t :: rest) = ([t], rest) := by
  have g0 : getstr (t :: rest) 0 = t.str := rfl
  unfold pointerBody
  rw [g0, h]
  simp [stay]

theorem pointerPass_cons (t : TOKEN) (rest : List TOKEN)
    (h : pointerBody (t :: rest) = ([t], rest)) :
    pointerPass (t :: rest) = t :: pointerPass rest := by
  unfold pointerPass
  rw [forTok_canon _ pointerBody_shrinks, h]
  rfl

theorem pointerPass_short (l : List TOKEN) (h : l.length < 7) : pointerPass l = l := by
  induction l with
  | nil => rfl
  | cons t rest ih =>
    simp only [List.length_cons] at h
    rw [pointerPass_cons t rest (pointerBody_short t rest (by omega)), ih (by omega)]

theorem subscriptSpec_short (l : List TOKEN) (h : l.length < 7) : subscriptSpec l = l := by
  match l, h with
  | [], _ => rfl
  | [_], _ => rfl
  | [_, _], _ => rfl
  | [_, _, _], _ => rfl
  | [_, _, _, _], _ => rfl
  | [_, _, _, _, _], _ => rfl
  | [_, _, _, _, _, _], _ => rfl
  | _ :: _ :: _ :: _ :: _ :: _ :: _ :: _, h => exact absurd h (by simp only [List.length_cons]; omega)

theorem seven_of_length (l : List TOKEN) (h : ¬ l.length < 7) :
    ∃ t a b c d e f r, l = t :: a :: b :: c :: d :: e :: f :: r := by
  match l, h with
  | [], h => exact absurd (by decide) h
  | [_], h => exact absurd (by simp) h
  | [_, _], h => exact absurd (by simp) h
  | [_, _, _], h => exact absurd (by simp) h
  | [_, _, _, _], h => exact absurd (by simp) h
  | [_, _, _, _, _], h => exact absurd (by simp) h
  | [_, _, _, _, _, _], h => exact absurd (by simp) h
  | t :: a :: b :: c :: d :: e :: f :: r, _ => exact ⟨t, a, b, c, d, e, f, r, rfl⟩

theorem pointerPass_spec_aux (n : Nat) : ∀ l : List TOKEN, l.length ≤ n →
    pointerPass l = subscriptSpec l := by
  induction n with
  | zero =>
    intro l hl
    rw [pointerPass_short l (by omega), subscriptSpec_short l (by omega)]
  | succ n ih =>
    intro l hl
    by_cases h7 : l.length < 7
    · rw [pointerPass_short l h7, subscriptSpec_short l h7]
    · obtain ⟨t, a, b, c, d, e, f, r, rfl⟩ := seven_of_length l h7
      · simp only [List.length_cons] at hl
        by_cases hb : strchr ";\x7b\x7d(=<>" (str0 t.str) = true
        · by_cases hm : Match [a, b, c, d, e, f]
              [.lit "*", .lit "(", .var, .lit "+", .num, .lit ")"] = true
          · have hm2 := hm
            simp only [Match, Pat.ok, Bool.and_eq_true, beq_iff_eq, Bool.and_true] at hm2
            have e1 : pointerPass (t :: a :: b :: c :: d :: e :: f :: r) =
                t :: { a with str := c.str } :: { b with str := "[" } ::
                  { c with str := e.str } :: { d with str := "]" } :: pointerPass r := by
              unfold pointerPass
              rw [forTok_canon _ pointerBody_shrinks, pointerBody_seven t a b c d e f r hb,
                if_pos hm]
              rfl
            rw [e1, subscriptSpec, if_pos, ih r (by omega)]
            exact ⟨hb, hm2.1, hm2.2.1, hm2.2.2.1, hm2.2.2.2.1, hm2.2.2.2.2.1, hm2.2.2.2.2.2⟩
          · have e1 : pointerPass (t :: a :: b :: c :: d :: e :: f :: r) =
                t :: pointerPass (a :: b :: c :: d :: e :: f :: r) := by
              apply pointerPass_cons
              rw [pointerBody_seven t a b c d e f r hb, if_neg hm]
            rw [e1, subscriptSpec, if_neg, ih _ (by simp only [List.length_cons]; omega)]
            rintro ⟨_, h1, h2, h3, h4, h5, h6⟩
            apply hm
            simp [Match, Pat.ok, h1, h2, h3, h4, h5, h6]
        · have e1 : pointerPass (t :: a :: b :: c :: d :: e :: f :: r) =
              t :: pointerPass (a :: b :: c :: d :: e :: f :: r) :=
            pointerPass_cons _ _ (pointerBody_plain _ _ (by simpa using hb))
          rw [e1, subscriptSpec, if_neg, ih _ (by simp only [List.length_cons]; omega)]
          exact fun h => hb h.1

theorem pointerPass_spec (l : List TOKEN) : pointerPass l = subscriptSpec l :=
  pointerPass_spec_aux l.length l (Nat.le_refl _)

theorem pointerPass_no_window (l : List TOKEN)
    (h : ∀ (pre : List TOKEN) (t a b c d e f : TOKEN) (r : List TOKEN),
      l = pre ++ t :: a :: b :: c :: d :: e :: f :: r →
      ¬ (strchr ";\x7b\x7d(=<>" (str0 t.str) = true ∧ a.str = "*" ∧ b.str = "(" ∧
        IsName c.str = true ∧ d.str = "+" ∧ IsNumber e.str = true ∧ f.str = ")")) :
    pointerPass l = l := by
  induction l with
  | nil => rfl
  | cons t rest ih =>
    have hr : pointerPass rest = rest :=
      ih fun pre t2 a b c d e f r hl => h (t :: pre) t2 a b c d e f r (by rw [hl]; rfl)
    by_cases h7 : (t :: rest).length < 7
    · exact pointerPass_short _ h7
    · obtain ⟨t2, a, b, c, d, e, f, r, hl⟩ := seven_of_length _ h7
      have hw := h [] t2 a b c d e f r hl
      simp only [List.cons.injEq] at hl
      obtain ⟨rfl, rfl⟩ := hl
      rw [pointerPass_cons, hr]
      by_cases hb : strchr ";\x7b\x7d(=<>" (str0 t.str) = true
      · rw [pointerBody_seven t a b c d e f r hb, if_neg]
        intro hm
        simp only [Match, Pat.ok, Bool.and_eq_true, beq_iff_eq, Bool.and_true] at hm
        exact hw ⟨hb, hm.1, hm.2.1, hm.2.2.1, hm.2.2.2.1, hm.2.2.2.2.1, hm.2.2.2.2.2⟩
      · exact pointerBody_plain _ _ (by simpa using hb)

/-- C9: in the token list given to the loop that replaces `*(str + num)`, wherever they stand,
a token whose first character is one of `; { } ( = < >` followed by the six tokens
`* ( V + N )` keeps its place and the six tokens become the four tokens `V [ N ]` with the
texts of `V` and `N`; the tokens before and after are treated by the loop on their own.  On
every list the loop does what the spec says, going from left to right (`subscriptSpec`): only
the six tokens of such a place change, every other token keeps text, line, file and order.
So a list that has no such place is left as it is, whether it holds a token `*` or not, as is
`a * ( q + 2 ) ;`, where the token before `*` starts with none of the seven characters. -/
theorem pointer_to_subscript (pre post : List TOKEN) (sep st lp V pl N rp : TOKEN)
    (hsep : strchr ";\x7b\x7d(=<>" (str0 sep.str) = true) (hst : st.str = "*")
    (hlp : lp.str = "(") (hV : IsName V.str = true) (hpl : pl.str = "+")
    (hN : IsNumber N.str = true) (hrp : rp.str = ")") :
    pointerPass (pre ++ sep :: st :: lp :: V :: pl :: N :: rp :: post) =
      pointerPass pre ++ sep :: { st with str := V.str } :: { lp with str := "[" } ::
        { V with str := N.str } :: { pl with str := "]" } :: pointerPass post ∧
    (∀ l : List TOKEN, "*" ∉ texts l → pointerPass l = l) ∧
    texts (pointerPass (toks [";", "x", "=", "*", "(", "p", "+", "3", ")", ";"])) =
      [";", "x", "=", "p", "[", "3", "]", ";"] ∧
    (∀ l : List TOKEN, pointerPass l = subscriptSpec l) ∧
    (∀ l : List TOKEN,
      (∀ (p : List TOKEN) (t a b c d e f : TOKEN) (r : List TOKEN),
        l = p ++ t :: a :: b :: c :: d :: e :: f :: r →
        ¬ (strchr ";\x7b\x7d(=<>" (str0 t.str) = true ∧ a.str = "*" ∧ b.str = "(" ∧
          IsName c.str = true ∧ d.str = "+" ∧ IsNumber e.str = true ∧ f.str = ")")) →
      pointerPass l = l) ∧
    (∀ (t : TOKEN) (rest : List TOKEN), strchr ";\x7b\x7d(=<>" (str0 t.str) = false →
      pointerPass (t :: rest) = t :: pointerPass rest) ∧
    pointerPass (toks ["a", "*", "(", "q", "+", "2", ")", ";", "*", "(", "p", "+", "3", ")"]) =
      toks ["a", "*", "(", "q", "+", "2", ")", ";", "p", "[", "3", "]"] := by
  refine ⟨?_, pointerPass_no_star, by decide, pointerPass_spec, pointerPass_no_window,
    fun t rest h => pointerPass_cons t rest (pointerBody_plain t rest h), by decide⟩
  unfold pointerPass
  rw [forTok_append _ pointerBody_shrinks _ (pointerBody_local _ sep st hsep hst) pre,
    forTok_canon _ pointerBody_shrinks]
  have e : pointerBody (sep :: st :: lp :: V :: pl :: N :: rp :: post) =
      ([sep, { st with str := V.str }, { lp with str := "[" }, { V with str := N.str },
        { pl with str := "]" }], post) := by
    rw [pointerBody_seven sep st lp V pl N rp post hsep]
    simp [Match, Pat.ok, hst, hlp, hV, hpl, hN, hrp]
  rw [e]
  simp

theorem pointer_to_subscript_witness :
    pointerPass (toks ["y"] ++ ⟨"=", 1, 0⟩ :: ⟨"*", 1, 0⟩ :: ⟨"(", 1, 0⟩ :: ⟨"q", 1, 0⟩ ::
        ⟨"+", 1, 0⟩ :: ⟨"2", 1, 0⟩ :: ⟨")", 1, 0⟩ :: toks [";"]) =
      pointerPass (toks ["y"]) ++ ⟨"=", 1, 0⟩ :: ⟨"q", 1, 0⟩ :: ⟨"[", 1, 0⟩ ::
        ⟨"2", 1, 0⟩ :: ⟨"]", 1, 0⟩ :: pointerPass (toks [";"]) :=
  (pointer_to_subscript (toks ["y"]) (toks [";"]) ⟨"=", 1, 0⟩ ⟨"*", 1, 0⟩ ⟨"(", 1, 0⟩
    ⟨"q", 1, 0⟩ ⟨"+", 1, 0⟩ ⟨"2", 1, 0⟩ ⟨")", 1, 0⟩ (by decide) (by decide) (by decide)
    (by decide) (by decide) (by decide) (by decide)).1

/-! ## Constant propagation -/

theorem IsName_not_IsNumber (s : String) (h : IsName s = true) : IsNumber s = false := by
  unfold IsName at h
  unfold IsNumber
  generalize str0 s = c at h
  cases hd : isdigit c with
  | false => rfl
  | true =>
    have h1 := isdigit_range c hd
    simp only [Bool.or_eq_true, beq_iff_eq] at h
    rcases h with h | h
    · subst h
      revert hd
      decide
    · simp only [isalpha, Bool.or_eq_true, Bool.and_eq_true, decide_eq_true_eq] at h
      have e1 : ∀ a b : Char, a ≤ b → a.toNat ≤ b.toNat := fun _ _ h => h
      rcases h with ⟨h2, _⟩ | ⟨h2, _⟩
      · have := e1 _ _ h2
        have : ('a' : Char).toNat = 97 := rfl
        omega
      · have := e1 _ _ h2
        have : ('A' : Char).toNat = 65 := rfl
        omega

theorem constAt_length (l : List TOKEN) : (constAt l).length = l.length := by
  unfold constAt
  split
  · simp only [List.length_append, List.length_take, List.length_map, gettok,
      List.length_drop]
    omega
  · rfl

theorem constBody_shrinks : Shrinks constBody := by
  intro t rest
  exact stay_shrinks _ rest (le_of_eq (constAt_length (t :: rest)))

theorem constAt_other (t : TOKEN) (rest : List TOKEN) (h : t.str ≠ "const") :
    constAt (t :: rest) = t :: rest := by
  unfold constAt
  simp [Match, Pat.ok, h]

theorem constPass_cons (t : TOKEN) (rest : List TOKEN) (h : constAt (t :: rest) = t :: rest) :
    constPass (t :: rest) = t :: constPass rest := by
  unfold constPass
  rw [forTok_canon _ constBody_shrinks]
  simp [constBody, h, stay]

theorem constPass_no_const (pre w : List TOKEN) (h : "const" ∉ texts pre) :
    constPass (pre ++ w) = pre ++ constPass w := by
  induction pre with
  | nil => rfl
  | cons t pre ih =>
    simp only [texts, List.map_cons, List.mem_cons, not_or] at h
    show constPass (t :: (pre ++ w)) = t :: (pre ++ constPass w)
    rw [constPass_cons t _ (constAt_other t _ (fun e => h.1 e.symm)), ih h.2]

theorem ConstStep.refl (t : TOKEN) : ConstStep t t := Or.inl rfl

theorem ConstStep.trans {a b c : TOKEN} (h1 : ConstStep a b) (h2 : ConstStep b c) :
    ConstStep a c := by
  rcases h1 with rfl | ⟨hn, _⟩
  · exact h2
  · rcases h2 with rfl | ⟨_, hm⟩
    · exact Or.inr ⟨hn, by assumption⟩
    · exact Or.inr ⟨hn, hm⟩

theorem forall₂_ConstStep_refl (l : List TOKEN) : List.Forall₂ ConstStep l l :=
  List.forall₂_same.mpr fun t _ => ConstStep.refl t

theorem forall₂_ConstStep_trans {l1 l2 l3 : List TOKEN} (h1 : List.Forall₂ ConstStep l1 l2)
    (h2 : List.Forall₂ ConstStep l2 l3) : List.Forall₂ ConstStep l1 l3 := by
  induction h1 generalizing l3 with
  | nil => exact h2
  | cons hab _ ih =>
    cases h2 with
    | cons hbc h2 => exact List.Forall₂.cons (hab.trans hbc) (ih h2)

theorem constRepl_step (sym num : String) (hs : IsName sym = true) (hn : IsNumber num = true)
    (l : List TOKEN) : List.Forall₂ ConstStep l (l.map (constRepl sym num)) := by
  induction l with
  | nil => exact List.Forall₂.nil
  | cons t l ih =>
    refine List.Forall₂.cons ?_ ih
    unfold constRepl
    split
    · rename_i h
      exact Or.inr ⟨by rw [h]; exact hs, hn⟩
    · exact Or.inl rfl

theorem constAt_step (l : List TOKEN) : List.Forall₂ ConstStep l (constAt l) := by
  unfold constAt
  split
  · rename_i hm
    match l, hm with
    | c :: T :: N :: e :: V :: s :: post, hm =>
      simp only [Match_cons, Pat.ok, Bool.and_eq_true] at hm
      have := constRepl_step N.str V.str hm.2.2.1 hm.2.2.2.2.1 post
      simp only [List.take_succ_cons, List.take_zero, gettok, List.drop_succ_cons,
        List.drop_zero, getstr, List.cons_append, List.nil_append]
      exact List.Forall₂.cons (.refl _) (List.Forall₂.cons (.refl _) (List.Forall₂.cons (.refl _)
        (List.Forall₂.cons (.refl _) (List.Forall₂.cons (.refl _)
          (List.Forall₂.cons (.refl _) this)))))
    | [], hm => simp [Match] at hm
    | [_], hm => simp [Match] at hm
    | [_, _], hm => simp [Match] at hm
    | [_, _, _], hm => simp [Match] at hm
    | [_, _, _, _], hm => simp [Match] at hm
    | [_, _, _, _, _], hm => simp [Match] at hm
  · exact forall₂_ConstStep_refl l

theorem forTok_constBody_step (n : Nat) (l : List TOKEN) :
    List.Forall₂ ConstStep l (forTok constBody n l) := by
  induction n generalizing l with
  | zero =>
    cases l with
    | nil => exact List.Forall₂.nil
    | cons t rest => exact forall₂_ConstStep_refl _
  | succ n ih =>
    cases l with
    | nil => exact List.Forall₂.nil
    | cons t rest =>
      rw [forTok_succ]
      have h1 := constAt_step (t :: rest)
      cases hc : constAt (t :: rest) with
      | nil => rw [hc] at h1; cases h1
      | cons t2 rest2 =>
        rw [hc] at h1
        cases h1 with
        | cons hh ht =>
          simp only [constBody, hc, stay, List.take_succ_cons, List.take_zero,
            List.drop_succ_cons, List.drop_zero, List.singleton_append]
          exact List.Forall₂.cons hh (forall₂_ConstStep_trans ht (ih rest2))

theorem constPass_step (l : List TOKEN) : List.Forall₂ ConstStep l (constPass l) :=
  forTok_constBody_step l.length l

theorem forall₂_getElem? {R : TOKEN → TOKEN → Prop} {l1 l2 : List TOKEN}
    (h : List.Forall₂ R l1 l2) (i : Nat) (a : TOKEN) (ha : l1[i]? = some a) :
    ∃ b, l2[i]? = some b ∧ R a b := by
  induction h generalizing i with
  | nil => simp at ha
  | cons hab _ ih =>
    cases i with
    | zero =>
      simp only [List.getElem?_cons_zero, Option.some.injEq] at ha
      subst ha
      exact ⟨_, List.getElem?_cons_zero, hab⟩
    | succ i =>
      simp only [List.getElem?_cons_succ] at ha ⊢
      exact ih i ha

theorem forall₂_mem_right {R : TOKEN → TOKEN → Prop} {l1 l2 : List TOKEN}
    (h : List.Forall₂ R l1 l2) (b : TOKEN) (hb : b ∈ l2) : ∃ a ∈ l1, R a b := by
  induction h with
  | nil => simp at hb
  | cons hab _ ih =>
    simp only [List.mem_cons] at hb
    rcases hb with rfl | hb
    · exact ⟨_, List.mem_cons_self _ _, hab⟩
    · obtain ⟨a, ha, hr⟩ := ih hb
      exact ⟨a, List.mem_cons_of_mem _ ha, hr⟩

theorem constPass_at (t : TOKEN) (rest rest2 : List TOKEN)
    (h : constAt (t :: rest) = t :: rest2) : constPass (t :: rest) = t :: constPass rest2 := by
  have hl : rest2.length = rest.length := by
    have := constAt_length (t :: rest)
    rw [h] at this
    simpa using this
  unfold constPass
  rw [forTok_canon _ constBody_shrinks]
  simp [constBody, h, stay]

theorem ConstKeep_refl (K : List String) (t : TOKEN) : ConstKeep K t t := Or.inl rfl

theorem ConstKeep_trans {K : List String} {a b c : TOKEN} (h1 : ConstKeep K a b)
    (h2 : ConstKeep K b c) : ConstKeep K a c := by
  rcases h1 with rfl | ⟨hn, hk, hb⟩
  · exact h2
  · rcases h2 with rfl | ⟨hb2, _, _⟩
    · exact Or.inr ⟨hn, hk, hb⟩
    · rw [IsName_not_IsNumber _ hb2] at hb
      cases hb

theorem forall₂_ConstKeep_refl (K : List String) (l : List TOKEN) :
    List.Forall₂ (ConstKeep K) l l :=
  List.forall₂_same.mpr fun t _ => ConstKeep_refl K t

theorem forall₂_ConstKeep_trans {K : List String} {l1 l2 l3 : List TOKEN}
    (h1 : List.Forall₂ (ConstKeep K) l1 l2) (h2 : List.Forall₂ (ConstKeep K) l2 l3) :
    List.Forall₂ (ConstKeep K) l1 l3 := by
  induction h1 generalizing l3 with
  | nil => exact h2
  | cons hab _ ih =>
    cases h2 with
    | cons hbc h2 => exact List.Forall₂.cons (ConstKeep_trans hab hbc) (ih h2)

theorem constRepl_keep (K : List String) (sym num : String) (hs : IsName sym = true)
    (hk : sym ∉ K) (hn : IsNumber num = true) (l : List TOKEN) :
    List.Forall₂ (ConstKeep K) l (l.map (constRepl sym num)) := by
  induction l with
  | nil => exact List.Forall₂.nil
  | cons t l ih =>
    refine List.Forall₂.cons ?_ ih
    unfold constRepl
    split
    · rename_i h
      exact Or.inr ⟨by rw [h]; exact hs, by rw [h]; exact hk, hn⟩
    · exact Or.inl rfl

theorem constAt_keep (K : List String) (t : TOKEN) (rest : List TOKEN)
    (h : Match (t :: rest) [.lit "const", .type, .var, .lit "=", .num, .lit ";"] = true →
      getstr (t :: rest) 2 ∉ K) :
    ∃ rest2, constAt (t :: rest) = t :: rest2 ∧ List.Forall₂ (ConstKeep K) rest rest2 := by
  unfold constAt
  split
  · rename_i hm
    have hk := h hm
    match rest, hm, hk with
    | T :: N :: e :: V :: s :: post, hm, hk =>
      simp only [Match_cons, Pat.ok, Bool.and_eq_true] at hm
      have := constRepl_keep K N.str V.str hm.2.2.1 hk hm.2.2.2.2.1 post
      refine ⟨T :: N :: e :: V :: s :: post.map (constRepl N.str V.str), rfl, ?_⟩
      exact List.Forall₂.cons (ConstKeep_refl _ _) (List.Forall₂.cons (ConstKeep_refl _ _)
        (List.Forall₂.cons (ConstKeep_refl _ _) (List.Forall₂.cons (ConstKeep_refl _ _)
          (List.Forall₂.cons (ConstKeep_refl _ _) this))))
    | [], hm, _ => simp [Match] at hm
    | [_], hm, _ => simp [Match] at hm
    | [_, _], hm, _ => simp [Match] at hm
    | [_, _, _], hm, _ => simp [Match] at hm
    | [_, _, _, _], hm, _ => simp [Match] at hm
  · exact ⟨rest, rfl, forall₂_ConstKeep_refl K rest⟩

theorem constNames_succ (n : Nat) (t : TOKEN) (rest : List TOKEN) :
    constNames (n + 1) (t :: rest) =
      (if Match (t :: rest) [.lit "const", .type, .var, .lit "=", .num, .lit ";"] then
        [getstr (t :: rest) 2] else []) ++ constNames n (constBody (t :: rest)).2 := rfl

theorem constPass_keep (K : List String) : ∀ (n : Nat) (pre q : List TOKEN), pre.length = n →
    (∀ x ∈ constNames n (pre ++ q), x ∉ K) →
    ∃ pre2 q2, constPass (pre ++ q) = pre2 ++ constPass q2 ∧ pre2.length = n ∧
      List.Forall₂ (ConstKeep K) q q2 := by
  intro n
  induction n with
  | zero =>
    intro pre q hl _
    have : pre = [] := List.length_eq_zero.mp hl
    subst this
    exact ⟨[], q, rfl, rfl, forall₂_ConstKeep_refl K q⟩
  | succ n ih =>
    intro pre q hl hx
    cases pre with
    | nil => simp at hl
    | cons t pre =>
      simp only [List.length_cons, Nat.add_right_cancel_iff] at hl
      rw [List.cons_append, constNames_succ] at hx
      obtain ⟨rest2, e1, hk⟩ := constAt_keep K t (pre ++ q) fun hm =>
        hx _ (List.mem_append_left _ (by rw [if_pos hm]; exact List.mem_singleton_self _))
      have e2 : (constBody (t :: (pre ++ q))).2 = rest2 := by
        simp [constBody, e1, stay]
      rw [e2] at hx
      have hlen : rest2.length = pre.length + q.length := by
        rw [← hk.length_eq, List.length_append]
      have hq : List.Forall₂ (ConstKeep K) q (rest2.drop n) := by
        have := List.forall₂_drop pre.length hk
        rwa [List.drop_left, hl] at this
      obtain ⟨pre2, q2, e3, hl2, hk2⟩ := ih (rest2.take n) (rest2.drop n)
        (by rw [List.length_take]; omega)
        (by rw [List.take_append_drop]; exact fun x h => hx x (List.mem_append_right _ h))
      rw [List.take_append_drop] at e3
      refine ⟨t :: pre2, q2, ?_, by simp [hl2], forall₂_ConstKeep_trans hq hk2⟩
      rw [List.cons_append, constPass_at t _ _ e1, e3]
      rfl

theorem constPass_statement (c T N e V s : TOKEN) (post : List TOKEN)
    (hc : c.str = "const") (hT : IsName T.str = true) (hN : IsName N.str = true)
    (he : e.str = "=") (hV : IsNumber V.str = true) (hs : s.str = ";") :
    constPass (c :: T :: N :: e :: V :: s :: post) =
      c :: T :: N :: e :: V :: s :: constPass (post.map (constRepl N.str V.str)) := by
  have e1 : constAt (c :: T :: N :: e :: V :: s :: post) =
      c :: T :: N :: e :: V :: s :: post.map (constRepl N.str V.str) := by
    unfold constAt
    simp [Match, Pat.ok, hc, hT, hN, he, hV, hs, getstr, gettok]
  have e2 : ∀ X : List TOKEN, constAt (T :: N :: e :: V :: s :: X) =
      T :: N :: e :: V :: s :: X := by
    intro X
    unfold constAt
    have : IsName e.str = false := by rw [he]; decide
    simp [Match, Pat.ok, this]
  have e3 : ∀ X : List TOKEN, constAt (N :: e :: V :: s :: X) = N :: e :: V :: s :: X := by
    intro X
    unfold constAt
    have : IsName e.str = false := by rw [he]; decide
    simp [Match, Pat.ok, this]
  have e4 : V.str ≠ "const" := by
    intro h
    rw [h] at hV
    revert hV
    decide
  rw [constPass_at _ _ _ e1, constPass_cons _ _ (e2 _), constPass_cons _ _ (e3 _),
    constPass_cons _ _ (constAt_other e _ (by rw [he]; decide)),
    constPass_cons _ _ (constAt_other V _ e4),
    constPass_cons _ _ (constAt_other s _ (by rw [hs]; decide))]

theorem ConstKeep_fixed {K : List String} {a b : TOKEN} (h : ConstKeep K a b)
    (hk : IsName a.str = true → a.str ∈ K) : b = a := by
  rcases h with h | ⟨h1, h2, _⟩
  · exact h
  · exact absurd (hk h1) h2

theorem Match_const_six (t : TOKEN) (rest : List TOKEN)
    (h : Match (t :: rest) [.lit "const", .type, .var, .lit "=", .num, .lit ";"] = true) :
    ∃ (T X e M s : TOKEN) (r : List TOKEN), rest = T :: X :: e :: M :: s :: r ∧
      IsName X.str = true ∧ e.str = "=" ∧ IsNumber M.str = true ∧ s.str = ";" ∧
      constAt (t :: rest) = t :: T :: X :: e :: M :: s :: r.map (constRepl X.str M.str) := by
  match rest, h with
  | T :: X :: e :: M :: s :: r, h =>
    have h2 := h
    simp only [Match_cons, Pat.ok, Bool.and_eq_true, beq_iff_eq] at h2
    refine ⟨T, X, e, M, s, r, rfl, h2.2.2.1, h2.2.2.2.1, h2.2.2.2.2.1, h2.2.2.2.2.2.1, ?_⟩
    unfold constAt
    rw [if_pos h]
    rfl
  | [], h => simp [Match] at h
  | [_], h => simp [Match] at h
  | [_, _], h => simp [Match] at h
  | [_, _, _], h => simp [Match] at h
  | [_, _, _, _], h => simp [Match] at h

theorem number_not_name (s : String) (h : IsNumber s = true) : IsName s = false := by
  cases hn : IsName s with
  | false => rfl
  | true => rw [IsName_not_IsNumber _ hn] at h; cases h

theorem constPass_number (l : List TOKEN) (i : Nat) (a : TOKEN) (h : l[i]? = some a)
    (hn : IsNumber a.str = true) : (constPass l)[i]? = some a := by
  obtain ⟨b, hb, hr⟩ := forall₂_getElem? (constPass_step l) i a h
  rcases hr with rfl | ⟨hr, _⟩
  · exact hb
  · rw [number_not_name _ hn] at hr
    cases hr

/-- When a statement that the loop "Replace constants" finds before the tokens `c T N`, with
`c` the keyword `const` and `T` and `N` names, defines the name `const`, `T` or `N`, one of
the three tokens has the text of a number in the result. -/
theorem constPass_hit (c T N : TOKEN) (hc : c.str = "const") (hT : IsName T.str = true)
    (hN : IsName N.str = true) : ∀ (n : Nat) (pre q : List TOKEN), pre.length = n →
    (∃ x ∈ constNames n (pre ++ c :: T :: N :: q), x = "const" ∨ x = T.str ∨ x = N.str) →
    ∃ (j : Nat) (t : TOKEN), j < 3 ∧ (constPass (pre ++ c :: T :: N :: q))[n + j]? = some t ∧
      IsNumber t.str = true := by
  intro n
  induction n with
  | zero =>
    intro pre q _ hx
    obtain ⟨x, hx, _⟩ := hx
    simp [constNames] at hx
  | succ n ih =>
    intro pre q hl hx
    cases pre with
    | nil => simp at hl
    | cons t pre =>
      simp only [List.length_cons, Nat.add_right_cancel_iff] at hl
      rw [List.cons_append, constNames_succ] at hx
      by_cases hbad : Match (t :: (pre ++ c :: T :: N :: q))
          [.lit "const", .type, .var, .lit "=", .num, .lit ";"] = true ∧
          (getstr (t :: (pre ++ c :: T :: N :: q)) 2 = "const" ∨
            getstr (t :: (pre ++ c :: T :: N :: q)) 2 = T.str ∨
            getstr (t :: (pre ++ c :: T :: N :: q)) 2 = N.str)
      · obtain ⟨hm, hk⟩ := hbad
        obtain ⟨T2, X, e, M, s, r, hr, hX, he, hM, hs, hat⟩ := Match_const_six t _ hm
        have hg : getstr (t :: (pre ++ c :: T :: N :: q)) 2 = X.str := by
          rw [hr]
          rfl
        rw [hg] at hk
        have hne : IsName "=" = false := by decide
        match pre, hl, hr with
        | [], _, hr =>
          simp only [List.nil_append, List.cons.injEq] at hr
          obtain ⟨_, _, h3, _⟩ := hr
          rw [h3, he, hne] at hN
          cases hN
        | [_], _, hr =>
          simp only [List.cons_append, List.nil_append, List.cons.injEq] at hr
          obtain ⟨_, _, h3, _⟩ := hr
          rw [h3, he, hne] at hT
          cases hT
        | [_, _], _, hr =>
          simp only [List.cons_append, List.nil_append, List.cons.injEq] at hr
          obtain ⟨_, _, h3, _⟩ := hr
          rw [h3, he] at hc
          exact absurd hc (by decide)
        | [_, _, _], _, hr =>
          simp only [List.cons_append, List.nil_append, List.cons.injEq] at hr
          obtain ⟨_, _, _, h4, _⟩ := hr
          rw [← h4, hc] at hM
          exact absurd hM (by decide)
        | [_, _, _, _], _, hr =>
          simp only [List.cons_append, List.nil_append, List.cons.injEq] at hr
          obtain ⟨_, _, _, _, h5, _⟩ := hr
          rw [← h5, hc] at hs
          exact absurd hs (by decide)
        | a1 :: a2 :: a3 :: a4 :: a5 :: p5, hl, hr =>
          simp only [List.cons_append, List.cons.injEq] at hr
          obtain ⟨rfl, rfl, rfl, rfl, rfl, rfl⟩ := hr
          simp only [List.length_cons] at hl
          have hpass := constPass_at t _ _ hat
          have hrepl : ∀ u : TOKEN, u.str = a2.str →
              constRepl a2.str a4.str u = { u with str := a4.str } := by
            intro u hu
            simp [constRepl, hu]
          have key : ∀ (j : Nat) (u : TOKEN), (c :: T :: N :: q)[j]? = some u →
              u.str = a2.str →
              (constPass (t :: (a1 :: a2 :: a3 :: a4 :: a5 :: p5 ++ c :: T :: N :: q)))[n + 1 + j]? =
                some { u with str := a4.str } := by
            intro j u hj hu
            rw [hpass]
            have e1 : n + 1 + j = (n + j) + 1 := by omega
            rw [e1, List.getElem?_cons_succ]
            refine constPass_number _ _ { u with str := a4.str } ?_ hM
            have e2 : n + j = (p5.length + j) + 5 := by omega
            rw [e2]
            simp only [List.getElem?_cons_succ, List.map_append]
            rw [List.getElem?_append_right (by simp), List.length_map, Nat.add_sub_cancel_left,
              List.getElem?_map, hj]
            simp [hrepl u hu]
          rcases hk with hk | hk | hk
          · exact ⟨0, _, by omega, key 0 c (by simp) (by rw [hc, hk]), hM⟩
          · exact ⟨1, _, by omega, key 1 T (by simp) hk.symm, hM⟩
          · exact ⟨2, _, by omega, key 2 N (by simp) hk.symm, hM⟩
      · obtain ⟨rest2, e1, hkeep⟩ := constAt_keep ["const", T.str, N.str] t
          (pre ++ c :: T :: N :: q) fun hm hmem => hbad ⟨hm, by simpa using hmem⟩
        have e2 : (constBody (t :: (pre ++ c :: T :: N :: q))).2 = rest2 := by
          simp [constBody, e1, stay]
        rw [e2] at hx
        have hx2 : ∃ x ∈ constNames n rest2, x = "const" ∨ x = T.str ∨ x = N.str := by
          obtain ⟨x, hxm, hxk⟩ := hx
          rcases List.mem_append.mp hxm with h | h
          · exfalso
            split at h
            · rename_i hm
              simp only [List.mem_singleton] at h
              exact hbad ⟨hm, by rw [← h]; exact hxk⟩
            · simp at h
          · exact ⟨x, h, hxk⟩
        have hq : List.Forall₂ (ConstKeep ["const", T.str, N.str]) (c :: T :: N :: q)
            (rest2.drop n) := by
          have := List.forall₂_drop pre.length hkeep
          rwa [List.drop_left, hl] at this
        have hlen : rest2.length = pre.length + (c :: T :: N :: q).length := by
          rw [← hkeep.length_eq, List.length_append]
        match hd : rest2.drop n, hq with
        | c2 :: T2 :: N2 :: q2, hq =>
          simp only [List.forall₂_cons] at hq
          obtain ⟨h1, h2, h3, _⟩ := hq
          have := ConstKeep_fixed h1 (fun _ => by simp [hc])
          subst this
          have := ConstKeep_fixed h2 (fun _ => by simp)
          subst this
          have := ConstKeep_fixed h3 (fun _ => by simp)
          subst this
          have hsplit : rest2 = rest2.take n ++ c2 :: T2 :: N2 :: q2 := by
            rw [← hd, List.take_append_drop]
          rw [hsplit] at hx2
          obtain ⟨j, u, hj, hu, hun⟩ := ih (rest2.take n) q2
            (by rw [List.length_take]; simp only [List.length_cons] at hlen; omega) hx2
          rw [← hsplit] at hu
          refine ⟨j, u, hj, ?_, hun⟩
          rw [List.cons_append, constPass_at t _ _ e1]
          have e3 : n + 1 + j = (n + j) + 1 := by omega
          rw [e3, List.getElem?_cons_succ]
          exact hu

/-- C5, for a statement `const T NAME = NUM ;` such that no statement of this form that the
loop "Replace constants" finds before it defines the name `NAME`, `T` or `const`: the loop
leaves the statement itself as it is, at its place; in its result no token after the statement
has the text `NAME`, and every token after the statement that had the text `NAME` has the text
`NUM`, at the same place; a token before the statement is left as it is or is a name that got
the text of a number.  When a statement that the loop finds before it does define one of the
three names, the statement is not left as it is.  When no token `const` stands before the
statement the tokens before it are left as they are and after it the loop goes on over the
tokens in which every text `NAME` has become `NUM`.  So `const int N = 5 ; x = N ;` gives
`const int N = 5 ; x = 5 ;`. -/
theorem const_propagation (pre post : List TOKEN) (c T N e V s : TOKEN)
    (hc : c.str = "const") (hT : IsName T.str = true)
    (hN : IsName N.str = true) (he : e.str = "=") (hV : IsNumber V.str = true)
    (hs : s.str = ";") :
    ((∀ x ∈ constNames pre.length (pre ++ c :: T :: N :: e :: V :: s :: post),
        x ≠ "const" ∧ x ≠ T.str ∧ x ≠ N.str) →
      ∃ pre2 post2 : List TOKEN,
        constPass (pre ++ c :: T :: N :: e :: V :: s :: post) =
          pre2 ++ c :: T :: N :: e :: V :: s :: post2 ∧
        pre2.length = pre.length ∧ post2.length = post.length ∧
        List.Forall₂ ConstStep pre pre2 ∧
        N.str ∉ texts post2 ∧
        (∀ (i : Nat) (t : TOKEN), post[i]? = some t → t.str = N.str →
          post2[i]? = some { t with str := V.str })) ∧
    ((∃ x ∈ constNames pre.length (pre ++ c :: T :: N :: e :: V :: s :: post),
        x = "const" ∨ x = T.str ∨ x = N.str) →
      ¬ ∃ pre2 post2 : List TOKEN,
        constPass (pre ++ c :: T :: N :: e :: V :: s :: post) =
          pre2 ++ c :: T :: N :: e :: V :: s :: post2 ∧ pre2.length = pre.length) ∧
    ("const" ∉ texts pre →
      constPass (pre ++ c :: T :: N :: e :: V :: s :: post) =
        pre ++ c :: T :: N :: e :: V :: s :: constPass (post.map (constRepl N.str V.str))) ∧
    texts (constPass (toks ["const", "int", "N", "=", "5", ";", "x", "=", "N", ";"])) =
      ["const", "int", "N", "=", "5", ";", "x", "=", "5", ";"] := by
  have hnV : IsName V.str = false := by
    cases h : IsName V.str with
    | false => rfl
    | true => rw [IsName_not_IsNumber _ h] at hV; cases hV
  have hne : N.str ≠ V.str := by
    intro h
    rw [h, hnV] at hN
    cases hN
  refine ⟨?_, ?_, ?_, by decide⟩
  · intro hpre
    obtain ⟨pre2, q2, e1, hl, hk⟩ := constPass_keep ["const", T.str, N.str] pre.length pre
      (c :: T :: N :: e :: V :: s :: post) rfl (fun x hx => by
        have := hpre x hx
        simp only [List.mem_cons, List.mem_singleton, List.not_mem_nil, or_false, not_or]
        exact this)
    match q2, hk with
    | c2 :: T2 :: N2 :: e2 :: V2 :: s2 :: p2, hk =>
      simp only [List.forall₂_cons] at hk
      obtain ⟨h1, h2, h3, h4, h5, h6, hp⟩ := hk
      have := ConstKeep_fixed h1 (fun _ => by simp [hc])
      subst this
      have := ConstKeep_fixed h2 (fun _ => by simp)
      subst this
      have := ConstKeep_fixed h3 (fun _ => by simp)
      subst this
      have := ConstKeep_fixed h4 (fun h => by rw [he] at h; exact absurd h (by decide))
      subst this
      have := ConstKeep_fixed h5 (fun h => by rw [hnV] at h; cases h)
      subst this
      have := ConstKeep_fixed h6 (fun h => by rw [hs] at h; exact absurd h (by decide))
      subst this
      have hstep := constPass_step (p2.map (constRepl N2.str V2.str))
      have hall := constPass_step (pre ++ c2 :: T2 :: N2 :: e2 :: V2 :: s2 :: post)
      rw [e1, constPass_statement c2 T2 N2 e2 V2 s2 p2 hc hT hN he hV hs] at hall ⊢
      refine ⟨pre2, _, rfl, hl, ?_, ?_, ?_, ?_⟩
      · rw [← hstep.length_eq, List.length_map, hp.length_eq]
      · have := List.forall₂_take pre.length hall
        rwa [List.take_left, ← hl, List.take_left] at this
      · intro hmem
        simp only [texts, List.mem_map] at hmem
        obtain ⟨t2, ht2, hs2⟩ := hmem
        obtain ⟨t1, ht1, hr⟩ := forall₂_mem_right hstep t2 ht2
        have ht1s : t1.str ≠ N2.str := by
          simp only [List.mem_map] at ht1
          obtain ⟨t0, _, rfl⟩ := ht1
          unfold constRepl
          split
          · exact fun h => hne h.symm
          · assumption
        rcases hr with rfl | ⟨_, hr⟩
        · exact ht1s hs2
        · rw [hs2, IsName_not_IsNumber _ hN] at hr
          cases hr
      · intro i t hi ht
        obtain ⟨b0, hb0, hr0⟩ := forall₂_getElem? hp i t hi
        have := ConstKeep_fixed hr0 (fun _ => by simp [ht])
        subst this
        have h1 : (p2.map (constRepl N2.str V2.str))[i]? = some { b0 with str := V2.str } := by
          rw [List.getElem?_map, hb0]
          simp [constRepl, ht]
        obtain ⟨b, hb, hr⟩ := forall₂_getElem? hstep i _ h1
        rcases hr with rfl | ⟨hr, _⟩
        · exact hb
        · simp only [hnV] at hr
          cases hr
  · rintro hx ⟨pre2, post2, heq, hl⟩
    obtain ⟨j, t, hj, ht, hnum⟩ := constPass_hit c T N hc hT hN pre.length pre
      (e :: V :: s :: post) rfl hx
    rw [heq, ← hl, List.getElem?_append_right (by omega), Nat.add_sub_cancel_left] at ht
    have hcn : IsNumber c.str = false := by rw [hc]; decide
    have hTn := IsName_not_IsNumber _ hT
    have hNn := IsName_not_IsNumber _ hN
    match j, hj, ht with
    | 0, _, ht =>
      simp only [List.getElem?_cons_zero, Option.some.injEq] at ht
      rw [← ht, hcn] at hnum
      cases hnum
    | 1, _, ht =>
      simp only [List.getElem?_cons_succ, List.getElem?_cons_zero, Option.some.injEq] at ht
      rw [← ht, hTn] at hnum
      cases hnum
    | 2, _, ht =>
      simp only [List.getElem?_cons_succ, List.getElem?_cons_zero, Option.some.injEq] at ht
      rw [← ht, hNn] at hnum
      cases hnum
  · intro hpre2
    rw [constPass_no_const _ _ hpre2, constPass_statement c T N e V s post hc hT hN he hV hs]

theorem const_propagation_witness :
    ∃ pre2 post2 : List TOKEN,
      constPass (toks ["const", "int", "A", "=", "1", ";"] ++ ⟨"const", 2, 0⟩ ::
          ⟨"int", 2, 0⟩ :: ⟨"B", 2, 0⟩ :: ⟨"=", 2, 0⟩ :: ⟨"2", 2, 0⟩ :: ⟨";", 2, 0⟩ ::
          toks ["x", "=", "B", ";"]) =
        pre2 ++ ⟨"const", 2, 0⟩ :: ⟨"int", 2, 0⟩ :: ⟨"B", 2, 0⟩ :: ⟨"=", 2, 0⟩ ::
          ⟨"2", 2, 0⟩ :: ⟨";", 2, 0⟩ :: post2 ∧
      pre2.length = (toks ["const", "int", "A", "=", "1", ";"]).length ∧
      post2.length = (toks ["x", "=", "B", ";"]).length ∧
      List.Forall₂ ConstStep (toks ["const", "int", "A", "=", "1", ";"]) pre2 ∧
      (⟨"B", 2, 0⟩ : TOKEN).str ∉ texts post2 ∧
      (∀ (i : Nat) (t : TOKEN), (toks ["x", "=", "B", ";"])[i]? = some t →
        t.str = (⟨"B", 2, 0⟩ : TOKEN).str →
        post2[i]? = some { t with str := (⟨"2", 2, 0⟩ : TOKEN).str }) :=
  (const_propagation (toks ["const", "int", "A", "=", "1", ";"]) (toks ["x", "=", "B", ";"])
    ⟨"const", 2, 0⟩ ⟨"int", 2, 0⟩ ⟨"B", 2, 0⟩ ⟨"=", 2, 0⟩ ⟨"2", 2, 0⟩ ⟨";", 2, 0⟩ (by decide)
    (by decide) (by decide) (by decide) (by decide) (by decide)).1 (by decide)

/-- C5, as stated, fails when a statement that the loop finds earlier defines the name `NAME`,
the name `T` or the name `const`: the tokens `A` after the statement `const int A = 2 ;` get
the text `1` of the earlier `const int A = 1 ;`, and the second statement itself is changed;
after `const int T = 1 ;` the statement `const T B = 2 ;` loses its type and the token `B`
after it keeps its text; after `const int const = 1 ;` the statement `const int B = 2 ;` loses
its keyword and the token `B` after it keeps its text.  After a statement that defines another
name the claim holds: `const int A = 1 ; const int B = 2 ; x = B ;` ends in `x = 2 ;`. -/
theorem const_defined_twice :
    texts (constPass (toks ["const", "int", "A", "=", "1", ";",
        "const", "int", "A", "=", "2", ";", "x", "=", "A", ";"])) =
      ["const", "int", "A", "=", "1", ";", "const", "int", "1", "=", "2", ";",
        "x", "=", "1", ";"] ∧
    texts (constPass (toks ["const", "int", "T", "=", "1", ";",
        "const", "T", "B", "=", "2", ";", "x", "=", "B", ";"])) =
      ["const", "int", "T", "=", "1", ";", "const", "1", "B", "=", "2", ";",
        "x", "=", "B", ";"] ∧
    texts (constPass (toks ["const", "int", "const", "=", "1", ";",
        "const", "int", "B", "=", "2", ";", "x", "=", "B", ";"])) =
      ["const", "int", "const", "=", "1", ";", "1", "int", "B", "=", "2", ";",
        "x", "=", "B", ";"] ∧
    texts (constPass (toks ["const", "int", "A", "=", "1", ";",
        "const", "int", "B", "=", "2", ";", "x", "=", "B", ";"])) =
      ["const", "int", "A", "=", "1", ";", "const", "int", "B", "=", "2", ";",
        "x", "=", "2", ";"] := by
  decide

/-! ## Simple calculations -/

theorem wrap32_range (i : Int) : -2 ^ 31 ≤ wrap32 i ∧ wrap32 i < 2 ^ 31 := by
  unfold wrap32
  have h1 := Int.emod_nonneg (i + 2 ^ 31) (by norm_num : (2 : Int) ^ 32 ≠ 0)
  have h2 := Int.emod_lt_of_pos (i + 2 ^ 31) (by norm_num : (0 : Int) < 2 ^ 32)
  constructor <;> omega

theorem wrap32_of_range (i : Int) (h1 : -2 ^ 31 ≤ i) (h2 : i < 2 ^ 31) : wrap32 i = i := by
  unfold wrap32
  rw [Int.emod_eq_of_lt (by omega) (by omega)]
  omega

theorem atoi_range (P : Platform) (s : String) : -2 ^ 31 ≤ atoi P s ∧ atoi P s < 2 ^ 31 :=
  wrap32_range _

theorem decValue_append (a b : List Char) :
    decValue (a ++ b) = decValue a * 10 ^ b.length + decValue b := by
  unfold decValue
  rw [List.foldl_append]
  generalize List.foldl (fun acc c => 10 * acc + (c.toNat - '0'.toNat)) 0 a = x
  induction b generalizing x with
  | nil => simp
  | cons c b ih =>
    simp only [List.foldl_cons, List.length_cons]
    rw [ih, ih (10 * 0 + (c.toNat - '0'.toNat))]
    ring

theorem decValue_cons (c : Char) (ds : List Char) :
    decValue (c :: ds) = (c.toNat - '0'.toNat) * 10 ^ ds.length + decValue ds := by
  have := decValue_append [c] ds
  simpa [decValue] using this

theorem digitChar_isdigit : ∀ m : Nat, m < 10 → isdigit (Nat.digitChar m) = true := by
  decide

theorem digitChar_value : ∀ m : Nat, m < 10 → (Nat.digitChar m).toNat - '0'.toNat = m := by
  decide

theorem toDigitsCore_facts (fuel : Nat) : ∀ (n : Nat) (ds : List Char), n < fuel →
    (∀ c ∈ ds, isdigit c = true) →
    (∀ c ∈ Nat.toDigitsCore 10 fuel n ds, isdigit c = true) ∧
    decValue (Nat.toDigitsCore 10 fuel n ds) = n * 10 ^ ds.length + decValue ds := by
  induction fuel with
  | zero => intro n ds h; omega
  | succ fuel ih =>
    intro n ds hn hds
    have hm : n % 10 < 10 := Nat.mod_lt _ (by decide)
    have hd : isdigit (Nat.digitChar (n % 10)) = true := digitChar_isdigit _ hm
    have hds2 : ∀ c ∈ Nat.digitChar (n % 10) :: ds, isdigit c = true := by
      intro c hc
      rcases List.mem_cons.mp hc with rfl | hc
      · exact hd
      · exact hds c hc
    simp only [Nat.toDigitsCore]
    split
    · rename_i h0
      refine ⟨hds2, ?_⟩
      rw [decValue_cons, digitChar_value _ hm]
      have : n = n % 10 := by omega
      rw [← this]
    · rename_i h0
      have hlt : n / 10 < fuel := by omega
      obtain ⟨i1, i2⟩ := ih (n / 10) _ hlt hds2
      refine ⟨i1, ?_⟩
      rw [i2, decValue_cons, digitChar_value _ hm, List.length_cons, pow_succ]
      have := Nat.div_add_mod n 10
      conv_rhs => rw [← this]
      ring

/-- The decimal text of a natural number is made of digits and has that number as its
value. -/
theorem toString_nat_facts (n : Nat) :
    (∀ c ∈ (toString (Int.ofNat n)).data, isdigit c = true) ∧
    decValue (toString (Int.ofNat n)).data = n := by
  have h := toDigitsCore_facts (n + 1) n [] (by omega) (by simp)
  refine ⟨h.1, ?_⟩
  have := h.2
  simp only [List.length_nil, pow_zero, mul_one] at this
  rw [show decValue [] = 0 from rfl, add_zero] at this
  exact this

theorem toDigitsCore_head (fuel : Nat) : ∀ (n : Nat) (ds : List Char),
    (ds = [] → 0 < fuel) → (∀ c, ds.head? = some c → isdigit c = true) →
    ∃ c r, Nat.toDigitsCore 10 fuel n ds = c :: r ∧ isdigit c = true := by
  induction fuel with
  | zero =>
    intro n ds h1 h2
    cases ds with
    | nil => exact absurd (h1 rfl) (by decide)
    | cons c r => exact ⟨c, r, rfl, h2 c rfl⟩
  | succ fuel ih =>
    intro n ds _ h2
    have hd : isdigit (Nat.digitChar (n % 10)) = true :=
      digitChar_isdigit _ (Nat.mod_lt _ (by decide))
    simp only [Nat.toDigitsCore]
    split
    · exact ⟨_, _, rfl, hd⟩
    · exact ih _ _ (by simp) (by intro c hc; simp at hc; rw [← hc]; exact hd)

theorem Int_toString_head (i : Int) :
    ∃ c r, (toString i).data = c :: r ∧ (isdigit c = true ∨ c = '-') := by
  cases i with
  | ofNat n =>
    obtain ⟨c, r, h, hc⟩ := toDigitsCore_head (n + 1) n [] (by simp) (by simp)
    exact ⟨c, r, h, Or.inl hc⟩
  | negSucc n => exact ⟨'-', _, rfl, Or.inr rfl⟩

/-- The text of a printed `int` is not `*` and does not start like a left separator. -/
theorem Int_toString_facts (i : Int) :
    toString i ≠ "*" ∧ strchr "[,(=<>" (str0 (toString i)) = false := by
  obtain ⟨c, r, h, hc⟩ := Int_toString_head i
  have hs : str0 (toString i) = c := by simp [str0, h]
  constructor
  · intro e
    rw [e] at h
    simp only [List.cons.injEq] at h
    obtain ⟨rfl, _⟩ := h
    rcases hc with hc | hc
    · revert hc; decide
    · revert hc; decide
  · rw [hs]
    rcases hc with hc | hc
    · have hr := isdigit_range c hc
      cases h2 : strchr "[,(=<>" c with
      | false => rfl
      | true =>
        simp only [strchr, Bool.or_eq_true, beq_iff_eq, List.contains_eq_any_beq,
          List.any_cons, List.any_nil, Bool.or_false] at h2
        rcases h2 with h2 | h2 | h2 | h2 | h2 | h2 | h2 <;> subst h2 <;> revert hc <;> decide
    · subst hc
      decide


theorem number_facts (s : String) (h : IsNumber s = true) :
    s ≠ "*" ∧ strchr "[,(=<>" (str0 s) = false := by
  constructor
  · rintro rfl
    revert h
    decide
  · unfold IsNumber at h
    generalize str0 s = c at h
    have hr := isdigit_range c h
    cases hc : strchr "[,(=<>" c with
    | false => rfl
    | true =>
      simp only [strchr, Bool.or_eq_true, beq_iff_eq, List.contains_eq_any_beq, List.any_cons,
        List.any_nil, Bool.or_false] at hc
      rcases hc with hc | hc | hc | hc | hc | hc | hc <;> subst hc <;> revert h <;> decide

theorem term_facts (s : String) (h : str0 s ∈ "],);=<>".data) :
    s ≠ "*" ∧ s ≠ "1" ∧ strchr "+-*/" (str0 s) = false ∧ strchr "],);=<>" (str0 s) = true := by
  refine ⟨?_, ?_, ?_, ?_⟩
  · rintro rfl
    revert h
    decide
  · rintro rfl
    revert h
    decide
  · generalize str0 s = c at h
    simp only [List.mem_cons, List.mem_singleton, List.not_mem_nil, or_false] at h
    rcases h with h | h | h | h | h | h | h <;> subst h <;> decide
  · generalize str0 s = c at h
    simp only [List.mem_cons, List.mem_singleton, List.not_mem_nil, or_false] at h
    rcases h with h | h | h | h | h | h | h <;> subst h <;> decide

theorem sep_facts (s : String) (h : str0 s ∈ "[,(=<>".data) :
    strchr "[,(=<>" (str0 s) = true := by
  generalize str0 s = c at h
  simp only [List.mem_cons, List.mem_singleton, List.not_mem_nil, or_false] at h
  rcases h with h | h | h | h | h | h <;> subst h <;> decide

theorem op_facts (s : String) (h : s ∈ ["+", "-", "*", "/"]) :
    strchr "+-*/" (str0 s) = true ∧ s ≠ "1" ∧ strchr "[,(=<>" (str0 s) = false ∧
      (str0 s = '/' ↔ s = "/") ∧
      ∀ i1 i2 : Int, ¬ (s = "/" ∧ (i2 = 0 ∨ (i1 = -2 ^ 31 ∧ i2 = -1))) →
        calcOp (str0 s) i1 i2 = some (foldValue s i1 i2) := by
  simp only [List.mem_cons, List.mem_singleton, List.not_mem_nil, or_false] at h
  rcases h with h | h | h | h <;> subst h
  · exact ⟨by decide, by decide, by decide, by decide, fun i1 i2 _ => rfl⟩
  · exact ⟨by decide, by decide, by decide, by decide, fun i1 i2 _ => rfl⟩
  · exact ⟨by decide, by decide, by decide, by decide, fun i1 i2 _ => rfl⟩
  · refine ⟨by decide, by decide, by decide, by decide, fun i1 i2 hn => ?_⟩
    have hn2 : ¬ (i2 = 0 ∨ (i1 = -2 ^ 31 ∧ i2 = -1)) := fun h => hn ⟨rfl, h⟩
    have e1 : str0 "/" = '/' := rfl
    have e2 : foldValue "/" i1 i2 = wrap32 (Int.tdiv i1 i2) := rfl
    rw [e1, e2]
    unfold calcOp
    rw [if_neg (by decide), if_neg (by decide), if_neg (by decide), if_pos (by decide),
      if_neg hn2]

theorem calcDeleteOne_none (t a b : TOKEN) (r : List TOKEN) (h1 : a.str ≠ "*")
    (h2 : ¬ (a.str = "1" ∧ b.str = "*")) :
    calcDeleteOne (t :: a :: b :: r) = (t :: a :: b :: r, false) := by
  have g : gettok (t :: a :: b :: r) 1 = a :: b :: r := rfl
  unfold calcDeleteOne
  rw [g]
  simp only [Match_cons, Match_nil, Pat.ok, Bool.and_true]
  have e1 : (a.str == "*") = false := by simpa using h1
  rw [e1]
  by_cases ha : a.str = "1"
  · have hb : (b.str == "*") = false := by simpa using fun h => h2 ⟨ha, h⟩
    simp [hb]
  · have e2 : (a.str == "1") = false := by simpa using ha
    simp [e2]

theorem calcDeleteOne_none1 (t a : TOKEN) (r : List TOKEN) (h1 : a.str ≠ "*")
    (h2 : a.str ≠ "1") : calcDeleteOne (t :: a :: r) = (t :: a :: r, false) := by
  have g : gettok (t :: a :: r) 1 = a :: r := rfl
  unfold calcDeleteOne
  rw [g]
  have e1 : (a.str == "*") = false := by simpa using h1
  have e2 : (a.str == "1") = false := by simpa using h2
  simp only [Match_cons, Pat.ok, e1, e2, Bool.false_and, Bool.or_self, Bool.false_eq_true,
    if_false]

theorem calcDeleteOne_one (t a b : TOKEN) (r : List TOKEN) (ha : a.str = "1")
    (hb : b.str = "*") : calcDeleteOne (t :: a :: b :: r) = (t :: r, true) := by
  have g : gettok (t :: a :: b :: r) 1 = a :: b :: r := rfl
  unfold calcDeleteOne
  rw [g]
  simp [Match_cons, Match_nil, Pat.ok, ha, hb, DeleteNextToken]

theorem calcCond_false (t : TOKEN) (r : List TOKEN)
    (h : strchr "[,(=<>" (str0 t.str) = false) : calcCond (t :: r) = false := by
  have g : getstr (t :: r) 0 = t.str := rfl
  unfold calcCond
  rw [g, h]
  rfl

theorem calcBody_skip (P : Platform) (t a : TOKEN) (r : List TOKEN) (h1 : a.str ≠ "*")
    (h2 : a.str ≠ "1") (h : strchr "[,(=<>" (str0 t.str) = false) :
    calcBody P (t :: a :: r) = some (([t], a :: r), false) := by
  unfold calcBody
  simp only [calcDeleteOne_none1 t a r h1 h2, calcCond_false t _ h]
  rfl

theorem calcBody_skip2 (P : Platform) (t a b : TOKEN) (r : List TOKEN) (h1 : a.str ≠ "*")
    (h2 : b.str ≠ "*") (h : strchr "[,(=<>" (str0 t.str) = false) :
    calcBody P (t :: a :: b :: r) = some (([t], a :: b :: r), false) := by
  unfold calcBody
  simp only [calcDeleteOne_none t a b r h1 (fun h => h2 h.2), calcCond_false t _ h]
  rfl

theorem calcSweep_succ (P : Platform) (n : Nat) (t : TOKEN) (rest : List TOKEN) :
    calcSweep P (n + 1) (t :: rest) =
      (calcBody P (t :: rest)).bind fun b =>
        (calcSweep P n b.1.2).map fun r => (b.1.1 ++ r.1, b.2 || r.2) := by
  show (match calcBody P (t :: rest) with
    | none => none
    | some b =>
      match calcSweep P n b.1.2 with
      | none => none
      | some r => some (b.1.1 ++ r.1, b.2 || r.2)) = _
  cases calcBody P (t :: rest) with
  | none => rfl
  | some b =>
    simp only [Option.some_bind]
    cases calcSweep P n b.1.2 <;> rfl

theorem calcCond_window (sep n1 op n2 term : TOKEN) (post : List TOKEN)
    (hsep : str0 sep.str ∈ "[,(=<>".data) (hn1 : IsNumber n1.str = true)
    (hop : op.str ∈ ["+", "-", "*", "/"]) (hn2 : IsNumber n2.str = true)
    (hterm : str0 term.str ∈ "],);=<>".data) :
    calcCond (sep :: n1 :: op :: n2 :: term :: post) = true := by
  simp [calcCond, getstr, gettok, sep_facts _ hsep, hn1, (op_facts _ hop).1, hn2,
    (term_facts _ hterm).2.2.2]

/-- The sweep of the simple calculations at a token whose first character is one of
`[ , ( = < >`, followed by `NUM1 OP NUM2` and a token whose first character is one of
`] ) , ; = < >`. -/
theorem calcSweep_window (P : Platform) (k : Nat) (sep n1 op n2 term : TOKEN)
    (post : List TOKEN)
    (hsep : str0 sep.str ∈ "[,(=<>".data) (hn1 : IsNumber n1.str = true)
    (hop : op.str ∈ ["+", "-", "*", "/"]) (hn2 : IsNumber n2.str = true)
    (hterm : str0 term.str ∈ "],);=<>".data) :
    (¬ (n1.str = "1" ∧ op.str = "*") → ¬ (op.str = "/" ∧ atoi P n2.str = 0) →
      ¬ (op.str = "/" ∧ atoi P n1.str = -2 ^ 31 ∧ atoi P n2.str = -1) →
      calcSweep P (k + 1) (sep :: n1 :: op :: n2 :: term :: post) =
        (calcSweep P k (term :: post)).map fun r =>
          (sep :: { n1 with
            str := toString (foldValue op.str (atoi P n1.str) (atoi P n2.str)) } :: r.1,
            true)) ∧
    (n1.str = "1" → op.str = "*" →
      calcSweep P (k + 2) (sep :: n1 :: op :: n2 :: term :: post) =
        (calcSweep P k (term :: post)).map fun r => (sep :: n2 :: r.1, true)) ∧
    (op.str = "/" → atoi P n2.str = 0 →
      calcSweep P (k + 4) (sep :: n1 :: op :: n2 :: term :: post) =
        (calcSweep P k (term :: post)).map fun r => (sep :: n1 :: op :: n2 :: r.1, r.2)) ∧
    (op.str = "/" → atoi P n1.str = -2 ^ 31 → atoi P n2.str = -1 →
      calcSweep P (k + 1) (sep :: n1 :: op :: n2 :: term :: post) = none) := by
  obtain ⟨hn1s, hn1c⟩ := number_facts _ hn1
  obtain ⟨hn2s, hn2c⟩ := number_facts _ hn2
  obtain ⟨ht1, ht2, ht3, ht4⟩ := term_facts _ hterm
  obtain ⟨ho1, ho2, ho3, ho4, ho5⟩ := op_facts _ hop
  have hcond := calcCond_window sep n1 op n2 term post hsep hn1 hop hn2 hterm
  have g1 : getstr (sep :: n1 :: op :: n2 :: term :: post) 1 = n1.str := rfl
  have g2 : getstr (sep :: n1 :: op :: n2 :: term :: post) 2 = op.str := rfl
  have g3 : getstr (sep :: n1 :: op :: n2 :: term :: post) 3 = n2.str := rfl
  refine ⟨?_, ?_, ?_, ?_⟩
  · intro h1 h2 h3
    have hz : ¬ (atoi P n2.str = 0 ∧ str0 op.str = '/') := by
      rw [ho4]
      exact fun h => h2 ⟨h.2, h.1⟩
    have hop2 := ho5 (atoi P n1.str) (atoi P n2.str) (by
      rintro ⟨e, h | h⟩
      · exact h2 ⟨e, h⟩
      · exact h3 ⟨e, h⟩)
    have hb : calcBody P (sep :: n1 :: op :: n2 :: term :: post) =
        some (([sep, { n1 with
          str := toString (foldValue op.str (atoi P n1.str) (atoi P n2.str)) }],
          term :: post), true) := by
      unfold calcBody
      simp only [calcDeleteOne_none sep n1 op _ hn1s h1, hcond, if_true]
      rw [g1, g2, g3, if_neg hz, hop2]
      rfl
    rw [calcSweep_succ, hb]
    simp only [Option.some_bind]
    cases calcSweep P k (term :: post) <;> simp
  · intro h1 h2
    have hb : calcBody P (sep :: n1 :: op :: n2 :: term :: post) =
        some (([sep], n2 :: term :: post), true) := by
      unfold calcBody
      simp only [calcDeleteOne_one sep n1 op _ h1 h2]
      have hc : calcCond (sep :: n2 :: term :: post) = false := by
        simp [calcCond, getstr, gettok, ht3]
      rw [hc]
      rfl
    rw [calcSweep_succ, hb]
    simp only [Option.some_bind]
    rw [calcSweep_succ, calcBody_skip P n2 term post ht1 ht2 hn2c]
    simp only [Option.some_bind]
    cases calcSweep P k (term :: post) <;> simp
  · intro h1 h2
    have hb : calcBody P (sep :: n1 :: op :: n2 :: term :: post) =
        some (([sep], n1 :: op :: n2 :: term :: post), false) := by
      unfold calcBody
      simp only [calcDeleteOne_none sep n1 op _ hn1s (fun h => by
        rw [h1] at h; exact absurd h.2 (by decide)), hcond, if_true]
      rw [g2, g3, if_pos ⟨h2, ho4.mpr h1⟩]
      rfl
    have hop1 : op.str ≠ "*" := by rw [h1]; decide
    rw [calcSweep_succ, hb]
    simp only [Option.some_bind]
    rw [calcSweep_succ, calcBody_skip P n1 op _ hop1 ho2 hn1c]
    simp only [Option.some_bind]
    rw [calcSweep_succ, calcBody_skip2 P op n2 term _ hn2s ht1 ho3]
    simp only [Option.some_bind]
    rw [calcSweep_succ, calcBody_skip P n2 term post ht1 ht2 hn2c]
    simp only [Option.some_bind]
    cases calcSweep P k (term :: post) <;> simp
  · intro h1 h2 h3
    have hz : ¬ (atoi P n2.str = 0 ∧ str0 op.str = '/') := by
      rw [h3]
      exact fun h => absurd h.1 (by decide)
    have hb : calcBody P (sep :: n1 :: op :: n2 :: term :: post) = none := by
      unfold calcBody
      simp only [calcDeleteOne_none sep n1 op _ hn1s (fun h => by
        rw [h1] at h; exact absurd h.2 (by decide)), hcond, if_true]
      rw [g1, g2, g3, if_neg hz, h2, h3, h1]
      rfl
    rw [calcSweep_succ, hb]
    rfl

theorem takeWhile_digits (ds : List Char) (h : ∀ c ∈ ds, isdigit c = true) :
    ds.takeWhile isdigit = ds := by
  apply takeWhile_all
  exact List.all_eq_true.mpr h

/-- What `atoi` reads from a text made of digits: the decimal value, replaced by `LONG_MAX`
when it is larger, and reduced to an `int`. -/
theorem atoi_digits (P : Platform) (ds : List Char) (h : ∀ c ∈ ds, isdigit c = true) :
    atoi P ⟨ds⟩ = wrap32 (min (decValue ds : Int) ((P.ULONG_MAX / 2 : Nat) : Int)) := by
  have hdrop : ds.dropWhile isspace = ds := by
    cases ds with
    | nil => rfl
    | cons c r =>
      have hc := h c (List.mem_cons_self _ _)
      have hs : isspace c = false := isspace_false_of_ge c (isdigit_range c hc).1
      simp [List.dropWhile_cons, hs]
  have hsign : skipSign ds = ds := by
    cases ds with
    | nil => rfl
    | cons c r =>
      have hc := h c (List.mem_cons_self _ _)
      exact skipSign_of_ge c r (isdigit_range c hc).1
  have hminus : (ds.head? == some '-') = false := by
    cases ds with
    | nil => rfl
    | cons c r =>
      have hc := h c (List.mem_cons_self _ _)
      have hr := isdigit_range c hc
      have : c ≠ '-' := by
        rintro rfl
        revert hc
        decide
      simp [this]
  unfold atoi
  simp only [hdrop, hsign, hminus, takeWhile_digits ds h, Bool.false_eq_true, if_false]
  congr 1
  have h0 : (0 : Int) ≤ (decValue ds : Int) := Int.natCast_nonneg _
  have h1 : (0 : Int) ≤ ((P.ULONG_MAX / 2 : Nat) : Int) := Int.natCast_nonneg _
  omega

/-! ## `sizeof` of an array -/

theorem sizeofVarScan_nil (v : String) (tot : Int) (n : Nat) (lvl : Int) :
    sizeofVarScan v tot n lvl [] = [] := by
  cases n <;> rfl

theorem sizeofVarScan_succ (v : String) (tot : Int) (n : Nat) (lvl : Int) (tok2 : TOKEN)
    (rest : List TOKEN) :
    sizeofVarScan v tot (n + 1) lvl (tok2 :: rest) =
      if str0 tok2.str == '\x7b' then tok2 :: sizeofVarScan v tot n (lvl + 1) rest
      else if str0 tok2.str == '\x7d' then
        if lvl - 1 < 0 then tok2 :: rest
        else tok2 :: sizeofVarScan v tot n (lvl - 1) rest
      else if Match (tok2 :: rest) [.lit "sizeof", .lit "(", .var, .lit ")"] then
        if getstr (tok2 :: rest) 2 = v then
          { tok2 with str := toString tot } :: sizeofVarScan v tot n lvl (rest.drop 3)
        else tok2 :: sizeofVarScan v tot n lvl rest
      else tok2 :: sizeofVarScan v tot n lvl rest := rfl

theorem sizeofVarScan_fuel_aux (v : String) (tot : Int) (n : Nat) :
    ∀ (m : Nat) (lvl : Int) (l : List TOKEN), l.length ≤ n → l.length ≤ m →
      sizeofVarScan v tot n lvl l = sizeofVarScan v tot m lvl l := by
  induction n with
  | zero =>
    intro m lvl l h _
    have : l = [] := List.length_eq_zero.mp (Nat.le_zero.mp h)
    subst this
    rw [sizeofVarScan_nil, sizeofVarScan_nil]
  | succ n ih =>
    intro m lvl l h hm
    cases l with
    | nil => rw [sizeofVarScan_nil, sizeofVarScan_nil]
    | cons t rest =>
      cases m with
      | zero => simp at hm
      | succ m =>
        simp only [List.length_cons, Nat.add_le_add_iff_right] at h hm
        have hd : (rest.drop 3).length ≤ rest.length := by simp
        rw [sizeofVarScan_succ, sizeofVarScan_succ, ih m (lvl + 1) rest h hm,
          ih m (lvl - 1) rest h hm, ih m lvl rest h hm,
          ih m lvl (rest.drop 3) (le_trans hd h) (le_trans hd hm)]

theorem sizeofVarScan_fuel (v : String) (tot : Int) (n : Nat) (lvl : Int) (l : List TOKEN)
    (h : l.length ≤ n) : sizeofVarScan v tot n lvl l = sizeofVarScanAll v tot lvl l :=
  sizeofVarScan_fuel_aux v tot n l.length lvl l h (le_refl _)

theorem sizeofVarScanAll_cons (v : String) (tot : Int) (lvl : Int) (tok2 : TOKEN)
    (rest : List TOKEN) :
    sizeofVarScanAll v tot lvl (tok2 :: rest) =
      if str0 tok2.str == '\x7b' then tok2 :: sizeofVarScanAll v tot (lvl + 1) rest
      else if str0 tok2.str == '\x7d' then
        if lvl - 1 < 0 then tok2 :: rest
        else tok2 :: sizeofVarScanAll v tot (lvl - 1) rest
      else if Match (tok2 :: rest) [.lit "sizeof", .lit "(", .var, .lit ")"] then
        if getstr (tok2 :: rest) 2 = v then
          { tok2 with str := toString tot } :: sizeofVarScanAll v tot lvl (rest.drop 3)
        else tok2 :: sizeofVarScanAll v tot lvl rest
      else tok2 :: sizeofVarScanAll v tot lvl rest := by
  show sizeofVarScan v tot (rest.length + 1) lvl (tok2 :: rest) = _
  rw [sizeofVarScan_succ, sizeofVarScan_fuel v tot rest.length (lvl + 1) rest (le_refl _),
    sizeofVarScan_fuel v tot rest.length (lvl - 1) rest (le_refl _),
    sizeofVarScan_fuel v tot rest.length lvl rest (le_refl _),
    sizeofVarScan_fuel v tot rest.length lvl (rest.drop 3) (by simp)]

theorem sizeofVarScanAll_length (v : String) (tot : Int) (k : Nat) :
    ∀ (lvl : Int) (l : List TOKEN), l.length ≤ k →
      (sizeofVarScanAll v tot lvl l).length ≤ l.length := by
  induction k with
  | zero =>
    intro lvl l h
    have : l = [] := List.length_eq_zero.mp (Nat.le_zero.mp h)
    subst this
    simp [sizeofVarScanAll, sizeofVarScan_nil]
  | succ k ih =>
    intro lvl l h
    cases l with
    | nil => simp [sizeofVarScanAll, sizeofVarScan_nil]
    | cons t rest =>
      simp only [List.length_cons, Nat.add_le_add_iff_right] at h
      have hd : (rest.drop 3).length ≤ rest.length := by simp
      have i1 := ih (lvl + 1) rest h
      have i2 := ih (lvl - 1) rest h
      have i3 := ih lvl rest h
      have i4 := ih lvl (rest.drop 3) (le_trans hd h)
      rw [sizeofVarScanAll_cons]
      split
      · simp only [List.length_cons]; omega
      · split
        · split
          · simp
          · simp only [List.length_cons]; omega
        · split
          · split
            · simp only [List.length_cons]; omega
            · simp only [List.length_cons]; omega
          · simp only [List.length_cons]; omega

theorem NoReach_sizeof (s lp : TOKEN) (w : List TOKEN) (hs : s.str = "sizeof")
    (hlp : lp.str = "(") : NoReach (s :: lp :: w) := by
  intro t pre h
  rcases pre with _ | ⟨a, _ | ⟨b, _ | ⟨c, r⟩⟩⟩
  · simp [Match, Pat.ok, hs]
  · simp [Match, Pat.ok, hs, hlp]
  · simp [Match, Pat.ok, hs]
  · simp only [List.length_cons] at h
    omega

theorem NoReach_brace (c : TOKEN) (w : List TOKEN) (hc : str0 c.str = '\x7d') :
    NoReach (c :: w) := by
  have h1 : c.str ≠ "(" := by
    intro h
    rw [h] at hc
    revert hc
    decide
  have h2 : c.str ≠ ")" := by
    intro h
    rw [h] at hc
    revert hc
    decide
  have h3 : IsName c.str = false := by
    unfold IsName
    rw [hc]
    decide
  intro t pre h
  rcases pre with _ | ⟨a, _ | ⟨b, _ | ⟨d, r⟩⟩⟩
  · simp [Match, Pat.ok, h1]
  · simp [Match, Pat.ok, h3]
  · simp [Match, Pat.ok, h2]
  · simp only [List.length_cons] at h
    omega

theorem braceStep_of_name (lvl : Int) (t : TOKEN) (h : IsName t.str = true) :
    braceStep lvl t = lvl := by
  unfold IsName at h
  unfold braceStep
  generalize str0 t.str = c at h
  have h1 : c ≠ '\x7b' := by
    rintro rfl
    revert h
    decide
  have h2 : c ≠ '\x7d' := by
    rintro rfl
    revert h
    decide
  simp [h1, h2]

theorem braceStep_of_str (lvl : Int) (t : TOKEN) (s : String) (h : t.str = s)
    (h1 : str0 s ≠ '\x7b') (h2 : str0 s ≠ '\x7d') : braceStep lvl t = lvl := by
  unfold braceStep
  rw [h]
  simp [h1, h2]

theorem Match_sizeof_var (t : TOKEN) (l : List TOKEN)
    (h : Match (t :: l) [.lit "sizeof", .lit "(", .var, .lit ")"] = true) :
    ∃ lp v rp r, l = lp :: v :: rp :: r ∧ t.str = "sizeof" ∧ lp.str = "(" ∧
      IsName v.str = true ∧ rp.str = ")" := by
  rcases l with _ | ⟨a, _ | ⟨b, _ | ⟨c, r⟩⟩⟩
  · simp [Match, Pat.ok] at h
  · simp [Match, Pat.ok] at h
  · simp [Match, Pat.ok] at h
  · simp only [Match_cons, Match_nil, Pat.ok, Bool.and_eq_true, beq_iff_eq] at h
    exact ⟨a, b, c, r, rfl, h.1, h.2.1, h.2.2.1, h.2.2.2.1⟩

theorem depthAfter_cons (lvl : Int) (t : TOKEN) (l : List TOKEN) :
    depthAfter lvl (t :: l) = depthAfter (braceStep lvl t) l := rfl

theorem sizeofVarScanAll_append (v : String) (tot : Int) (w : List TOKEN) (hw : NoReach w)
    (k : Nat) : ∀ (b1 : List TOKEN) (lvl : Int), b1.length ≤ k → InScope lvl b1 = true →
      sizeofVarScanAll v tot lvl (b1 ++ w) =
        sizeofVarScanAll v tot lvl b1 ++ sizeofVarScanAll v tot (depthAfter lvl b1) w := by
  induction k with
  | zero =>
    intro b1 lvl h _
    have : b1 = [] := List.length_eq_zero.mp (Nat.le_zero.mp h)
    subst this
    simp [sizeofVarScanAll, sizeofVarScan_nil, depthAfter]
  | succ k ih =>
    intro b1 lvl h hin
    cases b1 with
    | nil => simp [sizeofVarScanAll, sizeofVarScan_nil, depthAfter]
    | cons t b1 =>
      simp only [List.length_cons, Nat.add_le_add_iff_right] at h
      simp only [InScope, Bool.and_eq_true, decide_eq_true_eq] at hin
      obtain ⟨hin1, hin2⟩ := hin
      show sizeofVarScanAll v tot lvl (t :: (b1 ++ w)) = _
      rw [sizeofVarScanAll_cons, sizeofVarScanAll_cons, depthAfter_cons]
      by_cases h1 : (str0 t.str == '\x7b') = true
      · have hb : braceStep lvl t = lvl + 1 := by simp [braceStep, h1]
        rw [hb] at hin2 ⊢
        rw [if_pos h1, if_pos h1, ih b1 (lvl + 1) h hin2]
        rfl
      · rw [if_neg h1, if_neg h1]
        by_cases h2 : (str0 t.str == '\x7d') = true
        · have hb : braceStep lvl t = lvl - 1 := by simp [braceStep, h1, h2]
          rw [hb] at hin1 hin2 ⊢
          rw [if_pos h2, if_pos h2, if_neg (by omega), if_neg (by omega),
            ih b1 (lvl - 1) h hin2]
          rfl
        · have hb : braceStep lvl t = lvl := by simp [braceStep, h1, h2]
          rw [hb] at hin2 ⊢
          rw [if_neg h2, if_neg h2]
          by_cases hm : Match (t :: b1) [.lit "sizeof", .lit "(", .var, .lit ")"] = true
          · obtain ⟨lp, x, rp, r, rfl, _, hlp, hx, hrp⟩ := Match_sizeof_var t _ hm
            have hm2 : Match (t :: (lp :: x :: rp :: r ++ w))
                [.lit "sizeof", .lit "(", .var, .lit ")"] = true := by
              rw [← hm]
              exact Match_append (t :: lp :: x :: rp :: r) w _ (by simp)
            rw [if_pos hm, if_pos hm2]
            have g : getstr (t :: (lp :: x :: rp :: r ++ w)) 2 =
                getstr (t :: lp :: x :: rp :: r) 2 := rfl
            rw [g]
            have hs1 : braceStep lvl lp = lvl :=
              braceStep_of_str lvl lp "(" hlp (by decide) (by decide)
            have hs2 : braceStep lvl x = lvl := braceStep_of_name lvl x hx
            have hs3 : braceStep lvl rp = lvl :=
              braceStep_of_str lvl rp ")" hrp (by decide) (by decide)
            have hin3 : InScope lvl r = true := by
              have := hin2
              simp only [InScope, hs1, hs2, hs3, Bool.and_eq_true, decide_eq_true_eq] at this
              exact this.2.2.2
            have hd : depthAfter lvl (lp :: x :: rp :: r) = depthAfter lvl r := by
              simp only [depthAfter_cons, hs1, hs2, hs3]
            simp only [List.length_cons] at h
            split
            · show _ :: sizeofVarScanAll v tot lvl (r ++ w) = _
              rw [ih r lvl (by omega) hin3, hd]
              rfl
            · rw [ih _ lvl (by simp only [List.length_cons]; omega) hin2]
              rfl
          · have hm2 : Match (t :: (b1 ++ w)) [.lit "sizeof", .lit "(", .var, .lit ")"] =
                false := by
              by_cases hl : b1.length < 3
              · exact hw t b1 hl
              · have := Match_append (t :: b1) w
                  [.lit "sizeof", .lit "(", .var, .lit ")"]
                  (by simp only [List.length_cons, List.length_nil]; omega)
                rw [List.cons_append] at this
                rw [this]
                simpa using hm
            rw [if_neg hm, if_neg (by simp [hm2]), ih b1 lvl h hin2]
            rfl

theorem sizeofVarAt_length (P : Platform) (ts : TypeSizeMap) (l : List TOKEN) :
    (sizeofVarAt P ts l).length ≤ l.length := by
  unfold sizeofVarAt
  split
  · exact le_refl _
  · split
    · exact le_refl _
    · have := sizeofVarScanAll_length (getstr l 1)
        (wrap32 (SizeOfType ts (getstr l 0) * atoi P (getstr l 3))) (gettok l 5).length 0
        (gettok l 5) (le_refl _)
      unfold sizeofVarScanAll at this
      simp only [List.length_append, List.length_take, gettok, List.length_drop] at this ⊢
      omega

theorem sizeofVarBody_shrinks (P : Platform) (ts : TypeSizeMap) : Shrinks (sizeofVarBody P ts) := by
  intro t rest
  exact stay_shrinks _ rest (sizeofVarAt_length P ts (t :: rest))

theorem sizeofVarPass_at (P : Platform) (ts : TypeSizeMap) (t : TOKEN) (rest rest2 : List TOKEN)
    (h : sizeofVarAt P ts (t :: rest) = t :: rest2) :
    sizeofVarPass P ts (t :: rest) = t :: sizeofVarPass P ts rest2 := by
  unfold sizeofVarPass
  rw [forTok_canon _ (sizeofVarBody_shrinks P ts)]
  simp [sizeofVarBody, h, stay]

theorem sizeofVarAt_not_name (P : Platform) (ts : TypeSizeMap) (t : TOKEN) (rest : List TOKEN)
    (h : IsName t.str = false) : sizeofVarAt P ts (t :: rest) = t :: rest := by
  unfold sizeofVarAt
  simp [Match, Pat.ok, h]

theorem sizeofVarAt_not_var (P : Platform) (ts : TypeSizeMap) (t a : TOKEN) (rest : List TOKEN)
    (h : IsName a.str = false) : sizeofVarAt P ts (t :: a :: rest) = t :: a :: rest := by
  unfold sizeofVarAt
  simp [Match, Pat.ok, h]

/-- C7, for a declaration that the loop reaches unchanged: at the declaration
`T NAME [ NUM ] ;` with a positive size `s` of `T`, the loop "Replace 'sizeof(var)'" keeps the
declaration and goes on over the tokens after it as its inner scan leaves them; in that scan
every `sizeof ( NAME )` inside the scope of the declaration, nested blocks included, becomes
one token with the text of `s` times the `int` that `atoi` reads from `NUM`, the product
reduced to an `int`, and the tokens after the `}` that closes the scope are left as they are.
From a `NUM` made of decimal digits `atoi` reads the decimal value, replaced by `LONG_MAX` when
it is larger and reduced to an `int`.  With `int` of size 4, `sizeof ( arr )` after
`int arr [ 4 ] ;` becomes `16` inside the scope and stays outside. -/
theorem sizeof_array_scope (P : Platform) (ts : TypeSizeMap) (T N lb NUM rb semi : TOKEN) (rest : List TOKEN)
    (hT : IsName T.str = true) (hN : IsName N.str = true) (hlb : lb.str = "[")
    (hNUM : IsNumber NUM.str = true) (hrb : rb.str = "]") (hsemi : semi.str = ";")
    (hsize : SizeOfType ts T.str > 0) :
    sizeofVarPass P ts (T :: N :: lb :: NUM :: rb :: semi :: rest) =
      T :: N :: lb :: NUM :: rb :: sizeofVarPass P ts
        (sizeofVarScanAll N.str (wrap32 (SizeOfType ts T.str * atoi P NUM.str)) 0
          (semi :: rest)) ∧
    (∀ (b1 b2 : List TOKEN) (s lp v rp : TOKEN), InScope 0 b1 = true → s.str = "sizeof" →
      lp.str = "(" → v.str = N.str → rp.str = ")" →
      sizeofVarScanAll N.str (wrap32 (SizeOfType ts T.str * atoi P NUM.str)) 0
          (b1 ++ s :: lp :: v :: rp :: b2) =
        sizeofVarScanAll N.str (wrap32 (SizeOfType ts T.str * atoi P NUM.str)) 0 b1 ++
          { s with str := toString (wrap32 (SizeOfType ts T.str * atoi P NUM.str)) } ::
          sizeofVarScanAll N.str (wrap32 (SizeOfType ts T.str * atoi P NUM.str))
            (depthAfter 0 b1) b2) ∧
    (∀ (b1 after : List TOKEN) (c : TOKEN), InScope 0 b1 = true → depthAfter 0 b1 = 0 →
      str0 c.str = '\x7d' →
      sizeofVarScanAll N.str (wrap32 (SizeOfType ts T.str * atoi P NUM.str)) 0
          (b1 ++ c :: after) =
        sizeofVarScanAll N.str (wrap32 (SizeOfType ts T.str * atoi P NUM.str)) 0 b1 ++
          c :: after) ∧
    texts (sizeofVarPass lp64 (builtinTypeSize lp64) (toks ["\x7b", "int", "arr", "[", "4", "]", ";",
        "\x7b", "x", "=", "sizeof", "(", "arr", ")", ";", "\x7d", "\x7d",
        "y", "=", "sizeof", "(", "arr", ")", ";"])) =
      ["\x7b", "int", "arr", "[", "4", "]", ";", "\x7b", "x", "=", "16", ";", "\x7d", "\x7d",
        "y", "=", "sizeof", "(", "arr", ")", ";"] ∧
    (∀ ds : List Char, (∀ c ∈ ds, isdigit c = true) →
      atoi P ⟨ds⟩ = wrap32 (min (decValue ds : Int) ((P.ULONG_MAX / 2 : Nat) : Int))) := by
  refine ⟨?_, ?_, ?_, by decide, atoi_digits P⟩
  · have e1 : sizeofVarAt P ts (T :: N :: lb :: NUM :: rb :: semi :: rest) =
        T :: N :: lb :: NUM :: rb ::
          sizeofVarScanAll N.str (wrap32 (SizeOfType ts T.str * atoi P NUM.str)) 0
            (semi :: rest) := by
      unfold sizeofVarAt
      have hz : ¬ SizeOfType ts T.str ≤ 0 := by omega
      simp [Match, Pat.ok, hT, hN, hlb, hNUM, hrb, hsemi, getstr, gettok, hz,
        sizeofVarScanAll]
    have n1 : IsName lb.str = false := by rw [hlb]; decide
    have n2 : IsName NUM.str = false := by
      cases h : IsName NUM.str with
      | false => rfl
      | true => rw [IsName_not_IsNumber _ h] at hNUM; cases hNUM
    have n3 : IsName rb.str = false := by rw [hrb]; decide
    rw [sizeofVarPass_at P ts _ _ _ e1,
      sizeofVarPass_at P ts _ _ _ (sizeofVarAt_not_var P ts N lb _ n1),
      sizeofVarPass_at P ts _ _ _ (sizeofVarAt_not_name P ts lb _ n1),
      sizeofVarPass_at P ts _ _ _ (sizeofVarAt_not_name P ts NUM _ n2),
      sizeofVarPass_at P ts _ _ _ (sizeofVarAt_not_name P ts rb _ n3)]
  · intro b1 b2 s lp v rp hin hs hlp hv hrp
    rw [sizeofVarScanAll_append _ _ _ (NoReach_sizeof s lp _ hs hlp) b1.length b1 0
      (le_refl _) hin, sizeofVarScanAll_cons]
    have hv2 : IsName v.str = true := by rw [hv]; exact hN
    have c1 : (str0 s.str == '\x7b') = false := by rw [hs]; decide
    have c2 : (str0 s.str == '\x7d') = false := by rw [hs]; decide
    have hm : Match (s :: lp :: v :: rp :: b2) [.lit "sizeof", .lit "(", .var, .lit ")"] =
        true := by
      simp [Match, Pat.ok, hs, hlp, hv2, hrp]
    have g : getstr (s :: lp :: v :: rp :: b2) 2 = v.str := rfl
    rw [c1, c2, hm, g]
    simp [hv]
  · intro b1 after c hin hd hc
    rw [sizeofVarScanAll_append _ _ _ (NoReach_brace c _ hc) b1.length b1 0 (le_refl _) hin,
      sizeofVarScanAll_cons, hd]
    have c1 : (str0 c.str == '\x7b') = false := by rw [hc]; decide
    have c2 : (str0 c.str == '\x7d') = true := by rw [hc]; decide
    rw [c1, c2]
    simp

theorem sizeof_array_scope_witness :
    sizeofVarScanAll "a" (wrap32 (SizeOfType (builtinTypeSize lp64) "char" * atoi lp64 "3")) 0
        (toks [";", "\x7b"] ++ ⟨"sizeof", 1, 0⟩ :: ⟨"(", 1, 0⟩ :: ⟨"a", 1, 0⟩ :: ⟨")", 1, 0⟩ ::
          toks ["\x7d"]) =
      sizeofVarScanAll "a" (wrap32 (SizeOfType (builtinTypeSize lp64) "char" * atoi lp64 "3")) 0
          (toks [";", "\x7b"]) ++
        ⟨toString (wrap32 (SizeOfType (builtinTypeSize lp64) "char" * atoi lp64 "3")), 1, 0⟩ ::
        sizeofVarScanAll "a" (wrap32 (SizeOfType (builtinTypeSize lp64) "char" * atoi lp64 "3"))
          (depthAfter 0 (toks [";", "\x7b"])) (toks ["\x7d"]) ∧
    sizeofVarScanAll "a" (wrap32 (SizeOfType (builtinTypeSize lp64) "char" * atoi lp64 "3")) 0
        (toks [";"] ++ ⟨"\x7d", 1, 0⟩ :: toks ["sizeof", "(", "a", ")"]) =
      sizeofVarScanAll "a" (wrap32 (SizeOfType (builtinTypeSize lp64) "char" * atoi lp64 "3")) 0
          (toks [";"]) ++ ⟨"\x7d", 1, 0⟩ :: toks ["sizeof", "(", "a", ")"] :=
  ⟨(sizeof_array_scope lp64 (builtinTypeSize lp64) ⟨"char", 1, 0⟩ ⟨"a", 1, 0⟩ ⟨"[", 1, 0⟩
      ⟨"3", 1, 0⟩ ⟨"]", 1, 0⟩ ⟨";", 1, 0⟩ [] (by decide) (by decide) (by decide) (by decide)
      (by decide) (by decide) (by decide)).2.1 (toks [";", "\x7b"]) (toks ["\x7d"])
      ⟨"sizeof", 1, 0⟩ ⟨"(", 1, 0⟩ ⟨"a", 1, 0⟩ ⟨")", 1, 0⟩ (by decide) (by decide) (by decide)
      (by decide) (by decide),
   (sizeof_array_scope lp64 (builtinTypeSize lp64) ⟨"char", 1, 0⟩ ⟨"a", 1, 0⟩ ⟨"[", 1, 0⟩
      ⟨"3", 1, 0⟩ ⟨"]", 1, 0⟩ ⟨";", 1, 0⟩ [] (by decide) (by decide) (by decide) (by decide)
      (by decide) (by decide) (by decide)).2.2.1 (toks [";"]) (toks ["sizeof", "(", "a", ")"])
      ⟨"\x7d", 1, 0⟩ (by decide) (by decide) (by decide)⟩

/-- C7, as stated, fails when an outer declaration has the same name: the `sizeof ( a )` after
`char a [ 2 ] ;` gets the size 16 of the outer `int a [ 4 ] ;`, not 2.  It also fails for a
`NUM` that is not written in decimal digits: after `int a [ 0x10 ] ;` the `sizeof ( a )`
becomes `0`, as `atoi` reads 0 from `0x10`, and after `int a [ 010 ] ;` it becomes `40`, as
`atoi` reads 10 from `010`. -/
theorem sizeof_array_shadowed :
    texts (sizeofVarPass lp64 (builtinTypeSize lp64) (toks ["\x7b", "int", "a", "[", "4", "]", ";",
        "\x7b", "char", "a", "[", "2", "]", ";", "x", "=", "sizeof", "(", "a", ")", ";",
        "\x7d", "\x7d"])) =
      ["\x7b", "int", "a", "[", "4", "]", ";", "\x7b", "char", "a", "[", "2", "]", ";",
        "x", "=", "16", ";", "\x7d", "\x7d"] ∧
    texts (sizeofVarPass lp64 (builtinTypeSize lp64) (toks ["int", "a", "[", "0x10", "]", ";",
        "x", "=", "sizeof", "(", "a", ")", ";"])) =
      ["int", "a", "[", "0x10", "]", ";", "x", "=", "0", ";"] ∧
    texts (sizeofVarPass lp64 (builtinTypeSize lp64) (toks ["int", "a", "[", "010", "]", ";",
        "x", "=", "sizeof", "(", "a", ")", ";"])) =
      ["int", "a", "[", "010", "]", ";", "x", "=", "40", ";"] := by
  decide

/-! ## Splitting of declarations -/

theorem splitLoop_succ (n : Nat) (t : TOKEN) (rest : List TOKEN) :
    splitLoop (n + 1) (t :: rest) =
      (splitLoop n (splitBody (t :: rest)).2).map ((splitBody (t :: rest)).1 ++ ·) := rfl

theorem name_facts (s : String) (h : IsName s = true) :
    strchr "\x7b\x7d;" (str0 s) = false ∧ s ≠ "*" ∧ s ≠ "," := by
  refine ⟨?_, ?_, ?_⟩
  · unfold IsName at h
    generalize str0 s = c at h
    cases hc : strchr "\x7b\x7d;" c with
    | false => rfl
    | true =>
      simp only [strchr, Bool.or_eq_true, beq_iff_eq, List.contains_eq_any_beq, List.any_cons,
        List.any_nil, Bool.or_false] at hc
      rcases hc with hc | hc | hc | hc <;> subst hc <;> revert h <;> decide
  · rintro rfl
    revert h
    decide
  · rintro rfl
    revert h
    decide

theorem splitBody_skip (t : TOKEN) (rest : List TOKEN)
    (h : strchr "\x7b\x7d;" (str0 t.str) = false) : splitBody (t :: rest) = ([t], rest) := by
  have g : getstr (t :: rest) 0 = t.str := rfl
  unfold splitBody
  rw [g, h]
  rfl

theorem splitBody_comma (b T a c : TOKEN) (rest : List TOKEN)
    (hb : strchr "\x7b\x7d;" (str0 b.str) = true) (hT : IsName T.str = true)
    (hTe : T.str ≠ "else") (ha : IsName a.str = true) (hc : c.str = ",") :
    splitBody (b :: T :: a :: c :: rest) =
      ([b], T :: a :: { c with str := ";" } :: T :: rest) := by
  have g0 : getstr (b :: T :: a :: c :: rest) 0 = b.str := rfl
  have g1 : gettok (b :: T :: a :: c :: rest) 1 = T :: a :: c :: rest := rfl
  have g2 : getstr (b :: T :: a :: c :: rest) 1 = T.str := rfl
  have hs : splitShape (T :: a :: c :: rest) = some (2, 1) := by
    unfold splitShape
    simp [Match, Pat.ok, hT, ha, hc]
  have hcc : (str0 c.str == ',') = true := by rw [hc]; decide
  unfold splitBody
  rw [g0, g1, g2, hb]
  simp only [Bool.not_true, Bool.false_eq_true, if_false, List.cons_ne_nil, hTe, hs]
  simp [gettok, hcc, InsertTokens, stay]

theorem splitBody_last (b T a semi : TOKEN) (rest : List TOKEN)
    (ha : IsName a.str = true) (hsemi : semi.str = ";") :
    splitBody (b :: T :: a :: semi :: rest) = ([b], T :: a :: semi :: rest) := by
  have hs : splitShape (T :: a :: semi :: rest) = none := by
    have h1 : a.str ≠ "*" := (name_facts _ ha).2.1
    have h2 : IsName ";" = false := by decide
    unfold splitShape
    simp [Match, Pat.ok, hsemi, h1, h2]
  have g1 : gettok (b :: T :: a :: semi :: rest) 1 = T :: a :: semi :: rest := rfl
  unfold splitBody
  simp only [g1, hs, List.cons_ne_nil, if_false]
  split
  · rfl
  · split <;> rfl

theorem splitLoop_decl (T : TOKEN) (semi : TOKEN) (post : List TOKEN)
    (hT : IsName T.str = true) (hTe : T.str ≠ "else") (hsemi : semi.str = ";")
    (vs : List (TOKEN × TOKEN)) :
    ∀ (k : Nat) (b an : TOKEN), strchr "\x7b\x7d;" (str0 b.str) = true →
      (∀ p ∈ vs, IsName p.1.str = true ∧ p.2.str = ",") → IsName an.str = true →
      splitLoop (k + 3 * (vs.length + 1)) (b :: T :: declTail vs an (semi :: post)) =
        (splitLoop k (semi :: post)).map (fun r => b :: splitOut T vs an ++ r) := by
  induction vs with
  | nil =>
    intro k b an _ _ han
    show splitLoop (k + 2 + 1) (b :: T :: an :: semi :: post) = _
    rw [splitLoop_succ, splitBody_last b T an semi post han hsemi,
      splitLoop_succ, splitBody_skip T _ (name_facts _ hT).1,
      splitLoop_succ, splitBody_skip an _ (name_facts _ han).1]
    simp only [Option.map_map]
    rfl
  | cons p vs ih =>
    intro k b an hb hvs han
    obtain ⟨a, c⟩ := p
    have hp := hvs (a, c) (List.mem_cons_self _ _)
    have hvs2 : ∀ q ∈ vs, IsName q.1.str = true ∧ q.2.str = "," :=
      fun q hq => hvs q (List.mem_cons_of_mem _ hq)
    have e : k + 3 * ((a, c) :: vs).length.succ = (k + 3 * (vs.length + 1)) + 2 + 1 := by
      simp only [List.length_cons]
      omega
    show splitLoop (k + 3 * (((a, c) :: vs).length + 1))
      (b :: T :: a :: c :: declTail vs an (semi :: post)) = _
    rw [e, splitLoop_succ, splitBody_comma b T a c _ hb hT hTe hp.1 hp.2,
      splitLoop_succ, splitBody_skip T _ (name_facts _ hT).1,
      splitLoop_succ, splitBody_skip a _ (name_facts _ hp.1).1,
      ih k { c with str := ";" } an
        (show strchr "\x7b\x7d;" (str0 ";") = true by decide) hvs2 han]
    simp only [Option.map_map]
    rfl

theorem splitOut_texts (T : TOKEN) (an semi : TOKEN) (hsemi : semi.str = ";")
    (vs : List (TOKEN × TOKEN)) :
    texts (splitOut T vs an ++ [semi]) =
      (vs.map Prod.fst ++ [an]).flatMap fun a => [T.str, a.str, ";"] := by
  induction vs with
  | nil => simp [splitOut, texts, hsemi]
  | cons p vs ih =>
    obtain ⟨a, c⟩ := p
    simp only [texts] at ih
    simp [splitOut, texts, ih]

/-- C10, when the loop arrives at the boundary token with the declaration in place: at a token
whose first character is `{`, `}` or `;`, followed by `T a1 , a2 , ... , an ;` with names `T`
(not `else`) and `ai`, the loop "Split up variable declarations" uses three iterations for each
variable and then goes on at the final `;`; up to there the tokens are the boundary token and
`T a1 ; T a2 ; ... ; T an`, each inserted type token a copy of `T`.  So `int a , b ;` becomes
`int a ; int b ;`. -/
theorem declaration_split (T semi : TOKEN) (post : List TOKEN) (vs : List (TOKEN × TOKEN))
    (k : Nat) (b an : TOKEN) (hT : IsName T.str = true) (hTe : T.str ≠ "else")
    (hsemi : semi.str = ";") (hb : strchr "\x7b\x7d;" (str0 b.str) = true)
    (hvs : ∀ p ∈ vs, IsName p.1.str = true ∧ p.2.str = ",") (han : IsName an.str = true) :
    splitLoop (k + 3 * (vs.length + 1)) (b :: T :: declTail vs an (semi :: post)) =
      (splitLoop k (semi :: post)).map (fun r => b :: splitOut T vs an ++ r) ∧
    texts (splitOut T vs an ++ [semi]) =
      ((vs.map Prod.fst ++ [an]).flatMap fun a => [T.str, a.str, ";"]) ∧
    (splitLoop 20 (toks [";", "int", "a", ",", "b", ";"])).map texts =
      some [";", "int", "a", ";", "int", "b", ";"] :=
  ⟨splitLoop_decl T semi post hT hTe hsemi vs k b an hb hvs han,
   splitOut_texts T an semi hsemi vs, by decide⟩

theorem declaration_split_witness :
    splitLoop (1 + 3 * ([((⟨"p", 1, 0⟩ : TOKEN), (⟨",", 1, 0⟩ : TOKEN)),
          (⟨"q", 1, 0⟩, ⟨",", 2, 0⟩)].length + 1))
        (⟨"\x7b", 1, 0⟩ :: ⟨"char", 1, 0⟩ ::
          declTail [(⟨"p", 1, 0⟩, ⟨",", 1, 0⟩), (⟨"q", 1, 0⟩, ⟨",", 2, 0⟩)] ⟨"r", 2, 0⟩
            (⟨";", 2, 0⟩ :: [])) =
      (splitLoop 1 (⟨";", 2, 0⟩ :: [])).map (fun r => ⟨"\x7b", 1, 0⟩ ::
        splitOut ⟨"char", 1, 0⟩ [(⟨"p", 1, 0⟩, ⟨",", 1, 0⟩), (⟨"q", 1, 0⟩, ⟨",", 2, 0⟩)]
          ⟨"r", 2, 0⟩ ++ r) :=
  (declaration_split ⟨"char", 1, 0⟩ ⟨";", 2, 0⟩ []
    [(⟨"p", 1, 0⟩, ⟨",", 1, 0⟩), (⟨"q", 1, 0⟩, ⟨",", 2, 0⟩)] 1 ⟨"\x7b", 1, 0⟩ ⟨"r", 2, 0⟩
    (by decide) (by decide) (by decide) (by decide) (by decide) (by decide)).1

/-- C10, as stated, fails when the scan of an earlier initializer reaches the declaration: in
`; long v = { 1 } int a , b ;` the declaration `int a , b ;` follows a `}`, and the type token
inserted for `b` is `long`. -/
theorem split_by_earlier_initializer :
    (splitLoop 30 (toks [";", "long", "v", "=", "\x7b", "1", "\x7d", "int", "a", ",", "b",
        ";"])).map texts =
      some [";", "long", "v", ";", "v", "=", "\x7b", "1", "\x7d", "int", "a", ";", "long",
        "b", ";"] := by
  decide

/-! ## Simple calculations inside a list -/

theorem calcDeleteOne_cases (l : List TOKEN) :
    calcDeleteOne l = (l, false) ∨
      ∃ t a b r, l = t :: a :: b :: r ∧ ¬ Inert a.str ∧ ¬ Inert b.str ∧
        calcDeleteOne l = (t :: r, true) := by
  by_cases h : (Match (gettok l 1) [.lit "*", .lit "1"] ||
      Match (gettok l 1) [.lit "1", .lit "*"]) = true
  · right
    rcases l with _ | ⟨t, _ | ⟨a, _ | ⟨b, r⟩⟩⟩
    · simp [gettok, Match] at h
    · simp [gettok, Match] at h
    · simp [gettok, Match] at h
    · refine ⟨t, a, b, r, rfl, ?_, ?_, ?_⟩
      · simp only [gettok, List.drop_succ_cons, List.drop_zero, Match_cons, Match_nil, Pat.ok,
          Bool.and_true, Bool.or_eq_true, Bool.and_eq_true, beq_iff_eq] at h
        rintro ⟨i1, i2, _, _⟩
        rcases h with h | h
        · exact i1 h.1
        · exact i2 h.1
      · simp only [gettok, List.drop_succ_cons, List.drop_zero, Match_cons, Match_nil, Pat.ok,
          Bool.and_true, Bool.or_eq_true, Bool.and_eq_true, beq_iff_eq] at h
        rintro ⟨i1, i2, _, _⟩
        rcases h with h | h
        · exact i2 h.2
        · exact i1 h.2
      · unfold calcDeleteOne
        rw [if_pos h]
        rfl
  · left
    unfold calcDeleteOne
    rw [if_neg h]

theorem IsNumber_getstr (l : List TOKEN) (i : Nat) (h : IsNumber (getstr l i) = true) :
    ∃ t r, l.drop i = t :: r ∧ IsNumber t.str = true := by
  unfold getstr gettok at h
  cases hd : l.drop i with
  | nil =>
    rw [hd] at h
    exact absurd h (by decide : ¬ IsNumber "" = true)
  | cons t r =>
    rw [hd] at h
    exact ⟨t, r, rfl, h⟩

theorem calcCond_cases (l : List TOKEN) (h : calcCond l = true) :
    ∃ t x y z r, l = t :: x :: y :: z :: r ∧ ¬ Inert x.str ∧ ¬ Inert y.str ∧
      ¬ Inert z.str := by
  simp only [calcCond, Bool.and_eq_true] at h
  obtain ⟨⟨⟨⟨_, h1⟩, h2⟩, h3⟩, _⟩ := h
  obtain ⟨z, r, hz, hzn⟩ := IsNumber_getstr l 3 h3
  rcases l with _ | ⟨t, _ | ⟨x, _ | ⟨y, _ | ⟨z2, r2⟩⟩⟩⟩
  · simp at hz
  · simp at hz
  · simp at hz
  · simp at hz
  · simp only [List.drop_succ_cons, List.drop_zero, List.cons.injEq] at hz
    obtain ⟨rfl, rfl⟩ := hz
    refine ⟨t, x, y, z2, r2, rfl, ?_, ?_, ?_⟩
    · rintro ⟨_, _, i3, _⟩
      have : IsNumber x.str = true := h1
      rw [i3] at this
      cases this
    · rintro ⟨_, _, _, i4⟩
      have : strchr "+-*/" (str0 y.str) = true := h2
      rw [i4] at this
      cases this
    · rintro ⟨_, _, i3, _⟩
      rw [i3] at hzn
      cases hzn

theorem NoMinusOne_mono (P : Platform) (l l2 : List TOKEN) (h : ∀ t ∈ l2, t ∈ l)
    (hl : NoMinusOne P l) : NoMinusOne P l2 :=
  fun t ht => hl t (h t ht)

theorem NoMinusOne_append (P : Platform) (l l2 : List TOKEN) :
    NoMinusOne P (l ++ l2) ↔ NoMinusOne P l ∧ NoMinusOne P l2 := by
  unfold NoMinusOne
  simp only [List.mem_append]
  constructor
  · intro h
    exact ⟨fun t ht => h t (Or.inl ht), fun t ht => h t (Or.inr ht)⟩
  · rintro ⟨h1, h2⟩ t (ht | ht)
    · exact h1 t ht
    · exact h2 t ht

theorem NoMinusOne_cons (P : Platform) (t : TOKEN) (l : List TOKEN) :
    NoMinusOne P (t :: l) ↔ NoMinusOne P [t] ∧ NoMinusOne P l :=
  NoMinusOne_append P [t] l

theorem NoMinusOne_nil (P : Platform) : NoMinusOne P [] := fun _ h => absurd h (by simp)

/-- The text printed for a negative `int` is no number token, and the text printed for an
`int` that is not negative is read back by `atoi` as an `int` that is not negative. -/
theorem printed_facts (P : Platform) (v : Int) (h2 : v < 2 ^ 31) :
    (v < 0 → IsNumber (toString v) = false) ∧ (0 ≤ v → 0 ≤ atoi P (toString v)) := by
  cases v with
  | ofNat n =>
    constructor
    · intro h
      exact absurd h (by simp)
    · intro _
      obtain ⟨hd, hv⟩ := toString_nat_facts n
      have e : toString (Int.ofNat n) = ⟨(toString (Int.ofNat n)).data⟩ := rfl
      rw [e, atoi_digits P _ hd, hv]
      have hn : (n : Int) < 2 ^ 31 := h2
      have h1 : (0 : Int) ≤ ((P.ULONG_MAX / 2 : Nat) : Int) := Int.natCast_nonneg _
      have h0 : (0 : Int) ≤ (n : Int) := Int.natCast_nonneg _
      rw [wrap32_of_range _ (by omega) (by omega)]
      omega
  | negSucc n =>
    constructor
    · intro _
      rfl
    · intro h
      exact absurd h (by simp [Int.negSucc_lt_zero])

theorem printed_NoMinusOne (P : Platform) (t : TOKEN) (v : Int) (h2 : v < 2 ^ 31) :
    NoMinusOne P [{ t with str := toString v }] := by
  intro u hu hnum
  simp only [List.mem_singleton] at hu
  subst hu
  obtain ⟨f1, f2⟩ := printed_facts P v h2
  by_cases hv : v < 0
  · rw [f1 hv] at hnum
    cases hnum
  · have := f2 (by omega)
    show atoi P (toString v) ≠ -1
    omega

theorem calcOp_range (op : Char) (i1 i2 v : Int) (h : calcOp op i1 i2 = some v)
    (h1 : i1 < 2 ^ 31) : v < 2 ^ 31 := by
  unfold calcOp at h
  split at h
  · cases h; exact (wrap32_range _).2
  · split at h
    · cases h; exact (wrap32_range _).2
    · split at h
      · cases h; exact (wrap32_range _).2
      · split at h
        · split at h
          · cases h
          · cases h; exact (wrap32_range _).2
        · cases h; exact h1
/-- The body of the simple calculations, when it returns, goes on at a later node of the list
it got, is done with the head it got, deletes at least two nodes when it asks for another
sweep, all nodes it passes over without visiting them are not inert, and the node it makes
is not read as -1. -/
theorem calcBody_jump (P : Platform) (t : TOKEN) (rest : List TOKEN)
    (b : (List TOKEN × List TOKEN) × Bool) (hb : calcBody P (t :: rest) = some b) :
    ∃ j d, b.1 = (t :: d, (t :: rest).drop j) ∧ 1 ≤ j ∧
      j ≤ rest.length + 1 ∧
      (b.2 = true → d.length + 3 ≤ j) ∧ d.length + 1 ≤ j ∧
      (∀ i x, 1 ≤ i → i < j → (t :: rest)[i]? = some x → ¬ Inert x.str) ∧
      NoMinusOne P d := by
  rcases calcDeleteOne_cases (t :: rest) with hd | ⟨t2, a, b2, r, hl, ha, hb2, hd⟩
  · by_cases hc : calcCond (t :: rest) = true
    · obtain ⟨t3, x, y, z, r, hl, hx, hy, hz⟩ := calcCond_cases _ hc
      simp only [List.cons.injEq] at hl
      obtain ⟨rfl, rfl⟩ := hl
      by_cases hzero : atoi P (getstr (t :: x :: y :: z :: r) 3) = 0 ∧
          str0 (getstr (t :: x :: y :: z :: r) 2) = '/'
      · unfold calcBody at hb
        simp only [hd, hc, if_true, if_pos hzero, Option.some.injEq] at hb
        subst hb
        refine ⟨1, [], rfl, le_refl _, by simp, by simp, by simp, ?_, NoMinusOne_nil P⟩
        intro i x h1 h2
        omega
      · unfold calcBody at hb
        simp only [hd, hc, if_true, if_neg hzero] at hb
        split at hb
        · cases hb
        · rename_i v hv
          simp only [Option.some.injEq] at hb
          subst hb
          have hr := calcOp_range _ _ _ _ hv (atoi_range P _).2
          refine ⟨4, [{ x with str := toString v }], rfl, by omega, by simp, by simp, by simp,
            ?_, printed_NoMinusOne P x v hr⟩
          intro i w h1 h2 hw
          have : i = 1 ∨ i = 2 ∨ i = 3 := by omega
          rcases this with rfl | rfl | rfl <;>
            simp only [List.getElem?_cons_succ, List.getElem?_cons_zero,
              Option.some.injEq] at hw <;> subst hw <;> assumption
    · unfold calcBody at hb
      simp only [hd, hc, Bool.false_eq_true, if_false, Option.some.injEq] at hb
      subst hb
      refine ⟨1, [], rfl, le_refl _, by simp, by simp, by simp, ?_, NoMinusOne_nil P⟩
      intro i x h1 h2
      omega
  · simp only [List.cons.injEq] at hl
    obtain ⟨rfl, rfl⟩ := hl
    by_cases hc : calcCond (t :: r) = true
    · obtain ⟨t3, x, y, z, r2, hl, hx, hy, hz⟩ := calcCond_cases _ hc
      simp only [List.cons.injEq] at hl
      obtain ⟨rfl, rfl⟩ := hl
      by_cases hzero : atoi P (getstr (t :: x :: y :: z :: r2) 3) = 0 ∧
          str0 (getstr (t :: x :: y :: z :: r2) 2) = '/'
      · unfold calcBody at hb
        simp only [hd, hc, if_true, if_pos hzero, Option.some.injEq] at hb
        subst hb
        refine ⟨3, [], rfl, by omega, by simp, by simp, by simp, ?_, NoMinusOne_nil P⟩
        intro i w h1 h2 hw
        have : i = 1 ∨ i = 2 := by omega
        rcases this with rfl | rfl <;>
          simp only [List.getElem?_cons_succ, List.getElem?_cons_zero,
            Option.some.injEq] at hw <;> subst hw <;> assumption
      · unfold calcBody at hb
        simp only [hd, hc, if_true, if_neg hzero] at hb
        split at hb
        · cases hb
        · rename_i v hv
          simp only [Option.some.injEq] at hb
          subst hb
          have hr := calcOp_range _ _ _ _ hv (atoi_range P _).2
          refine ⟨6, [{ x with str := toString v }], rfl, by omega, by simp, by simp, by simp,
            ?_, printed_NoMinusOne P x v hr⟩
          intro i w h1 h2 hw
          have : i = 1 ∨ i = 2 ∨ i = 3 ∨ i = 4 ∨ i = 5 := by omega
          rcases this with rfl | rfl | rfl | rfl | rfl <;>
            simp only [List.getElem?_cons_succ, List.getElem?_cons_zero,
              Option.some.injEq] at hw <;> subst hw <;> assumption
    · unfold calcBody at hb
      simp only [hd, hc, Bool.false_eq_true, if_false, Option.some.injEq] at hb
      subst hb
      refine ⟨3, [], rfl, by omega, by simp, by simp, by simp, ?_, NoMinusOne_nil P⟩
      intro i w h1 h2 hw
      have : i = 1 ∨ i = 2 := by omega
      rcases this with rfl | rfl <;>
        simp only [List.getElem?_cons_succ, List.getElem?_cons_zero,
          Option.some.injEq] at hw <;> subst hw <;> assumption

theorem calcOp_some (op : Char) (i1 i2 : Int) (h0 : ¬ (i2 = 0 ∧ op = '/')) (h1 : i2 ≠ -1) :
    ∃ v, calcOp op i1 i2 = some v := by
  unfold calcOp
  split
  · exact ⟨_, rfl⟩
  · split
    · exact ⟨_, rfl⟩
    · split
      · exact ⟨_, rfl⟩
      · split
        · rename_i hdiv
          have hop : op = '/' := by simpa using hdiv
          rw [if_neg]
          · exact ⟨_, rfl⟩
          · rintro (h | h)
            · exact h0 ⟨h, hop⟩
            · exact h1 h.2
        · exact ⟨_, rfl⟩

/-- The body of the simple calculations returns on a list with no number token that is read
as -1. -/
theorem calcBody_some (P : Platform) (l : List TOKEN) (h : NoMinusOne P l) :
    ∃ b, calcBody P l = some b := by
  have hsub : ∀ u ∈ (calcDeleteOne l).1, u ∈ l := by
    rcases calcDeleteOne_cases l with hd | ⟨t2, a, b2, r, hl, _, _, hd⟩
    · rw [hd]
      exact fun u hu => hu
    · rw [hd, hl]
      intro u hu
      rcases List.mem_cons.mp hu with rfl | hu
      · exact List.mem_cons_self _ _
      · exact List.mem_cons_of_mem _ (List.mem_cons_of_mem _ (List.mem_cons_of_mem _ hu))
  unfold calcBody
  simp only
  split
  · rename_i hc
    split
    · exact ⟨_, rfl⟩
    · rename_i hzero
      have hc2 := hc
      simp only [calcCond, Bool.and_eq_true] at hc2
      obtain ⟨z, r, hz, hzn⟩ := IsNumber_getstr _ 3 hc2.1.2
      have hzmem : z ∈ (calcDeleteOne l).1 := by
        have : z ∈ (calcDeleteOne l).1.drop 3 := by rw [hz]; exact List.mem_cons_self _ _
        exact List.mem_of_mem_drop this
      have hg : getstr (calcDeleteOne l).1 3 = z.str := by
        unfold getstr gettok
        rw [hz]
      have hne : atoi P (getstr (calcDeleteOne l).1 3) ≠ -1 := by
        rw [hg]
        exact h z (hsub z hzmem) hzn
      obtain ⟨v, hv⟩ := calcOp_some (str0 (getstr (calcDeleteOne l).1 2))
        (atoi P (getstr (calcDeleteOne l).1 1)) (atoi P (getstr (calcDeleteOne l).1 3))
        hzero hne
      rw [hv]
      exact ⟨_, rfl⟩
  · exact ⟨_, rfl⟩

theorem calcSweep_nil (P : Platform) (n : Nat) : calcSweep P n [] = some ([], false) := by
  cases n <;> rfl

theorem calcBody_rest_length (P : Platform) (t : TOKEN) (rest : List TOKEN)
    (b : (List TOKEN × List TOKEN) × Bool) (hb : calcBody P (t :: rest) = some b) :
    b.1.2.length ≤ rest.length := by
  obtain ⟨j, d, he, hj, _, _, _, _, _⟩ := calcBody_jump P t rest b hb
  rw [he]
  simp only [List.length_drop, List.length_cons]
  omega

theorem calcSweep_fuel_aux (P : Platform) (n : Nat) : ∀ (m : Nat) (l : List TOKEN),
    l.length ≤ n → l.length ≤ m → calcSweep P n l = calcSweep P m l := by
  induction n with
  | zero =>
    intro m l h _
    have : l = [] := List.length_eq_zero.mp (Nat.le_zero.mp h)
    subst this
    rw [calcSweep_nil, calcSweep_nil]
  | succ n ih =>
    intro m l h hm
    cases l with
    | nil => rw [calcSweep_nil, calcSweep_nil]
    | cons t rest =>
      cases m with
      | zero => simp at hm
      | succ m =>
        simp only [List.length_cons, Nat.add_le_add_iff_right] at h hm
        rw [calcSweep_succ, calcSweep_succ]
        cases hb : calcBody P (t :: rest) with
        | none => rfl
        | some b =>
          have hr := calcBody_rest_length P t rest b hb
          simp only [Option.some_bind]
          rw [ih m _ (le_trans hr h) (le_trans hr hm)]

theorem calcSweep_fuel (P : Platform) (n : Nat) (l : List TOKEN) (h : l.length ≤ n) :
    calcSweep P n l = calcSweepAll P l :=
  calcSweep_fuel_aux P n l.length l h (le_refl _)

theorem calcSweepAll_cons (P : Platform) (t : TOKEN) (rest : List TOKEN) :
    calcSweepAll P (t :: rest) =
      (calcBody P (t :: rest)).bind fun b =>
        (calcSweepAll P b.1.2).map fun r => (b.1.1 ++ r.1, b.2 || r.2) := by
  show calcSweep P (rest.length + 1) (t :: rest) = _
  rw [calcSweep_succ]
  cases hb : calcBody P (t :: rest) with
  | none => rfl
  | some b =>
    simp only [Option.some_bind]
    rw [calcSweep_fuel _ _ _ (calcBody_rest_length P t rest b hb)]

theorem calcSweepAll_nil (P : Platform) : calcSweepAll P [] = some ([], false) := rfl

/-- What a sweep that returns is made of: the body at the first node and the sweep from the
node where the body goes on. -/
theorem calcSweepAll_split (P : Platform) (t : TOKEN) (rest : List TOKEN)
    (r : List TOKEN × Bool) (h : calcSweepAll P (t :: rest) = some r) :
    ∃ b r2, calcBody P (t :: rest) = some b ∧ calcSweepAll P b.1.2 = some r2 ∧
      r = (b.1.1 ++ r2.1, b.2 || r2.2) := by
  rw [calcSweepAll_cons] at h
  cases hb : calcBody P (t :: rest) with
  | none =>
    rw [hb] at h
    cases h
  | some b =>
    rw [hb] at h
    simp only [Option.some_bind] at h
    cases h2 : calcSweepAll P b.1.2 with
    | none =>
      rw [h2] at h
      cases h
    | some r2 =>
      rw [h2] at h
      simp only [Option.map_some', Option.some.injEq] at h
      exact ⟨b, r2, rfl, h2, h.symm⟩
/-- A sweep that returns does not add nodes, and when it asks for another sweep it has
deleted at least two nodes. -/
theorem calcSweepAll_length (P : Platform) (k : Nat) : ∀ (l : List TOKEN)
    (r : List TOKEN × Bool), l.length ≤ k → calcSweepAll P l = some r →
    r.1.length ≤ l.length ∧ (r.2 = true → r.1.length + 2 ≤ l.length) := by
  induction k with
  | zero =>
    intro l r h hr
    have : l = [] := List.length_eq_zero.mp (Nat.le_zero.mp h)
    subst this
    rw [calcSweepAll_nil] at hr
    cases hr
    simp
  | succ k ih =>
    intro l r h hr
    cases l with
    | nil =>
      rw [calcSweepAll_nil] at hr
      cases hr
      simp
    | cons t rest =>
      simp only [List.length_cons, Nat.add_le_add_iff_right] at h
      obtain ⟨b, r2, hb, hr2, rfl⟩ := calcSweepAll_split P t rest r hr
      obtain ⟨j, d, he, hj, hjl, hfl, hdl, _, _⟩ := calcBody_jump P t rest b hb
      have hrl : b.1.2.length ≤ k := by
        rw [he]
        simp only [List.length_drop, List.length_cons]
        omega
      obtain ⟨i1, i2⟩ := ih _ r2 hrl hr2
      rw [he] at i1 i2 ⊢
      simp only [List.length_append, List.length_cons, Bool.or_eq_true]
      simp only [List.length_drop, List.length_cons] at i1 i2
      constructor
      · omega
      · rintro (h1 | h1)
        · have := hfl h1
          omega
        · have := i2 h1
          omega

theorem calcSweepAll_head (P : Platform) (t : TOKEN) (rest : List TOKEN)
    (r : List TOKEN × Bool) (h : calcSweepAll P (t :: rest) = some r) :
    ∃ Y, r.1 = t :: Y := by
  obtain ⟨b, r2, hb, _, rfl⟩ := calcSweepAll_split P t rest r h
  obtain ⟨j, d, he, _⟩ := calcBody_jump P t rest b hb
  rw [he]
  exact ⟨_, rfl⟩

/-- A sweep on a list with no number token that is read as -1 returns, and its result has no
such token either. -/
theorem calcSweepAll_some (P : Platform) (k : Nat) : ∀ l : List TOKEN, l.length ≤ k →
    NoMinusOne P l → ∃ r, calcSweepAll P l = some r ∧ NoMinusOne P r.1 := by
  induction k with
  | zero =>
    intro l h _
    have : l = [] := List.length_eq_zero.mp (Nat.le_zero.mp h)
    subst this
    exact ⟨_, calcSweepAll_nil P, NoMinusOne_nil P⟩
  | succ k ih =>
    intro l h hl
    cases l with
    | nil => exact ⟨_, calcSweepAll_nil P, NoMinusOne_nil P⟩
    | cons t rest =>
      simp only [List.length_cons, Nat.add_le_add_iff_right] at h
      obtain ⟨b, hb⟩ := calcBody_some P (t :: rest) hl
      obtain ⟨j, d, he, hj, hjl, _, _, _, hd⟩ := calcBody_jump P t rest b hb
      have hrl : b.1.2.length ≤ k := by
        rw [he]
        simp only [List.length_drop, List.length_cons]
        omega
      have hrest : NoMinusOne P b.1.2 := by
        rw [he]
        exact NoMinusOne_mono P _ _ (fun u hu => List.mem_of_mem_drop hu) hl
      obtain ⟨r2, hr2, hn2⟩ := ih _ hrl hrest
      refine ⟨(b.1.1 ++ r2.1, b.2 || r2.2), ?_, ?_⟩
      · rw [calcSweepAll_cons, hb]
        simp only [Option.some_bind, hr2, Option.map_some']
      · rw [he]
        show NoMinusOne P (t :: d ++ r2.1)
        rw [List.cons_append, NoMinusOne_cons, NoMinusOne_append]
        exact ⟨((NoMinusOne_cons P t rest).mp hl).1, hd, hn2⟩

/-- A sweep that returns treats the nodes before an inert node without looking behind that
node. -/
theorem calcSweepAll_append (P : Platform) (sep : TOKEN) (W : List TOKEN)
    (hsep : Inert sep.str) (k : Nat) :
    ∀ (pre : List TOKEN) (r : List TOKEN × Bool), pre.length ≤ k →
      calcSweepAll P (pre ++ sep :: W) = some r →
      ∃ X fl w, calcSweepAll P (sep :: W) = some w ∧ r = (X ++ w.1, fl || w.2) := by
  induction k with
  | zero =>
    intro pre r h hr
    have : pre = [] := List.length_eq_zero.mp (Nat.le_zero.mp h)
    subst this
    exact ⟨[], false, r, hr, by simp⟩
  | succ k ih =>
    intro pre r h hr
    cases pre with
    | nil => exact ⟨[], false, r, hr, by simp⟩
    | cons t pre =>
      simp only [List.length_cons, Nat.add_le_add_iff_right] at h
      obtain ⟨b, r2, hb, hr2, rfl⟩ := calcSweepAll_split P t (pre ++ sep :: W) r hr
      obtain ⟨j, d, he, hj, _, _, _, hin, _⟩ := calcBody_jump P t (pre ++ sep :: W) b hb
      have hjp : j ≤ pre.length + 1 := by
        by_contra hc
        have hlt : pre.length + 1 < j := by omega
        have hget : (t :: (pre ++ sep :: W))[pre.length + 1]? = some sep := by
          rw [List.getElem?_cons_succ, List.getElem?_append_right (le_refl _)]
          simp
        exact hin (pre.length + 1) sep (by omega) hlt hget hsep
      have hdrop : (t :: (pre ++ sep :: W)).drop j = pre.drop (j - 1) ++ sep :: W := by
        obtain ⟨j2, rfl⟩ : ∃ j2, j = j2 + 1 := ⟨j - 1, by omega⟩
        simp only [List.drop_succ_cons, Nat.add_sub_cancel]
        exact List.drop_append_of_le_length (by omega)
      rw [he] at hr2
      simp only at hr2
      rw [hdrop] at hr2
      obtain ⟨X, fl2, w, hw, hX⟩ := ih (pre.drop (j - 1)) r2
        (by simp only [List.length_drop]; omega) hr2
      refine ⟨t :: d ++ X, b.2 || fl2, w, hw, ?_⟩
      rw [he, hX]
      simp [Bool.or_assoc]
theorem sep_inert (s : String) (h : str0 s ∈ "[,(=<>".data) : Inert s := by
  refine ⟨?_, ?_, ?_, ?_⟩
  · rintro rfl
    revert h
    decide
  · rintro rfl
    revert h
    decide
  · unfold IsNumber
    generalize str0 s = c at h
    simp only [List.mem_cons, List.mem_singleton, List.not_mem_nil, or_false] at h
    rcases h with h | h | h | h | h | h <;> subst h <;> decide
  · generalize str0 s = c at h
    simp only [List.mem_cons, List.mem_singleton, List.not_mem_nil, or_false] at h
    rcases h with h | h | h | h | h | h <;> subst h <;> decide

theorem calcWhile_some (P : Platform) (n : Nat) (l : List TOKEN) (r : List TOKEN × Bool)
    (h : calcSweepAll P l = some r) :
    calcWhile P (n + 1) l = if r.2 then calcWhile P n r.1 else .done r.1 := by
  unfold calcSweepAll at h
  rw [calcWhile, h]

theorem calcWhile_none (P : Platform) (n : Nat) (l : List TOKEN)
    (h : calcSweepAll P l = none) : calcWhile P (n + 1) l = .trap := by
  unfold calcSweepAll at h
  rw [calcWhile, h]

/-- A stable run of tokens is in the result of the loop `while (!done)`, which ends within
half as many sweeps as there are tokens, plus one, when no division traps. -/
theorem calcWhile_stable (P : Platform) (S : List TOKEN) (hS : Stable P S) (n : Nat) :
    ∀ A B : List TOKEN, calcWhile P n (A ++ S ++ B) ≠ .trap → (A ++ S ++ B).length < 2 * n →
      ∃ A2 B2, calcWhile P n (A ++ S ++ B) = .done (A2 ++ S ++ B2) := by
  induction n with
  | zero =>
    intro A B _ h
    omega
  | succ n ih =>
    intro A B hno h
    cases hr : calcSweepAll P (A ++ S ++ B) with
    | none => exact absurd (calcWhile_none P n _ hr) hno
    | some r =>
      obtain ⟨A2, B2, he⟩ := hS A B r hr
      have hlen := calcSweepAll_length P _ (A ++ S ++ B) r (le_refl _) hr
      rw [calcWhile_some P n _ r hr] at hno ⊢
      cases hfl : r.2 with
      | false =>
        refine ⟨A2, B2, ?_⟩
        simp [he]
      | true =>
        have h2 : r.1.length + 2 ≤ (A ++ S ++ B).length := hlen.2 hfl
        simp only [hfl, if_true] at hno ⊢
        rw [he] at h2 hno ⊢
        exact ih A2 B2 hno (by omega)

theorem stable_three (P : Platform) (sep r term : TOKEN)
    (hsep : str0 sep.str ∈ "[,(=<>".data)
    (hr1 : r.str ≠ "*") (hr2 : strchr "[,(=<>" (str0 r.str) = false)
    (hterm : str0 term.str ∈ "],);=<>".data) : Stable P [sep, r, term] := by
  intro A B res hres
  obtain ⟨ht1, ht2, ht3, _⟩ := term_facts _ hterm
  have e2 : A ++ [sep, r, term] ++ B = A ++ sep :: r :: term :: B := by simp
  rw [e2] at hres
  obtain ⟨X, fl, w, hw, rfl⟩ := calcSweepAll_append P sep (r :: term :: B) (sep_inert _ hsep)
    A.length A res (le_refl _) hres
  have hb1 : calcBody P (sep :: r :: term :: B) = some (([sep], r :: term :: B), false) := by
    have hc : calcCond (sep :: r :: term :: B) = false := by
      simp [calcCond, getstr, gettok, ht3]
    unfold calcBody
    simp only [calcDeleteOne_none sep r term B hr1 (fun h => ht1 h.2), hc]
    rfl
  obtain ⟨b, w2, hb, hw2, rfl⟩ := calcSweepAll_split P sep _ w hw
  rw [hb1] at hb
  cases hb
  obtain ⟨b3, w3, hb3, hw3, rfl⟩ := calcSweepAll_split P r _ w2 hw2
  rw [calcBody_skip P r term B ht1 ht2 hr2] at hb3
  cases hb3
  obtain ⟨Y, hY⟩ := calcSweepAll_head P term B w3 hw3
  refine ⟨X, Y, ?_⟩
  simp [hY]

theorem stable_five (P : Platform) (sep n1 op n2 term : TOKEN)
    (hsep : str0 sep.str ∈ "[,(=<>".data)
    (hn1 : IsNumber n1.str = true) (hop : op.str = "/") (hn2 : IsNumber n2.str = true)
    (hz : atoi P n2.str = 0) (hterm : str0 term.str ∈ "],);=<>".data) :
    Stable P [sep, n1, op, n2, term] := by
  intro A B res hres
  have e2 : A ++ [sep, n1, op, n2, term] ++ B = A ++ sep :: n1 :: op :: n2 :: term :: B := by
    simp
  rw [e2] at hres
  obtain ⟨X, fl, w, hw, rfl⟩ := calcSweepAll_append P sep (n1 :: op :: n2 :: term :: B)
    (sep_inert _ hsep) A.length A res (le_refl _) hres
  have hwin := (calcSweep_window P (B.length + 1) sep n1 op n2 term B hsep hn1
    (by rw [hop]; decide) hn2 hterm).2.2.1 hop hz
  have hw' : calcSweep P (B.length + 1 + 4) (sep :: n1 :: op :: n2 :: term :: B) = some w := hw
  rw [hwin] at hw'
  cases hy : calcSweep P (B.length + 1) (term :: B) with
  | none =>
    rw [hy] at hw'
    cases hw'
  | some y =>
    rw [hy] at hw'
    simp only [Option.map_some', Option.some.injEq] at hw'
    obtain ⟨Y, hY⟩ := calcSweepAll_head P term B y hy
    refine ⟨X, Y, ?_⟩
    rw [← hw']
    simp [hY]

/-- The first sweep of the simple calculations on a list with a window that it rewrites into
the tokens `sep r term`: the loop `while (!done)` ends with these three tokens in its
result, when no division traps. -/
theorem calcWhile_first_sweep (P : Platform) (pre W : List TOKEN) (sep r term : TOKEN)
    (hsep : str0 sep.str ∈ "[,(=<>".data) (hr1 : r.str ≠ "*")
    (hr2 : strchr "[,(=<>" (str0 r.str) = false) (hterm : str0 term.str ∈ "],);=<>".data)
    (hW : ∀ w, calcSweepAll P (sep :: W) = some w → ∃ Y0, w = (sep :: r :: term :: Y0, true))
    (n : Nat) (hno : calcWhile P n (pre ++ sep :: W) ≠ .trap)
    (hn : (pre ++ sep :: W).length < 2 * n) :
    ∃ X Y, calcWhile P n (pre ++ sep :: W) = .done (X ++ sep :: r :: term :: Y) := by
  cases n with
  | zero => omega
  | succ n =>
    cases hres : calcSweepAll P (pre ++ sep :: W) with
    | none => exact absurd (calcWhile_none P n _ hres) hno
    | some res =>
      obtain ⟨X, fl, w, hw, rfl⟩ := calcSweepAll_append P sep W (sep_inert _ hsep) pre.length
        pre res (le_refl _) hres
      obtain ⟨Y0, rfl⟩ := hW w hw
      have hlen := (calcSweepAll_length P _ (pre ++ sep :: W) _ (le_refl _) hres).2 (by simp)
      rw [calcWhile_some P n _ _ hres] at hno ⊢
      simp only [Bool.or_true, if_true] at hno ⊢
      have e : X ++ sep :: r :: term :: Y0 = X ++ [sep, r, term] ++ Y0 := by simp
      simp only at hlen
      rw [e] at hno hlen ⊢
      obtain ⟨A2, B2, h3⟩ := calcWhile_stable P [sep, r, term]
        (stable_three P sep r term hsep hr1 hr2 hterm) n X Y0 hno (by omega)
      refine ⟨A2, B2, ?_⟩
      rw [h3]
      simp

/-- No division traps in the loop `while (!done)` when no number token is read as -1. -/
theorem calcWhile_no_trap (P : Platform) : ∀ (n : Nat) (l : List TOKEN), NoMinusOne P l →
    calcWhile P n l ≠ .trap := by
  intro n
  induction n with
  | zero =>
    intro l _ h
    simp [calcWhile] at h
  | succ n ih =>
    intro l hread
    obtain ⟨r, hr, hread2⟩ := calcSweepAll_some P _ l (le_refl _) hread
    rw [calcWhile_some P n _ r hr]
    split
    · exact ih _ hread2
    · simp

/-- C8, with the removal of `1 *`, the reading of the numbers and the division trap taken
into account.  For every token list in which a token whose first character is one of
`[ , ( = < >` is directly followed by `NUM1 OP NUM2` and by a token whose first character is
one of `] ) , ; = < >`, and on which no division of the loop traps (none does when no number
token is read by `atoi` as -1), the loop `while (!done)` of the simple calculations ends
(within half as many sweeps as there are tokens, plus one) and in its result the three
tokens have become
one token, between the same two tokens, with the decimal text of the 32-bit value of
`i1 OP i2`, where `i1` and `i2` are the ints that `atoi` reads from `NUM1` and `NUM2`;
except that for `1 *` the tokens `1` and `*` are deleted and `NUM2` keeps its own text, and
that for a division by a `NUM2` read as 0 the tokens are left as they are.  From a text made
of digits `atoi` reads the decimal value, replaced by `LONG_MAX` when it is larger, and
reduced to an `int`.  So `int a = 1 + 2 ;` becomes `int a = 3 ;`. -/
theorem integer_folding (P : Platform) (pre post : List TOKEN) (sep n1 op n2 term : TOKEN)
    (n : Nat)
    (hsep : str0 sep.str ∈ "[,(=<>".data) (hn1 : IsNumber n1.str = true)
    (hop : op.str ∈ ["+", "-", "*", "/"]) (hn2 : IsNumber n2.str = true)
    (hterm : str0 term.str ∈ "],);=<>".data)
    (hno : calcWhile P n (pre ++ sep :: n1 :: op :: n2 :: term :: post) ≠ .trap)
    (hn : (pre ++ sep :: n1 :: op :: n2 :: term :: post).length < 2 * n) :
    (¬ (n1.str = "1" ∧ op.str = "*") → ¬ (op.str = "/" ∧ atoi P n2.str = 0) →
      ∃ X Y, calcWhile P n (pre ++ sep :: n1 :: op :: n2 :: term :: post) =
        .done (X ++ sep ::
          { n1 with str := toString (foldValue op.str (atoi P n1.str) (atoi P n2.str)) } ::
          term :: Y)) ∧
    (n1.str = "1" → op.str = "*" →
      ∃ X Y, calcWhile P n (pre ++ sep :: n1 :: op :: n2 :: term :: post) =
        .done (X ++ sep :: n2 :: term :: Y)) ∧
    (op.str = "/" → atoi P n2.str = 0 →
      ∃ X Y, calcWhile P n (pre ++ sep :: n1 :: op :: n2 :: term :: post) =
        .done (X ++ sep :: n1 :: op :: n2 :: term :: Y)) ∧
    (∀ ds : List Char, (∀ c ∈ ds, isdigit c = true) →
      atoi P ⟨ds⟩ = wrap32 (min (decValue ds : Int) ((P.ULONG_MAX / 2 : Nat) : Int))) ∧
    doneTexts (calcWhile lp64 4 (toks ["int", "a", "=", "1", "+", "2", ";"])) =
      some ["int", "a", "=", "3", ";"] ∧
    (∀ (m : Nat) (l : List TOKEN), NoMinusOne P l → calcWhile P m l ≠ .trap) := by
  have hwin : ¬ (op.str = "/" ∧ atoi P n1.str = -2 ^ 31 ∧ atoi P n2.str = -1) := by
    rintro ⟨e1, e2, e3⟩
    have hw : calcSweepAll P (sep :: n1 :: op :: n2 :: term :: post) = none :=
      (calcSweep_window P (post.length + 4) sep n1 op n2 term post hsep hn1 hop hn2
        hterm).2.2.2 e1 e2 e3
    obtain ⟨n, rfl⟩ : ∃ k, n = k + 1 := ⟨n - 1, by omega⟩
    cases hres : calcSweepAll P (pre ++ sep :: n1 :: op :: n2 :: term :: post) with
    | none => exact hno (calcWhile_none P n _ hres)
    | some res =>
      obtain ⟨X, fl, w, hw2, _⟩ := calcSweepAll_append P sep _ (sep_inert _ hsep) pre.length
        pre res (le_refl _) hres
      rw [hw] at hw2
      cases hw2
  have htail : ∀ (k : Nat) (y : List TOKEN × Bool), post.length + 1 ≤ k →
      calcSweep P k (term :: post) = some y → ∃ Y0, y.1 = term :: Y0 := by
    intro k y hk hy
    rw [calcSweep_fuel P k (term :: post) (by simpa using hk)] at hy
    exact calcSweepAll_head P term post y hy
  refine ⟨?_, ?_, ?_, atoi_digits P, by decide, calcWhile_no_trap P⟩
  · intro h1 h2
    have hf := Int_toString_facts (foldValue op.str (atoi P n1.str) (atoi P n2.str))
    refine calcWhile_first_sweep P pre _ sep _ term hsep hf.1 hf.2 hterm ?_ n hno hn
    intro w hw
    have e := (calcSweep_window P (post.length + 4) sep n1 op n2 term post hsep hn1 hop hn2
      hterm).1 h1 h2 hwin
    have hw' : calcSweep P (post.length + 4 + 1) (sep :: n1 :: op :: n2 :: term :: post) =
        some w := hw
    rw [e] at hw'
    cases hy : calcSweep P (post.length + 4) (term :: post) with
    | none =>
      rw [hy] at hw'
      cases hw'
    | some y =>
      rw [hy] at hw'
      simp only [Option.map_some', Option.some.injEq] at hw'
      obtain ⟨Y0, hY⟩ := htail _ y (by omega) hy
      exact ⟨Y0, by rw [← hw', hY]⟩
  · intro h1 h2
    obtain ⟨hs1, hs2⟩ := number_facts _ hn2
    refine calcWhile_first_sweep P pre _ sep n2 term hsep hs1 hs2 hterm ?_ n hno hn
    intro w hw
    have e := (calcSweep_window P (post.length + 3) sep n1 op n2 term post hsep hn1 hop hn2
      hterm).2.1 h1 h2
    have hw' : calcSweep P (post.length + 3 + 2) (sep :: n1 :: op :: n2 :: term :: post) =
        some w := hw
    rw [e] at hw'
    cases hy : calcSweep P (post.length + 3) (term :: post) with
    | none =>
      rw [hy] at hw'
      cases hw'
    | some y =>
      rw [hy] at hw'
      simp only [Option.map_some', Option.some.injEq] at hw'
      obtain ⟨Y0, hY⟩ := htail _ y (by omega) hy
      exact ⟨Y0, by rw [← hw', hY]⟩
  · intro h1 h2
    have e : pre ++ sep :: n1 :: op :: n2 :: term :: post =
        pre ++ [sep, n1, op, n2, term] ++ post := by simp
    rw [e] at hno hn ⊢
    obtain ⟨A2, B2, h3⟩ := calcWhile_stable P [sep, n1, op, n2, term]
      (stable_five P sep n1 op n2 term hsep hn1 h1 hn2 h2 hterm) n pre post hno hn
    refine ⟨A2, B2, ?_⟩
    rw [h3]
    simp

theorem integer_folding_witness :
    (∃ X Y, calcWhile lp64 5 (toks ["x"] ++ ⟨"(", 1, 0⟩ :: ⟨"7", 1, 0⟩ :: ⟨"-", 1, 0⟩ ::
        ⟨"9", 1, 0⟩ :: ⟨")", 1, 0⟩ :: toks [";"]) =
      .done (X ++ ⟨"(", 1, 0⟩ ::
        ⟨toString (foldValue "-" (atoi lp64 "7") (atoi lp64 "9")), 1, 0⟩ ::
        ⟨")", 1, 0⟩ :: Y)) ∧
    (∃ X Y, calcWhile lp64 5 (toks ["x"] ++ ⟨"=", 1, 0⟩ :: ⟨"1", 1, 0⟩ :: ⟨"*", 1, 0⟩ ::
        ⟨"5L", 1, 0⟩ :: ⟨";", 1, 0⟩ :: toks ["y"]) =
      .done (X ++ ⟨"=", 1, 0⟩ :: ⟨"5L", 1, 0⟩ :: ⟨";", 1, 0⟩ :: Y)) ∧
    (∃ X Y, calcWhile lp64 5 (toks ["x"] ++ ⟨"=", 1, 0⟩ :: ⟨"6", 1, 0⟩ :: ⟨"/", 1, 0⟩ ::
        ⟨"0", 1, 0⟩ :: ⟨";", 1, 0⟩ :: toks ["y"]) =
      .done (X ++ ⟨"=", 1, 0⟩ :: ⟨"6", 1, 0⟩ :: ⟨"/", 1, 0⟩ :: ⟨"0", 1, 0⟩ :: ⟨";", 1, 0⟩ ::
        Y)) :=
  ⟨(integer_folding lp64 (toks ["x"]) (toks [";"]) ⟨"(", 1, 0⟩ ⟨"7", 1, 0⟩ ⟨"-", 1, 0⟩
      ⟨"9", 1, 0⟩ ⟨")", 1, 0⟩ 5 (by decide) (by decide) (by decide) (by decide) (by decide)
      (by decide) (by decide)).1 (by decide) (by decide),
   (integer_folding lp64 (toks ["x"]) (toks ["y"]) ⟨"=", 1, 0⟩ ⟨"1", 1, 0⟩ ⟨"*", 1, 0⟩
      ⟨"5L", 1, 0⟩ ⟨";", 1, 0⟩ 5 (by decide) (by decide) (by decide) (by decide) (by decide)
      (by decide) (by decide)).2.1 (by decide) (by decide),
   (integer_folding lp64 (toks ["x"]) (toks ["y"]) ⟨"=", 1, 0⟩ ⟨"6", 1, 0⟩ ⟨"/", 1, 0⟩
      ⟨"0", 1, 0⟩ ⟨";", 1, 0⟩ 5 (by decide) (by decide) (by decide) (by decide) (by decide)
      (by decide) (by decide)).2.2.1 (by decide) (by decide)⟩

/-- C8, as stated, fails for `1 *` and for a numeric literal that is not a decimal numeral:
in `x = 1 * 007 ;` the tokens `1 *` are deleted and the token `007` stays, whose text is not
the decimal text `7` of the value; and `x = 010 + 1 ;` becomes `x = 11 ;`, because `atoi`
reads the leading decimal digits of `010`, where the literal `010` has the value 8. -/
theorem fold_one_times :
    doneTexts (calcWhile lp64 5 (toks ["x", "=", "1", "*", "007", ";"])) =
      some ["x", "=", "007", ";"] ∧
    toString (foldValue "*" (atoi lp64 "1") (atoi lp64 "007")) = "7" ∧
    doneTexts (calcWhile lp64 5 (toks ["x", "=", "010", "+", "1", ";"])) =
      some ["x", "=", "11", ";"] := by
  decide

/-! ## Search in the token list -/

theorem MatchesAt_nil (l : List TOKEN) : MatchesAt l [] := by
  intro i hi
  exact absurd hi (Nat.not_lt_zero i)

theorem MatchesAt_cons (t : TOKEN) (l : List TOKEN) (s : String) (p : List String) :
    MatchesAt (t :: l) (s :: p) ↔ (s = "" ∨ s = t.str) ∧ MatchesAt l p := by
  constructor
  · intro h
    constructor
    · obtain ⟨u, hu, hs⟩ := h 0 (Nat.succ_pos _)
      simp only [List.getElem?_cons_zero, Option.some.injEq] at hu hs
      subst hu
      exact hs
    · intro i hi
      obtain ⟨u, hu, hs⟩ := h (i + 1) (Nat.succ_lt_succ hi)
      simp only [List.getElem?_cons_succ] at hu hs
      exact ⟨u, hu, hs⟩
  · rintro ⟨h0, h⟩ i hi
    cases i with
    | zero =>
      refine ⟨t, by simp, ?_⟩
      simpa using h0
    | succ i =>
      obtain ⟨u, hu, hs⟩ := h i (Nat.lt_of_succ_lt_succ hi)
      exact ⟨u, by simpa using hu, by simpa using hs⟩

theorem MatchesAt_length (l : List TOKEN) (p : List String) (h : MatchesAt l p) :
    p.length ≤ l.length := by
  by_contra hlt
  push_neg at hlt
  obtain ⟨u, hu, _⟩ := h l.length hlt
  have := List.getElem?_eq_none (le_refl l.length)
  rw [this] at hu
  exact Option.noConfusion hu

theorem scan_matched (l : List TOKEN) (p : List String) :
    findtoken.scan l p = .matched ↔ MatchesAt l p := by
  induction p generalizing l with
  | nil =>
    cases l <;> simp [findtoken.scan, MatchesAt_nil]
  | cons s p ih =>
    cases l with
    | nil =>
      simp only [findtoken.scan]
      constructor
      · intro h
        exact ScanEnd.noConfusion h
      · intro h
        have := MatchesAt_length _ _ h
        simp at this
    | cons t l =>
      rw [MatchesAt_cons, ← ih l]
      simp only [findtoken.scan]
      by_cases h : s ≠ "" ∧ s ≠ t.str
      · rw [if_pos h]
        constructor
        · intro h2
          exact ScanEnd.noConfusion h2
        · rintro ⟨h3 | h3, _⟩
          · exact absurd h3 h.1
          · exact absurd h3 h.2
      · rw [if_neg h]
        constructor
        · intro h2
          refine ⟨?_, h2⟩
          by_contra h4
          push_neg at h4
          exact h h4
        · exact fun h2 => h2.2

theorem scan_listEnd (l : List TOKEN) (p : List String) (h : findtoken.scan l p = .listEnd) :
    l.length < p.length := by
  induction p generalizing l with
  | nil => cases l <;> simp [findtoken.scan] at h
  | cons s p ih =>
    cases l with
    | nil => simp
    | cons t l =>
      simp only [findtoken.scan] at h
      split at h
      · exact ScanEnd.noConfusion h
      · simpa using ih l h

theorem findtoken_some (l : List TOKEN) (p : List String) (r : List TOKEN) :
    findtoken l p = some r ↔
      ∃ k, k < l.length ∧ r = l.drop k ∧ MatchesAt (l.drop k) p ∧
        ∀ j, j < k → ¬ MatchesAt (l.drop j) p := by
  induction l with
  | nil => simp [findtoken]
  | cons t l ih =>
    unfold findtoken
    cases hs : findtoken.scan (t :: l) p with
    | matched =>
      simp only [Option.some.injEq]
      constructor
      · rintro rfl
        exact ⟨0, by simp, rfl, (scan_matched _ _).mp hs, fun j hj => absurd hj (Nat.not_lt_zero j)⟩
      · rintro ⟨k, _, hr, _, hfirst⟩
        cases k with
        | zero => exact hr.symm
        | succ k => exact absurd ((scan_matched _ _).mp hs) (hfirst 0 (Nat.succ_pos k))
    | listEnd =>
      simp only
      constructor
      · intro h
        exact Option.noConfusion h
      rintro ⟨k, _, _, hm, _⟩
      have h1 := MatchesAt_length _ _ hm
      have h2 := scan_listEnd _ _ hs
      simp only [List.length_drop, List.length_cons] at h1 h2
      omega
    | mismatch =>
      have hno : ¬ MatchesAt (t :: l) p := by
        rw [← scan_matched, hs]
        exact fun h => ScanEnd.noConfusion h
      simp only
      rw [ih]
      constructor
      · rintro ⟨k, hk, hr, hm, hfirst⟩
        refine ⟨k + 1, by simpa using hk, hr, hm, ?_⟩
        intro j hj
        cases j with
        | zero => exact hno
        | succ j => exact hfirst j (Nat.lt_of_succ_lt_succ hj)
      · rintro ⟨k, hk, hr, hm, hfirst⟩
        cases k with
        | zero => exact absurd hm hno
        | succ k =>
          exact ⟨k, by simpa using hk, hr, hm, fun j hj => hfirst (j + 1) (Nat.succ_lt_succ hj)⟩

theorem findtoken_none (l : List TOKEN) (p : List String) :
    findtoken l p = none ↔ ∀ k, k < l.length → ¬ MatchesAt (l.drop k) p := by
  constructor
  · intro h k hk hm
    have hex : ∃ k, k < l.length ∧ MatchesAt (l.drop k) p := ⟨k, hk, hm⟩
    classical
    obtain ⟨hk0, hm0⟩ := Nat.find_spec hex
    have : findtoken l p = some (l.drop (Nat.find hex)) :=
      (findtoken_some l p _).mpr
        ⟨_, hk0, rfl, hm0, fun j hj hmj =>
          Nat.find_min hex hj ⟨lt_trans hj hk0, hmj⟩⟩
    rw [h] at this
    exact Option.noConfusion this
  · intro h
    cases hf : findtoken l p with
    | none => rfl
    | some r =>
      obtain ⟨k, hk, _, hm, _⟩ := (findtoken_some l p r).mp hf
      exact absurd hm (h k hk)

/-- C19: `findtoken(tok1, p)` returns the token `k` nodes after `tok1` exactly when the tokens
from there on satisfy the pattern (each entry is empty or the text of its token, and all the
tokens it needs exist) and no earlier start does; it returns `NULL` exactly when no start in
the list satisfies the pattern. -/
theorem findtoken_first_match (tok1 : List TOKEN) (p : List String) :
    (∀ r, findtoken tok1 p = some r ↔
      ∃ k, k < tok1.length ∧ r = tok1.drop k ∧ MatchesAt (tok1.drop k) p ∧
        ∀ j, j < k → ¬ MatchesAt (tok1.drop j) p) ∧
    (findtoken tok1 p = none ↔ ∀ k, k < tok1.length → ¬ MatchesAt (tok1.drop k) p) ∧
    (findtoken (toks ["a", "b", "c", "b", "d"]) ["b", ""]).map texts = some ["b", "c", "b", "d"] :=
  ⟨findtoken_some tok1 p, findtoken_none tok1 p, by decide⟩
/-! ## The file registry -/

/-- A reflexive and transitive relation between states that every single change of the state
makes is kept by the whole reading loop, included files and their three loops as well. -/
theorem lexLoop_rel (E : Env) (R : State → State → Prop) (hrefl : ∀ st, R st st)
    (htrans : ∀ a b c, R a b → R b c → R a c)
    (hadd : ∀ (str : String) (lineno fileno : Nat) (st : State),
      R st (addtoken E.P str lineno fileno st))
    (hdef : ∀ (Name Value : String) (st : State),
      R st { st with dsymlist := Define E.P Name Value st.dsymlist })
    (hpush : ∀ (F : String) (st : State), R st { st with Files := st.Files ++ [F] })
    (hfin : ∀ (n : Nat) (st st2 : State), finishTokens n st = .ok st2 → R st st2) :
    ∀ (n FileIndex : Nat) (L : Lex) (st2 : State),
      lexLoop E n FileIndex L = .ok st2 → R L.st st2 := by
  have hadd2 : ∀ (s1 s2 : String) (l1 f1 l2 f2 : Nat) (st : State),
      R st (addtoken E.P s2 l2 f2 (addtoken E.P s1 l1 f1 st)) :=
    fun s1 s2 l1 f1 l2 f2 st => htrans _ _ _ (hadd s1 l1 f1 st) (hadd s2 l2 f2 _)
  have hadd3 : ∀ (s1 s2 s3 : String) (l1 f1 l2 f2 l3 f3 : Nat) (st : State),
      R st (addtoken E.P s3 l3 f3 (addtoken E.P s2 l2 f2 (addtoken E.P s1 l1 f1 st))) :=
    fun s1 s2 s3 l1 f1 l2 f2 l3 f3 st =>
      htrans _ _ _ (hadd2 s1 s2 l1 f1 l2 f2 st) (hadd s3 l3 f3 _)
  have hdefine : ∀ (line : List Char) (lineno FileIndex : Nat) (st st1 : State),
      defineDirective E.P line lineno FileIndex st = some st1 → R st st1 := by
    intro line lineno FileIndex st st1 h
    unfold defineDirective at h
    split at h
    · exact Option.noConfusion h
    · split at h
      · simp only [Option.some.injEq] at h
        subst h
        exact htrans _ _ _ (hadd3 _ _ _ _ _ _ _ _ _ st) (hdef _ _ _)
      · exact Option.noConfusion h
    · simp only [Option.some.injEq] at h
      subst h
      exact hrefl _
  have hcomment : ∀ (ns : Bool) (comment : List Char) (lineno FileIndex : Nat) (st : State),
      R st (commentTokens E.P ns comment lineno FileIndex st) := by
    intro ns comment lineno FileIndex st
    unfold commentTokens
    simp only
    split
    · exact hadd3 _ _ _ _ _ _ _ _ _ st
    · exact hrefl _
  have hchar : ∀ (FileIndex : Nat) (ch : Char) (code cur : List Char) (lineno : Nat)
      (st : State), R st (lexChar E.P FileIndex ch code cur lineno st).st := by
    intro FileIndex ch code cur lineno st
    unfold lexChar
    simp only
    split
    · exact hadd2 _ _ _ _ _ _ st
    · split
      · exact hadd2 _ _ _ _ _ _ st
      · split
        · exact hadd2 _ _ _ _ _ _ st
        · split
          · exact hadd _ _ _ st
          · exact hrefl _
  intro n
  induction n with
  | zero =>
    intro FileIndex L st2 h
    exact Outcome.noConfusion h
  | succ n ih =>
    intro FileIndex L st2 h
    unfold lexLoop at h
    split at h
    · exact Outcome.noConfusion h
    · split at h
      · cases h
        exact hrefl _
      · split at h
        · have := ih _ _ _ h
          exact this
        · split at h
          · simp only at h
            split at h
            · split at h
              · exact Outcome.noConfusion h
              · split at h
                · exact Outcome.noConfusion h
                · split at h
                  · rename_i st5 heq
                    have h5 : R L.st st5 := by
                      split at heq
                      · cases heq
                        exact hadd2 _ _ _ _ _ _ _
                      · split at heq
                        · rename_i st4 heq4
                          have h4 := ih _ _ _ heq4
                          exact htrans _ _ _ (hadd2 _ _ _ _ _ _ _)
                            (htrans _ _ _ (hpush _ _) (htrans _ _ _ h4 (hfin _ _ _ heq)))
                        · rename_i o hno
                          exact absurd heq (hno st5)
                    have := ih _ _ _ h
                    exact htrans _ _ _ h5 this
                  · rename_i o hno
                    exact absurd h (hno st2)
            · split at h
              · split at h
                · exact Outcome.noConfusion h
                · rename_i st1 hd
                  have := ih _ _ _ h
                  exact htrans _ _ _ (hdefine _ _ _ _ _ hd) this
              · have := ih _ _ _ h
                exact htrans _ _ _ (hadd2 "#" ";" L.lineno FileIndex L.lineno FileIndex L.st) this
          · split at h
            · exact Outcome.noConfusion h
            · split at h
              · have := ih _ _ _ h
                exact htrans _ _ _ (hadd _ _ _ _) this
              · split at h
                · simp only at h
                  split at h
                  · have := ih _ _ _ h
                    exact htrans _ _ _ (htrans _ _ _ (hadd _ _ _ _) (hcomment _ _ _ _ _)) this
                  · split at h
                    · have := ih _ _ _ h
                      exact htrans _ _ _ (hadd _ _ _ _) this
                    · have := ih _ _ _ h
                      exact htrans _ _ _ (htrans _ _ _ (hadd2 _ _ _ _ _ _ _) (hchar _ _ _ _ _ _)) this
                · have := ih _ _ _ h
                  exact htrans _ _ _ (hchar _ _ _ _ _ _) this

theorem addtoken_Files (P : Platform) (str : String) (lineno fileno : Nat) (st : State) :
    (addtoken P str lineno fileno st).Files = st.Files := by
  unfold addtoken
  split
  · rfl
  · simp only
    split <;> rfl

theorem finishTokens_Files (n : Nat) (st st2 : State) (h : finishTokens n st = .ok st2) :
    st2.Files = st.Files := by
  unfold finishTokens at h
  split at h
  · exact Outcome.noConfusion h
  · split at h
    · cases h
      rfl
    · exact Outcome.noConfusion h

theorem lexLoop_Files (E : Env) (n FileIndex : Nat) (L : Lex) (st2 : State)
    (h : lexLoop E n FileIndex L = .ok st2) : L.st.Files <+: st2.Files := by
  refine lexLoop_rel E (fun a b => a.Files <+: b.Files) (fun _ => List.prefix_refl _)
    (fun a b c => List.IsPrefix.trans) ?_ (fun _ _ _ => List.prefix_refl _)
    (fun F st => List.prefix_append _ _) ?_ n FileIndex L st2 h
  · intro str lineno fileno st
    show st.Files <+: (addtoken E.P str lineno fileno st).Files
    rw [addtoken_Files]
  · intro n st st3 hf
    show st.Files <+: st3.Files
    rw [finishTokens_Files n st st3 hf]

theorem TokenizeCode_Files (E : Env) (n : Nat) (code : List Char) (FileIndex : Nat)
    (st st2 : State) (h : TokenizeCode E n code FileIndex st = .ok st2) :
    st.Files <+: st2.Files := by
  unfold TokenizeCode at h
  split at h
  · rename_i st1 h1
    have := lexLoop_Files E _ _ _ _ h1
    rw [finishTokens_Files _ _ _ h]
    exact this
  · rename_i o hno
    exact absurd h (hno st2)

theorem Tokenize_skip (E : Env) (n : Nat) (code : List Char) (F : String) (st : State)
    (h : st.Files.any (fun f => E.SameFileName f F) = true) :
    Tokenize E n code F st = .ok st := by
  unfold Tokenize
  rw [if_pos h]

theorem Tokenize_registers (E : Env) (n : Nat) (code : List Char) (G : String)
    (st st1 : State) (h : Tokenize E n code G st = .ok st1)
    (hnew : st.Files.any (fun f => E.SameFileName f G) = false) : G ∈ st1.Files := by
  unfold Tokenize at h
  rw [if_neg (by simp [hnew])] at h
  have := TokenizeCode_Files E _ _ _ _ _ h
  exact this.subset (by simp)

theorem Tokenize_grows (E : Env) (n : Nat) (code : List Char) (G : String) (st0 st1 : State)
    (h : Tokenize E n code G st0 = .ok st1) : st0.Files <+: st1.Files := by
  unfold Tokenize at h
  split at h
  · cases h
    exact List.prefix_refl _
  · have := TokenizeCode_Files E _ _ _ _ _ h
    exact List.IsPrefix.trans (List.prefix_append _ _) this

/-- C15, for a transitive `SameFileName`: after a call `Tokenize` for the name `G` has
returned, a call `Tokenize(code, F)` for a name `F` that `SameFileName` takes for the same
file as `G` returns at once, for every stream and without a single iteration of the reading
loop (the bound 0 is enough), and the state, that is the token list, the registry and the
list of defined symbols, is the one before the call.  This holds in the state the earlier
call returned with and in every later state whose registry still starts with the names of
that state; every call of `Tokenize` that returns keeps the registered names, and so does
`DeallocateTokens`. -/
theorem Tokenize_dedup (E : Env) (F G : String) (n : Nat) (code : List Char) (st0 st1 : State)
    (htrans : ∀ a b c, E.SameFileName a b = true → E.SameFileName b c = true →
      E.SameFileName a c = true)
    (hsame : E.SameFileName G F = true) (hcall : Tokenize E n code G st0 = .ok st1) :
    (∀ (m : Nat) (code2 : List Char), Tokenize E m code2 F st1 = .ok st1) ∧
    (∀ st : State, st1.Files <+: st.Files →
      ∀ (m : Nat) (code2 : List Char), Tokenize E m code2 F st = .ok st) ∧
    (∀ (m : Nat) (code2 : List Char) (H : String) (st2 st3 : State),
      Tokenize E m code2 H st2 = .ok st3 → st2.Files <+: st3.Files) ∧
    (∀ st : State, (DeallocateTokens st).Files = st.Files) := by
  have hreg : st1.Files.any (fun f => E.SameFileName f F) = true := by
    cases h0 : st0.Files.any (fun f => E.SameFileName f G) with
    | true =>
      rw [Tokenize_skip E n code G st0 h0] at hcall
      cases hcall
      obtain ⟨f, hf, hfG⟩ := List.any_eq_true.mp h0
      exact List.any_eq_true.mpr ⟨f, hf, htrans f G F hfG hsame⟩
    | false =>
      have hmem := Tokenize_registers E n code G st0 st1 hcall h0
      exact List.any_eq_true.mpr ⟨G, hmem, hsame⟩
  have hlater : ∀ st : State, st1.Files <+: st.Files →
      ∀ (m : Nat) (code2 : List Char), Tokenize E m code2 F st = .ok st := by
    intro st hp m code2
    apply Tokenize_skip
    obtain ⟨f, hf, hfF⟩ := List.any_eq_true.mp hreg
    exact List.any_eq_true.mpr ⟨f, hp.subset hf, hfF⟩
  exact ⟨hlater st1 (List.prefix_refl _), hlater,
    fun m code2 H st2 st3 h => Tokenize_grows E m code2 H st2 st3 h, fun _ => rfl⟩

theorem Tokenize_dedup_witness :
    Tokenize env0 0 "int x ;".data "a.c" ⟨["a.c"], toks ["y"], [], .last⟩ =
      .ok ⟨["a.c"], toks ["y"], [], .last⟩ :=
  (Tokenize_dedup env0 "a.c" "a.c" 5 "y\n".data State.empty ⟨["a.c"], toks ["y"], [], .last⟩
    (by
      intro a b c h1 h2
      have e1 : a = b := by simpa [env0] using h1
      have e2 : b = c := by simpa [env0] using h2
      simp [env0, e1, e2])
    (by decide) (by decide)).1 0 "int x ;".data

/-- C15, as stated, fails for a `SameFileName` that is reflexive and not transitive: the
registry holds `f.c`; the call for `G.c`, which is taken for `f.c`, returns at once and
registers nothing; the call for `F.c`, which is taken for `G.c` and not for `f.c`, then reads
the stream and appends a token, although `Tokenize` has been called with `G.c`. -/
theorem dedup_not_transitive :
    (∀ a : String, envLoose.SameFileName a a = true) ∧
    envLoose.SameFileName "G.c" "F.c" = true ∧
    Tokenize envLoose 10 "".data "f.c" State.empty = .ok ⟨["f.c"], [], [], .last⟩ ∧
    Tokenize envLoose 10 "y\n".data "G.c" ⟨["f.c"], [], [], .last⟩ =
      .ok ⟨["f.c"], [], [], .last⟩ ∧
    Tokenize envLoose 10 "x\n".data "F.c" ⟨["f.c"], [], [], .last⟩ =
      .ok ⟨["f.c", "F.c"], [⟨"x", 1, 1⟩], [], .last⟩ := by
  refine ⟨?_, by decide, by decide, by decide, by decide⟩
  intro a
  simp [envLoose]

/-! ## Teardown -/

/-- C18 at the failing input: a file with the text `unsigned int x;` gives the tokens
`unsigned int x ;`, and the first loop of `SimplifyTokenList` leaves all four: the loop only
deletes the node after `tok`, so the first token of the list is never deleted; of two
`unsigned` in a row the second is kept as well. -/
theorem unsigned_first_token_kept :
    tokenTexts (Tokenize env0 40 "unsigned int x;\n".data "a.c" State.empty) =
      some ["unsigned", "int", "x", ";"] ∧
    texts (unsignedPass (toks ["unsigned", "int", "x", ";"])) = ["unsigned", "int", "x", ";"] ∧
    texts (unsignedPass (toks [";", "unsigned", "unsigned", "int", "x", ";"])) =
      [";", "unsigned", "int", "x", ";"] := by
  decide

/-! ## Comments that say `deleted` -/

/-- C14 at the failing input: in `x = y // fred deleted` the token before the comment is `y`,
and the lexer appends `delete fred ;` all the same: `newstatement` is computed from
`CurrentToken[0]`, which is NUL once the white space after `y` has flushed the token, and
`strchr` finds NUL in every string.  Without the white space nothing is appended. -/
theorem delete_after_any_token :
    tokenTexts (Tokenize env0 40 "x = y // fred deleted\n".data "a.c" State.empty) =
      some ["x", "=", "y", "delete", "fred", ";"] ∧
    tokenTexts (Tokenize env0 40 "x = y// fred deleted\n".data "a.c" State.empty) =
      some ["x", "=", "y"] := by
  decide

/-! ## Steps of the reading loop -/

theorem getline_line (l r : List Char) (h : ∀ c ∈ l, c ≠ '\n') :
    getline (l ++ '\n' :: r) = (l, r) := by
  unfold getline
  induction l with
  | nil => simp
  | cons c l ih =>
    have hc : c ≠ '\n' := h c (List.mem_cons_self _ _)
    have ih2 := ih fun d hd => h d (List.mem_cons_of_mem _ hd)
    simp only [Prod.mk.injEq] at ih2
    simp [List.takeWhile_cons, List.dropWhile_cons, hc, ih2.1, ih2.2]

theorem getline_last (l : List Char) (h : ∀ c ∈ l, c ≠ '\n') : getline l = (l, []) := by
  unfold getline
  induction l with
  | nil => simp
  | cons c l ih =>
    have hc : c ≠ '\n' := h c (List.mem_cons_self _ _)
    have ih2 := ih fun d hd => h d (List.mem_cons_of_mem _ hd)
    simp only [Prod.mk.injEq] at ih2
    simp [List.takeWhile_cons, List.dropWhile_cons, hc, ih2.1, ih2.2]

theorem hasSub_append (p a : List Char) : hasSub p (a ++ p) = true := by
  unfold hasSub
  rw [List.any_eq_true]
  refine ⟨p, ?_, ?_⟩
  · rw [List.mem_tails]
    exact List.suffix_append a p
  · simp

theorem addtoken_text_plain (P : Platform) (s : String) (ds : List DefineSymbol)
    (hx : s.data.take 2 ≠ ['0', 'x']) (hl : lookupDefine s ds = none) :
    addtoken.text P s ds = s := by
  unfold addtoken.text
  simp only [hl, if_neg hx]

theorem addtoken_plain (P : Platform) (s : String) (lineno fileno : Nat) (F : List String)
    (ts : List TOKEN) (ds : List DefineSymbol)
    (hs : s.data ≠ []) (hx : s.data.take 2 ≠ ['0', 'x'])
    (hl : lookupDefine s ds = none) :
    addtoken P s lineno fileno ⟨F, ts, ds, .last⟩ =
      ⟨F, ts ++ [⟨s, lineno, fileno⟩], ds, .last⟩ := by
  unfold addtoken
  rw [if_neg hs]
  simp only [addtoken_text_plain P s _ hx hl]

theorem addtoken_empty (P : Platform) (lineno fileno : Nat) (st : State) :
    addtoken P (cstr []) lineno fileno st = st := rfl

theorem cstr_of_ne (l : List Char) (h : ∀ c ∈ l, c ≠ Char.ofNat 0) : cstr l = ⟨l⟩ := by
  unfold cstr
  congr 1
  apply takeWhile_all
  simp only [List.all_eq_true, bne_iff_ne, ne_eq]
  exact h

theorem dropWhile_blank (ws w : List Char) (hws : ∀ c ∈ ws, c = ' ' ∨ c = '\t')
    (hw : ∀ c, w.head? = some c → c ≠ ' ' ∧ c ≠ '\t') :
    (ws ++ w).dropWhile (fun c => c == ' ' || c == '\t') = w := by
  induction ws with
  | nil =>
    cases w with
    | nil => rfl
    | cons c w =>
      have := hw c rfl
      simp [List.dropWhile_cons, this.1, this.2]
  | cons c ws ih =>
    have hc := hws c (List.mem_cons_self _ _)
    have ih2 := ih fun d hd => hws d (List.mem_cons_of_mem _ hd)
    have : (c == ' ' || c == '\t') = true := by
      rcases hc with rfl | rfl <;> decide
    simp only [List.cons_append, List.dropWhile_cons, this, if_true]
    exact ih2

theorem takeWhile_word (W r : List Char) (h : ∀ c ∈ W, c ≠ ' ') :
    (W ++ ' ' :: r).takeWhile (fun c => c != ' ') = W := by
  induction W with
  | nil => simp
  | cons c W ih =>
    have hc : c ≠ ' ' := h c (List.mem_cons_self _ _)
    have ih2 := ih fun d hd => h d (List.mem_cons_of_mem _ hd)
    simp [List.takeWhile_cons, hc, ih2]

theorem commentTokens_deleted (P : Platform) (ws W : List Char) (lineno FileIndex : Nat)
    (st : State) (hws : ∀ c ∈ ws, c = ' ' ∨ c = '\t') (hW : W ≠ [])
    (hWc : ∀ c ∈ W, c ≠ ' ' ∧ c ≠ '\n' ∧ c ≠ Char.ofNat 0) (hWt : W.head? ≠ some '\t')
    (hx : W.take 2 ≠ ['0', 'x'])
    (hd1 : lookupDefine "delete" st.dsymlist = none)
    (hd2 : lookupDefine ⟨W⟩ st.dsymlist = none)
    (hd3 : lookupDefine ";" st.dsymlist = none) (hb : st.tokens_back = .last) :
    commentTokens P true (ws ++ W ++ " deleted".data) lineno FileIndex st =
      { st with tokens := st.tokens ++
          [⟨"delete", lineno, FileIndex⟩, ⟨⟨W⟩, lineno, FileIndex⟩, ⟨";", lineno, FileIndex⟩] } := by
  have e1 : ws ++ W ++ " deleted".data ++ [' '] = (ws ++ W) ++ " deleted ".data := by
    simp [List.append_assoc]
  have e2 : ws ++ W ++ " deleted".data ++ [' '] = ws ++ (W ++ ' ' :: "deleted ".data) := by
    simp [List.append_assoc]
  have hhead : ∀ c, (W ++ ' ' :: "deleted ".data).head? = some c → c ≠ ' ' ∧ c ≠ '\t' := by
    obtain ⟨c0, W0, rfl⟩ := List.exists_cons_of_ne_nil hW
    intro c hc
    simp only [List.cons_append, List.head?_cons, Option.some.injEq] at hc
    subst hc
    refine ⟨(hWc c0 (List.mem_cons_self _ _)).1, ?_⟩
    intro ht
    exact hWt (by simp [ht])
  have hsub : hasSub " deleted ".data (ws ++ W ++ " deleted".data ++ [' ']) = true := by
    rw [e1]
    exact hasSub_append _ _
  have hword : cstr (((ws ++ W ++ " deleted".data ++ [' ']).dropWhile
      fun c => c == ' ' || c == '\t').takeWhile fun c => c != ' ') = ⟨W⟩ := by
    rw [e2, dropWhile_blank ws _ hws hhead, takeWhile_word W _ fun c hc => (hWc c hc).1]
    exact cstr_of_ne W fun c hc => (hWc c hc).2.2
  obtain ⟨F, ts, ds, b⟩ := st
  simp only at hb
  subst hb
  unfold commentTokens
  simp only [hsub, Bool.and_self, if_true, hword]
  rw [addtoken_plain P "delete" _ _ _ _ _ (by decide) (by decide) hd1,
    addtoken_plain P ⟨W⟩ _ _ _ _ _ hW hx hd2,
    addtoken_plain P ";" _ _ _ _ _ (by decide) (by decide) hd3]
  simp

/-- One iteration of the reading loop at a 7-bit character that starts no directive, with
room in `CurrentToken` and a `tokens_back` that can be written through. -/
theorem lexLoop_step (E : Env) (n FileIndex : Nat) (ch : Char) (code cur : List Char)
    (lineno : Nat) (st : State) (hu : st.tokens_back ≠ .undefined) (hl : cur.length < 1000)
    (h7 : ch.toNat < 128) (hd : (ch == '#' && cstr cur == "") = false) :
    lexLoop E (n + 1) FileIndex ⟨ch :: code, cur, lineno, st⟩ =
      if ch == '\n' then
        lexLoop E n FileIndex ⟨code, [], lineno + 1, addtoken E.P (cstr cur) lineno FileIndex st⟩
      else if ch == '/' then
        if code.headD eofChar == '/' then
          lexLoop E n FileIndex ⟨(getline code.tail).2, [], lineno + 1,
            commentTokens E.P (strchr ";\x7b\x7d" (cur.headD (Char.ofNat 0)))
              (getline code.tail).1 lineno FileIndex
              (addtoken E.P (cstr cur) lineno FileIndex st)⟩
        else if code.headD eofChar == '*' then
          lexLoop E n FileIndex ⟨(skipBlockComment code.tail 'A' 'A' lineno).1, [],
            (skipBlockComment code.tail 'A' 'A' lineno).2,
            addtoken E.P (cstr cur) lineno FileIndex st⟩
        else
          lexLoop E n FileIndex (lexChar E.P FileIndex (code.headD eofChar) code.tail [] lineno
            (addtoken E.P "/" lineno FileIndex (addtoken E.P (cstr cur) lineno FileIndex st)))
      else lexLoop E n FileIndex (lexChar E.P FileIndex ch code cur lineno st) := by
  have h1 : ¬ ch.toNat ≥ 128 := by omega
  have h2 : ¬ (ch == '#' && cstr cur == "") = true := by simp [hd]
  have h3 : ¬ cur.length ≥ 1000 := by omega
  rw [lexLoop]
  dsimp only
  rw [if_neg hu, if_neg h1, if_neg h2, if_neg h3]

theorem lexLoop_comment (E : Env) (n FileIndex : Nat) (code2 cur : List Char) (lineno : Nat)
    (st : State) (hu : st.tokens_back ≠ .undefined) (hl : cur.length < 1000) :
    lexLoop E (n + 1) FileIndex ⟨'/' :: '/' :: code2, cur, lineno, st⟩ =
      lexLoop E n FileIndex ⟨(getline code2).2, [], lineno + 1,
        commentTokens E.P (strchr ";\x7b\x7d" (cur.headD (Char.ofNat 0))) (getline code2).1
          lineno FileIndex (addtoken E.P (cstr cur) lineno FileIndex st)⟩ := by
  rw [lexLoop_step E n FileIndex _ _ _ _ _ hu hl (by decide) (by simp)]
  rfl

theorem lexLoop_space (E : Env) (n FileIndex : Nat) (code cur : List Char) (lineno : Nat)
    (st : State) (hu : st.tokens_back ≠ .undefined) (hl : cur.length < 1000) :
    lexLoop E (n + 1) FileIndex ⟨' ' :: code, cur, lineno, st⟩ =
      lexLoop E n FileIndex ⟨code, [], lineno, addtoken E.P (cstr cur) lineno FileIndex st⟩ := by
  rw [lexLoop_step E n FileIndex _ _ _ _ _ hu hl (by decide) (by simp)]
  rfl

theorem lexLoop_spaces (E : Env) (FileIndex : Nat) (code : List Char) (lineno : Nat)
    (st : State) (hu : st.tokens_back ≠ .undefined) (k : Nat) : ∀ n,
    lexLoop E (n + k) FileIndex ⟨List.replicate k ' ' ++ code, [], lineno, st⟩ =
      lexLoop E n FileIndex ⟨code, [], lineno, st⟩ := by
  induction k with
  | zero => intro n; rfl
  | succ k ih =>
    intro n
    show lexLoop E (n + k + 1) FileIndex ⟨' ' :: (List.replicate k ' ' ++ code), [], lineno, st⟩ = _
    rw [lexLoop_space _ _ _ _ _ _ _ hu (by simp), addtoken_empty, ih]

theorem lexLoop_boundary (E : Env) (n FileIndex : Nat) (b : Char) (code cur : List Char)
    (lineno : Nat) (st : State) (hb : b = ';' ∨ b = '\x7b' ∨ b = '\x7d')
    (hu : st.tokens_back ≠ .undefined) (hl : cur.length < 1000) :
    lexLoop E (n + 1) FileIndex ⟨b :: code, cur, lineno, st⟩ =
      lexLoop E n FileIndex ⟨code, [], lineno,
        addtoken E.P ⟨[b]⟩ lineno FileIndex (addtoken E.P (cstr cur) lineno FileIndex st)⟩ := by
  rcases hb with rfl | rfl | rfl
  · rw [lexLoop_step E n FileIndex _ _ _ _ _ hu hl (by decide) (by simp)]
    rfl
  · rw [lexLoop_step E n FileIndex _ _ _ _ _ hu hl (by decide) (by simp)]
    rfl
  · rw [lexLoop_step E n FileIndex _ _ _ _ _ hu hl (by decide) (by simp)]
    rfl


theorem comment_no_newline (ws W : List Char) (hws : ∀ c ∈ ws, c = ' ' ∨ c = '\t')
    (hWc : ∀ c ∈ W, c ≠ ' ' ∧ c ≠ '\n' ∧ c ≠ Char.ofNat 0) :
    ∀ c ∈ ws ++ W ++ " deleted".data, c ≠ '\n' := by
  intro c hc
  simp only [List.mem_append] at hc
  rcases hc with (hc | hc) | hc
  · rcases hws c hc with rfl | rfl <;> decide
  · exact (hWc c hc).2.1
  · revert c
    decide

/-- C13, for a word that `addtoken` stores as it is and a tail pointer at the last node: the
reading loop, with no lexeme pending and `tokens_back` at the last node of the list, reads a
`;`, `{` or `}`, then `k` blanks, then a line comment whose text is blanks and tabs, the word
`W` and ` deleted`, up to the line feed or to the end of the stream.  When `W` is not empty,
has no blank, line feed or NUL, does not start with a tab or with `0x`, and none of the texts
of the four tokens is a defined symbol, the loop goes on after the comment, one line further,
with the tokens of the boundary character, `delete`, `W` and `;` appended, all with the line
number of the comment, and nothing else changed.  So `; // fred deleted` gives `;`, `delete`,
`fred`, `;`. -/
theorem comment_delete_synthesis (E : Env) (n FileIndex lineno k : Nat) (st : State) (b : Char)
    (ws W tl : List Char) (hb : b = ';' ∨ b = '\x7b' ∨ b = '\x7d')
    (hws : ∀ c ∈ ws, c = ' ' ∨ c = '\t') (hW : W ≠ [])
    (hWc : ∀ c ∈ W, c ≠ ' ' ∧ c ≠ '\n' ∧ c ≠ Char.ofNat 0) (hWt : W.head? ≠ some '\t')
    (hx : W.take 2 ≠ ['0', 'x'])
    (hd0 : lookupDefine ⟨[b]⟩ st.dsymlist = none)
    (hd1 : lookupDefine "delete" st.dsymlist = none)
    (hd2 : lookupDefine ⟨W⟩ st.dsymlist = none)
    (hd3 : lookupDefine ";" st.dsymlist = none)
    (htail : st.tokens_back = .last) :
    lexLoop E (n + k + 2) FileIndex
        ⟨b :: (List.replicate k ' ' ++
          '/' :: '/' :: (ws ++ W ++ " deleted".data ++ '\n' :: tl)), [], lineno, st⟩ =
      lexLoop E n FileIndex ⟨tl, [], lineno + 1,
        { st with tokens := st.tokens ++
            [⟨⟨[b]⟩, lineno, FileIndex⟩, ⟨"delete", lineno, FileIndex⟩,
              ⟨⟨W⟩, lineno, FileIndex⟩, ⟨";", lineno, FileIndex⟩] }⟩ ∧
    lexLoop E (n + k + 2) FileIndex
        ⟨b :: (List.replicate k ' ' ++
          '/' :: '/' :: (ws ++ W ++ " deleted".data)), [], lineno, st⟩ =
      lexLoop E n FileIndex ⟨[], [], lineno + 1,
        { st with tokens := st.tokens ++
            [⟨⟨[b]⟩, lineno, FileIndex⟩, ⟨"delete", lineno, FileIndex⟩,
              ⟨⟨W⟩, lineno, FileIndex⟩, ⟨";", lineno, FileIndex⟩] }⟩ ∧
    tokenTexts (Tokenize env0 40 "; // fred deleted\n".data "a.c" State.empty) =
      some [";", "delete", "fred", ";"] := by
  obtain ⟨F, ts, ds, bk⟩ := st
  simp only at htail
  subst htail
  have hnl := comment_no_newline ws W hws hWc
  have hbx : ([b] : List Char).take 2 ≠ ['0', 'x'] := by simp
  have hns : strchr ";\x7b\x7d" (([] : List Char).headD (Char.ofNat 0)) = true := by decide
  have hstep : ∀ code2 : List Char,
      lexLoop E (n + k + 2) FileIndex
          ⟨b :: (List.replicate k ' ' ++ '/' :: '/' :: code2), [], lineno, ⟨F, ts, ds, .last⟩⟩ =
        lexLoop E n FileIndex ⟨(getline code2).2, [], lineno + 1,
          commentTokens E.P true (getline code2).1 lineno FileIndex
            ⟨F, ts ++ [⟨⟨[b]⟩, lineno, FileIndex⟩], ds, .last⟩⟩ := by
    intro code2
    rw [show n + k + 2 = (n + 1 + k) + 1 by omega,
      lexLoop_boundary E _ _ b _ _ _ _ hb (by simp) (by simp),
      addtoken_empty, addtoken_plain E.P ⟨[b]⟩ _ _ _ _ _ (by simp) hbx hd0,
      lexLoop_spaces _ _ _ _ _ (by simp), lexLoop_comment _ _ _ _ _ _ _ (by simp) (by simp),
      hns, addtoken_empty]
  have hc := commentTokens_deleted E.P ws W lineno FileIndex
    ⟨F, ts ++ [⟨⟨[b]⟩, lineno, FileIndex⟩], ds, .last⟩ hws hW hWc hWt hx hd1 hd2 hd3 rfl
  refine ⟨?_, ?_, by decide⟩
  · rw [hstep, getline_line _ _ hnl]
    show lexLoop E n FileIndex ⟨tl, [], lineno + 1,
      commentTokens E.P true (ws ++ W ++ " deleted".data) lineno FileIndex
        ⟨F, ts ++ [⟨⟨[b]⟩, lineno, FileIndex⟩], ds, .last⟩⟩ = _
    rw [hc]
    simp
  · rw [hstep, getline_last _ hnl]
    show lexLoop E n FileIndex ⟨[], [], lineno + 1,
      commentTokens E.P true (ws ++ W ++ " deleted".data) lineno FileIndex
        ⟨F, ts ++ [⟨⟨[b]⟩, lineno, FileIndex⟩], ds, .last⟩⟩ = _
    rw [hc]
    simp

theorem comment_delete_synthesis_witness :
    lexLoop env0 (5 + 2 + 2) 0
        ⟨'\x7d' :: (List.replicate 2 ' ' ++
          '/' :: '/' :: (" \t".data ++ "p1".data ++ " deleted".data ++ '\n' :: "x".data)),
          [], 7, State.empty⟩ =
      lexLoop env0 5 0 ⟨"x".data, [], 7 + 1,
        { State.empty with tokens := State.empty.tokens ++
            [⟨⟨['\x7d']⟩, 7, 0⟩, ⟨"delete", 7, 0⟩, ⟨⟨"p1".data⟩, 7, 0⟩, ⟨";", 7, 0⟩] }⟩ :=
  (comment_delete_synthesis env0 5 0 7 2 State.empty '\x7d' " \t".data "p1".data "x".data
    (by decide) (by decide) (by decide) (by decide) (by decide) (by decide) (by decide)
    (by decide) (by decide) (by decide) rfl).1

/-- C13, as stated, fails for a word that starts with `0x`: `addtoken` stores the word of
`; // 0x10 deleted` in decimal, so the tokens are `;`, `delete`, `16`, `;`. -/
theorem hex_word_deleted :
    tokenTexts (Tokenize env0 40 "; // 0x10 deleted\n".data "a.c" State.empty) =
      some [";", "delete", "16", ";"] := by
  decide

/-! ## The tokens of a `#define` line -/

theorem scanDefine_Id_break (name more : List Char) (x : Char) (strId : Option String)
    (cur : List Char) (h : name.all isalnum = true) (hx1 : isspace x = false)
    (hx2 : isalnum x = false) (hl : cur.length + name.length ≤ 1000) :
    scanDefine (name ++ x :: more) .Id strId cur = some (.Id, strId, cur ++ name) := by
  induction name generalizing cur with
  | nil =>
    show scanDefine (x :: more) .Id strId cur = _
    simp [scanDefine, hx1, hx2]
  | cons c name ih =>
    simp only [List.all_cons, Bool.and_eq_true] at h
    simp only [List.length_cons] at hl
    have hsp := isspace_false_of_ge c (isalnum_ge c h.1)
    have h2 : (cur ++ [c]).length + name.length ≤ 1000 := by
      simp only [List.length_append, List.length_singleton]; omega
    show scanDefine (c :: (name ++ x :: more)) .Id strId cur = _
    rw [scanDefine_Id_cons _ _ _ _ (by omega), hsp, h.1, ih (cur ++ [c]) h.2 h2,
      List.append_assoc]
    rfl

theorem drop_define (body : List Char) : ("#define ".data ++ body).drop 8 = body := rfl

theorem lexLoop_define (E : Env) (n FileIndex : Nat) (code : List Char) (lineno : Nat)
    (st : State) (hu : st.tokens_back ≠ .undefined)
    (h1 : "#include".data.isPrefixOf ('#' :: (getline code).1) = false)
    (h2 : "#define".data.isPrefixOf ('#' :: (getline code).1) = true) :
    lexLoop E (n + 1) FileIndex ⟨'#' :: code, [], lineno, st⟩ =
      match defineDirective E.P ('#' :: (getline code).1) lineno FileIndex st with
      | none => .undefined
      | some st1 => lexLoop E n FileIndex ⟨(getline code).2, [], lineno + 1, st1⟩ := by
  conv_lhs => rw [lexLoop]
  have e1 : ¬ ('#'.toNat ≥ 128) := by decide
  have e2 : ('#' == '#' && cstr [] == "") = true := by decide
  dsimp only
  rw [if_neg hu, if_neg e1, if_pos e2]
  simp only [h1, h2, if_true, Bool.false_and, Bool.false_eq_true, if_false]

theorem lexLoop_define_line (E : Env) (n FileIndex : Nat) (body tl : List Char) (lineno : Nat)
    (st : State) (hu : st.tokens_back ≠ .undefined) (hb : ∀ ch ∈ body, ch ≠ '\n') :
    lexLoop E (n + 1) FileIndex ⟨"#define ".data ++ body ++ '\n' :: tl, [], lineno, st⟩ =
      match defineDirective E.P ("#define ".data ++ body) lineno FileIndex st with
      | none => .undefined
      | some st1 => lexLoop E n FileIndex ⟨tl, [], lineno + 1, st1⟩ := by
  have hnl : ∀ ch ∈ "define ".data ++ body, ch ≠ '\n' := by
    intro ch hch
    rw [List.mem_append] at hch
    rcases hch with hch | hch
    · revert ch
      decide
    · exact hb ch hch
  have hg : getline ("define ".data ++ body ++ '\n' :: tl) = ("define ".data ++ body, tl) :=
    getline_line _ _ hnl
  show lexLoop E (n + 1) FileIndex ⟨'#' :: ("define ".data ++ body ++ '\n' :: tl), [], lineno, st⟩ = _
  rw [lexLoop_define E n FileIndex _ lineno st hu (by rw [hg]; rfl) (by rw [hg]; rfl), hg]
  rfl

theorem scanDefine_name_value (c d : Char) (name v : List Char) (hc : isspace c = false)
    (hname : name.all isalnum = true) (hd : isspace d = false)
    (hnl : (c :: name).length < 1000) (hvl : (d :: v).length ≤ 1000) :
    scanDefine ((c :: name) ++ ' ' :: d :: v) .Space1 none [] =
      some (.Value, some (cstr (c :: name)), d :: v) := by
  simp only [List.length_cons] at hnl hvl
  show scanDefine (c :: (name ++ ' ' :: d :: v)) .Space1 none [] = _
  rw [(scanDefine_Space_cons c _ none [] hc (by simp)).1,
    scanDefine_Id name (d :: v) none _ hname (by simp; omega),
    (scanDefine_Space_cons d _ _ [] hd (by simp)).2, scanDefine_Value _ _ _ (by simp; omega)]
  rfl

theorem scanDefine_name_break (c x : Char) (name more : List Char) (hc : isspace c = false)
    (hname : name.all isalnum = true) (hx1 : isspace x = false) (hx2 : isalnum x = false)
    (hnl : (c :: name).length ≤ 1000) :
    scanDefine ((c :: name) ++ x :: more) .Space1 none [] = some (.Id, none, c :: name) := by
  simp only [List.length_cons] at hnl
  show scanDefine (c :: (name ++ x :: more)) .Space1 none [] = _
  rw [(scanDefine_Space_cons c _ none [] hc (by simp)).1,
    scanDefine_Id_break name more x none _ hname hx1 hx2 (by simp; omega)]
  rfl

/-- C17, for the two outcomes of the scan of the name, within the 1000 characters of
`CurrentToken` and with `tokens_back` at the last node.  A name `c :: name` of at most 1000
characters whose first character is neither white space nor NUL and whose other characters
are alphanumeric is scanned.  When it has fewer than 1000 characters and is followed by a
blank and a value of fewer than 1000 characters that does not start with white space, the
`#define` branch appends the tokens `def`, the name and `;` on the line of the directive and
no token for the value, calls `Define` for the name and the value, and changes nothing else
(the name is stored as it is when it does not start with `0x` and none of the three texts is
a defined symbol).  When the alphanumeric characters of the name are followed by a character
`x` that is neither white space nor alphanumeric, such as `_`, the branch leaves the state as
it is: no token and no symbol.  The reading loop takes this branch for a line `#define ...`
read with no lexeme pending and goes on after the line feed, one line further. -/
theorem define_directive_tokens (E : Env) (n FileIndex lineno : Nat) (st : State) (c d x : Char)
    (name v more : List Char) (hc : isspace c = false) (hc0 : c ≠ Char.ofNat 0)
    (hname : name.all isalnum = true) (hd : isspace d = false)
    (hx : (c :: name).take 2 ≠ ['0', 'x'])
    (hd1 : lookupDefine "def" st.dsymlist = none)
    (hd2 : lookupDefine ⟨c :: name⟩ st.dsymlist = none)
    (hd3 : lookupDefine ";" st.dsymlist = none)
    (hx1 : isspace x = false) (hx2 : isalnum x = false)
    (hnl : (c :: name).length ≤ 1000) (htail : st.tokens_back = .last) :
    ((c :: name).length < 1000 → (d :: v).length < 1000 →
      defineDirective E.P ("#define ".data ++ (c :: name) ++ ' ' :: d :: v) lineno FileIndex st =
        some { st with
          tokens := st.tokens ++ [⟨"def", lineno, FileIndex⟩, ⟨⟨c :: name⟩, lineno, FileIndex⟩,
            ⟨";", lineno, FileIndex⟩]
          dsymlist := Define E.P ⟨c :: name⟩ (cstr (d :: v)) st.dsymlist }) ∧
    defineDirective E.P ("#define ".data ++ (c :: name) ++ x :: more) lineno FileIndex st =
      some st ∧
    (∀ body tl : List Char, (∀ ch ∈ body, ch ≠ '\n') →
      lexLoop E (n + 1) FileIndex ⟨"#define ".data ++ body ++ '\n' :: tl, [], lineno, st⟩ =
        match defineDirective E.P ("#define ".data ++ body) lineno FileIndex st with
        | none => .undefined
        | some st1 => lexLoop E n FileIndex ⟨tl, [], lineno + 1, st1⟩) ∧
    tokenTexts (Tokenize env0 40 "#define MAXLEN 10 + 2\n".data "a.c" State.empty) =
      some ["def", "MAXLEN", ";"] := by
  obtain ⟨F, ts, ds, bk⟩ := st
  simp only at htail
  subst htail
  have hcs : cstr (c :: name) = ⟨c :: name⟩ := by
    apply cstr_of_ne
    intro ch hch
    rcases List.mem_cons.mp hch with rfl | hch
    · exact hc0
    · exact ne_of_toNat_lt _ _ (lt_of_lt_of_le (by decide) (all_ge_of_isalnum _ hname ch hch))
  refine ⟨?_, ?_, fun body tl hb =>
    lexLoop_define_line E n FileIndex body tl lineno _ (by simp) hb, by decide⟩
  · intro hn1 hv1
    unfold defineDirective
    rw [List.append_assoc, drop_define,
      scanDefine_name_value c d name v hc hname hd hn1 (Nat.le_of_lt hv1), hcs]
    simp only [hv1, if_true]
    rw [addtoken_plain E.P "def" _ _ _ _ _ (by decide) (by decide) hd1,
      addtoken_plain E.P ⟨c :: name⟩ _ _ _ _ _ (by simp) hx hd2,
      addtoken_plain E.P ";" _ _ _ _ _ (by decide) (by decide) hd3]
    simp
  · unfold defineDirective
    rw [List.append_assoc, drop_define,
      scanDefine_name_break c x name more hc hname hx1 hx2 hnl]

theorem define_directive_tokens_witness :
    defineDirective env0.P ("#define ".data ++ ('_' :: "N1".data) ++ ' ' :: '1' :: " + 2".data)
        3 0 State.empty =
      some { State.empty with
        tokens := State.empty.tokens ++ [⟨"def", 3, 0⟩, ⟨⟨'_' :: "N1".data⟩, 3, 0⟩, ⟨";", 3, 0⟩]
        dsymlist := Define env0.P ⟨'_' :: "N1".data⟩ (cstr ('1' :: " + 2".data))
          State.empty.dsymlist } ∧
    defineDirective env0.P ("#define ".data ++ ('_' :: "N1".data) ++ '_' :: "LEN 10".data)
        3 0 State.empty = some State.empty :=
  ⟨(define_directive_tokens env0 5 0 3 State.empty '_' '1' '_' "N1".data " + 2".data
      "LEN 10".data (by decide) (by decide) (by decide) (by decide) (by decide) (by decide)
      (by decide) (by decide) (by decide) (by decide) (by decide) rfl).1 (by decide) (by decide),
   (define_directive_tokens env0 5 0 3 State.empty '_' '1' '_' "N1".data " + 2".data
      "LEN 10".data (by decide) (by decide) (by decide) (by decide) (by decide) (by decide)
      (by decide) (by decide) (by decide) (by decide) (by decide) rfl).2.1⟩

/-- C17, as stated, fails for a name with an underscore: the scan of `#define MAX_LEN 10` stops
at `_` in the state `Id`, the tokens are only appended in the state `Value`, and the file gives
no token at all (and no symbol). -/
theorem define_with_underscore :
    Tokenize env0 40 "#define MAX_LEN 10\n".data "a.c" State.empty =
      .ok ⟨["a.c"], [], [], .last⟩ := by
  decide

/-! ## The path of an included file -/

/-- C16 at the failing input: the file `src/main.c` includes `sub/a.h` and then `b.h`.  The
first directive is resolved against `src/`, the directory of the including file; for the
second one `Files.back()` is `src/sub/a.h`, the file registered last, so the path token and
the name given to `Tokenize` are `src/sub/b.h`, not `src/b.h`. -/
theorem include_after_include :
    Tokenize envHeader 60 "#include \"sub/a.h\"\n#include \"b.h\"\n".data "src/main.c"
        State.empty =
      .ok ⟨["src/main.c", "src/sub/a.h", "src/sub/b.h"],
        [⟨"#include", 1, 0⟩, ⟨"src/sub/a.h", 1, 0⟩, ⟨"int", 1, 1⟩, ⟨"a", 1, 1⟩, ⟨";", 1, 1⟩,
          ⟨"#include", 2, 0⟩, ⟨"src/sub/b.h", 2, 0⟩], [], .last⟩ := by
  decide

/-! ## The alias of a typedef and the keyword `unsigned` -/

theorem unsignedBody_one (t : TOKEN) : unsignedBody [t] = ([t], []) := by
  simp [unsignedBody, getstr, gettok, stay]

theorem unsignedBody_del (t u : TOKEN) (r : List TOKEN) (hu : u.str = "unsigned") :
    unsignedBody (t :: u :: r) = ([t], r) := by
  simp [unsignedBody, getstr, gettok, stay, hu, DeleteNextToken]

theorem unsignedBody_keep (t u : TOKEN) (r : List TOKEN) (hu : u.str ≠ "unsigned") :
    unsignedBody (t :: u :: r) = ([t], u :: r) := by
  simp [unsignedBody, getstr, gettok, stay, hu]

theorem aliasExpand_cons_alias (t : TOKEN) (l : List TOKEN) (h : t.str = "u32") :
    aliasExpand (t :: l) =
      { t with str := "unsigned" } :: ⟨"int", t.linenr, t.FileIndex⟩ :: aliasExpand l := by
  simp [aliasExpand, h]

theorem aliasExpand_cons_other (t : TOKEN) (l : List TOKEN) (h : t.str ≠ "u32") :
    aliasExpand (t :: l) = t :: aliasExpand l := by
  simp [aliasExpand, h]

theorem aliasDirect_cons_alias (t : TOKEN) (l : List TOKEN) (h : t.str = "u32") :
    aliasDirect (t :: l) = ⟨"int", t.linenr, t.FileIndex⟩ :: aliasDirect l := by
  simp [aliasDirect, h]

theorem aliasDirect_cons_other (t : TOKEN) (l : List TOKEN) (h : t.str ≠ "u32") :
    aliasDirect (t :: l) = t :: aliasDirect l := by
  simp [aliasDirect, h]

theorem unsigned_alias (n : Nat) : ∀ (p : TOKEN) (rest : List TOKEN), PlainUnsigned (p :: rest) →
    (aliasExpand rest).length < n →
    forTok unsignedBody n (p :: aliasExpand rest) =
      p :: (aliasDirect rest).filter (fun t => t.str ≠ "unsigned") := by
  induction n with
  | zero => intro p rest _ h; exact absurd h (Nat.not_lt_zero _)
  | succ n ih =>
    intro p rest hp hlen
    cases rest with
    | nil =>
      show forTok unsignedBody (n + 1) [p] = [p]
      rw [forTok_succ, unsignedBody_one, forTok_nil]
      rfl
    | cons t rest =>
      have hp2 : PlainUnsigned (t :: rest) := List.Chain'.tail hp
      have hpt : p.str = "unsigned" → t.str ≠ "unsigned" ∧ t.str ≠ "u32" :=
        List.Chain'.rel_head hp
      by_cases ha : t.str = "u32"
      · rw [aliasExpand_cons_alias t rest ha] at hlen ⊢
        rw [aliasDirect_cons_alias t rest ha, forTok_succ, unsignedBody_del _ _ _ rfl]
        simp only [List.length_cons] at hlen
        have hi : PlainUnsigned ((⟨"int", t.linenr, t.FileIndex⟩ : TOKEN) :: rest) := by
          cases rest with
          | nil => exact List.chain'_singleton _
          | cons t2 rest2 =>
            exact List.Chain'.cons
              (fun h => absurd h (show ("int" : String) ≠ "unsigned" by decide))
              (List.Chain'.tail hp2)
        rw [ih _ rest hi (by omega)]
        simp
      · rw [aliasExpand_cons_other t rest ha] at hlen ⊢
        rw [aliasDirect_cons_other t rest ha]
        simp only [List.length_cons] at hlen
        by_cases hu : t.str = "unsigned"
        · rw [forTok_succ, unsignedBody_del _ _ _ hu]
          cases rest with
          | nil =>
            rw [show aliasExpand [] = [] from rfl, forTok_nil]
            simp [aliasDirect, hu]
          | cons t2 rest2 =>
            have h2 : t2.str ≠ "unsigned" ∧ t2.str ≠ "u32" := List.Chain'.rel_head hp2 hu
            rw [aliasExpand_cons_other t2 rest2 h2.2] at hlen ⊢
            simp only [List.length_cons] at hlen
            rw [ih t2 rest2 (List.Chain'.tail hp2) (by omega),
              aliasDirect_cons_other t2 rest2 h2.2]
            simp [hu, h2.1]
        · rw [forTok_succ, unsignedBody_keep _ _ _ hu, ih t rest hp2 (by omega)]
          simp [hu]
theorem typedefRepl3_alias (rest : List TOKEN) :
    typedefRepl3 "unsigned" "int" "u32" rest = aliasExpand rest := by
  induction rest with
  | nil => rfl
  | cons t rest ih =>
    by_cases h : t.str = "u32"
    · rw [aliasExpand_cons_alias t rest h, typedefRepl3, if_pos h, ih]
    · rw [aliasExpand_cons_other t rest h, typedefRepl3, if_neg h, ih]

theorem typedefAt_alias (ty u i a semi : TOKEN) (rest : List TOKEN) (hty : ty.str = "typedef")
    (hu : u.str = "unsigned") (hi : i.str = "int") (ha : a.str = "u32") (hsemi : semi.str = ";") :
    typedefAt (ty :: u :: i :: a :: semi :: rest) =
      ty :: u :: i :: a :: semi :: aliasExpand rest := by
  have h1 : Match (ty :: u :: i :: a :: semi :: rest) [.lit "typedef", .type, .type, .lit ";"] =
      false := by
    simp [Match, Pat.ok, hty, hu, hi, ha]
  have h2 : Match (ty :: u :: i :: a :: semi :: rest)
      [.lit "typedef", .type, .type, .type, .lit ";"] = true := by
    simp only [Match, Pat.ok, hty, hu, hi, ha, hsemi]
    decide
  unfold typedefAt
  rw [h1, h2]
  simp only [Bool.false_eq_true, if_false, if_true, hu, hi, ha]
  rw [typedefRepl3, if_neg (by rw [hsemi]; decide), typedefRepl3_alias]

theorem typedefAt_other (t : TOKEN) (rest : List TOKEN) (h : t.str ≠ "typedef") :
    typedefAt (t :: rest) = t :: rest := by
  unfold typedefAt
  simp [Match, Pat.ok, h]

theorem typedefLoop_none (n : Nat) : ∀ l : List TOKEN, (∀ t ∈ l, t.str ≠ "typedef") →
    l.length ≤ n → typedefLoop n l = some l := by
  induction n with
  | zero =>
    intro l _ hl
    have : l = [] := List.length_eq_zero.mp (Nat.le_zero.mp hl)
    subst this
    rfl
  | succ n ih =>
    intro l h hl
    cases l with
    | nil => rfl
    | cons t rest =>
      simp only [List.length_cons, Nat.add_le_add_iff_right] at hl
      simp only [typedefLoop, typedefAt_other t rest (h t (List.mem_cons_self _ _))]
      rw [ih rest (fun u hu => h u (List.mem_cons_of_mem _ hu)) hl]
      rfl

theorem aliasExpand_length (l : List TOKEN) : (aliasExpand l).length ≤ 2 * l.length := by
  induction l with
  | nil => simp [aliasExpand]
  | cons t l ih =>
    by_cases h : t.str = "u32"
    · rw [aliasExpand_cons_alias t l h]
      simp only [List.length_cons]
      omega
    · rw [aliasExpand_cons_other t l h]
      simp only [List.length_cons]
      omega

theorem aliasExpand_no_typedef (l : List TOKEN) (h : ∀ t ∈ l, t.str ≠ "typedef") :
    ∀ t ∈ aliasExpand l, t.str ≠ "typedef" := by
  induction l with
  | nil => intro t ht; simp [aliasExpand] at ht
  | cons u l ih =>
    have ih2 := ih fun t ht => h t (List.mem_cons_of_mem _ ht)
    intro t ht
    by_cases hu : u.str = "u32"
    · rw [aliasExpand_cons_alias u l hu] at ht
      simp only [List.mem_cons] at ht
      rcases ht with rfl | rfl | ht
      · exact (show ("unsigned" : String) ≠ "typedef" by decide)
      · exact (show ("int" : String) ≠ "typedef" by decide)
      · exact ih2 t ht
    · rw [aliasExpand_cons_other u l hu] at ht
      rcases List.mem_cons.mp ht with rfl | ht
      · exact h _ (List.mem_cons_self _ _)
      · exact ih2 t ht

theorem aliasExpand_direct (l : List TOKEN) : aliasExpand (aliasDirect l) = aliasDirect l := by
  induction l with
  | nil => rfl
  | cons t l ih =>
    by_cases h : t.str = "u32"
    · rw [aliasDirect_cons_alias t l h, aliasExpand_cons_other _ _ (show ("int" : String) ≠ "u32" by decide), ih]
    · rw [aliasDirect_cons_other t l h, aliasExpand_cons_other _ _ h, ih]

theorem aliasDirect_direct (l : List TOKEN) : aliasDirect (aliasDirect l) = aliasDirect l := by
  induction l with
  | nil => rfl
  | cons t l ih =>
    by_cases h : t.str = "u32"
    · rw [aliasDirect_cons_alias t l h, aliasDirect_cons_other _ _ (show ("int" : String) ≠ "u32" by decide), ih]
    · rw [aliasDirect_cons_other t l h, aliasDirect_cons_other _ _ h, ih]

theorem aliasDirect_no_typedef (l : List TOKEN) (h : ∀ t ∈ l, t.str ≠ "typedef") :
    ∀ t ∈ aliasDirect l, t.str ≠ "typedef" := by
  intro t ht
  simp only [aliasDirect, List.mem_map] at ht
  obtain ⟨u, hu, rfl⟩ := ht
  split
  · exact (show ("int" : String) ≠ "typedef" by decide)
  · exact h u hu

theorem aliasDirect_plain (l : List TOKEN) (h : PlainUnsigned l) :
    PlainUnsigned (aliasDirect l) := by
  unfold PlainUnsigned aliasDirect
  rw [List.chain'_map]
  refine List.Chain'.imp ?_ h
  intro a b hab
  by_cases ha : a.str = "u32"
  · simp [ha]
  · simp only [if_neg ha]
    intro hau
    have := hab hau
    by_cases hb : b.str = "u32"
    · exact absurd hb this.2
    · simp only [if_neg hb]
      exact ⟨this.1, hb⟩

theorem alias_passes (ty u i a semi : TOKEN) (rest : List TOKEN) (n : Nat)
    (hty : ty.str = "typedef") (hu : u.str = "unsigned") (hi : i.str = "int")
    (ha : a.str = "u32") (hsemi : semi.str = ";") (h1 : ∀ t ∈ rest, t.str ≠ "typedef")
    (h2 : PlainUnsigned rest) (hn : 5 + 2 * rest.length ≤ n) :
    typedefLoop n (ty :: u :: i :: a :: semi :: rest) =
      some (ty :: u :: i :: a :: semi :: aliasExpand rest) ∧
    unsignedPass (ty :: u :: i :: a :: semi :: aliasExpand rest) =
      ty :: i :: a :: semi :: (aliasDirect rest).filter (fun t => t.str ≠ "unsigned") := by
  constructor
  · obtain ⟨m, rfl⟩ : ∃ m, n = m + 1 := ⟨n - 1, by omega⟩
    have hlen := aliasExpand_length rest
    simp only [typedefLoop, typedefAt_alias ty u i a semi rest hty hu hi ha hsemi]
    rw [typedefLoop_none m (u :: i :: a :: semi :: aliasExpand rest)]
    · rfl
    · intro t ht
      simp only [List.mem_cons] at ht
      rcases ht with rfl | rfl | rfl | rfl | ht
      · rw [hu]; decide
      · rw [hi]; decide
      · rw [ha]; decide
      · rw [hsemi]; decide
      · exact aliasExpand_no_typedef rest h1 t ht
    · simp only [List.length_cons]
      omega
  · have hi2 : i.str ≠ "unsigned" := by rw [hi]; decide
    have ha2 : a.str ≠ "unsigned" := by rw [ha]; decide
    have hs2 : semi.str ≠ "unsigned" := by rw [hsemi]; decide
    have hp : PlainUnsigned (semi :: rest) := by
      cases rest with
      | nil => exact List.chain'_singleton _
      | cons t rest => exact List.Chain'.cons (fun h => absurd h hs2) h2
    show forTok unsignedBody ((aliasExpand rest).length + 4 + 1) _ = _
    rw [forTok_succ, unsignedBody_del _ _ _ hu, forTok_succ, unsignedBody_keep _ _ _ ha2,
      forTok_succ, unsignedBody_keep _ _ _ hs2, unsigned_alias _ semi rest hp (by omega)]
    rfl
/-- C12: the stream is `typedef unsigned int u32 ;` followed by the tokens `rest`, which hold
no `typedef` and no `unsigned` directly before `unsigned` or `u32`.  The step of the typedef
loop at `typedef` replaces every `u32` of `rest` by the two tokens `unsigned` `int`, and with
a bound of `5 + 2 * rest.length` iterations the loop ends with that list.  The loop that
removes `unsigned` then gives `typedef int u32 ;` followed by `rest` with `int` for every `u32`
and without its `unsigned` tokens, which is, token for token, what the two loops give for the
stream written directly with `int`.  The typedef statement stays.  So `u32 x ;` ends up as
`int x ;`. -/
theorem typedef_alias_equivalence (ty u i a semi : TOKEN) (rest : List TOKEN) (n : Nat)
    (hty : ty.str = "typedef") (hu : u.str = "unsigned") (hi : i.str = "int")
    (ha : a.str = "u32") (hsemi : semi.str = ";") (h1 : ∀ t ∈ rest, t.str ≠ "typedef")
    (h2 : PlainUnsigned rest) (hn : 5 + 2 * rest.length ≤ n) :
    typedefAt (ty :: u :: i :: a :: semi :: rest) =
      ty :: u :: i :: a :: semi :: aliasExpand rest ∧
    typedefLoop n (ty :: u :: i :: a :: semi :: rest) =
      some (ty :: u :: i :: a :: semi :: aliasExpand rest) ∧
    (typedefLoop n (ty :: u :: i :: a :: semi :: rest)).map unsignedPass =
      some (ty :: i :: a :: semi :: (aliasDirect rest).filter (fun t => t.str ≠ "unsigned")) ∧
    (typedefLoop n (ty :: u :: i :: a :: semi :: aliasDirect rest)).map unsignedPass =
      (typedefLoop n (ty :: u :: i :: a :: semi :: rest)).map unsignedPass ∧
    (typedefLoop 20 (toks ["typedef", "unsigned", "int", "u32", ";", "u32", "x", ";"])).map
        (fun l => texts (unsignedPass l)) =
      some ["typedef", "int", "u32", ";", "int", "x", ";"] := by
  have hA := alias_passes ty u i a semi rest n hty hu hi ha hsemi h1 h2 hn
  have hB := alias_passes ty u i a semi (aliasDirect rest) n hty hu hi ha hsemi
    (aliasDirect_no_typedef rest h1) (aliasDirect_plain rest h2)
    (by simp only [aliasDirect, List.length_map]; exact hn)
  rw [aliasExpand_direct, aliasDirect_direct] at hB
  refine ⟨typedefAt_alias ty u i a semi rest hty hu hi ha hsemi, hA.1, ?_, ?_, by decide⟩
  · rw [hA.1, Option.map_some', hA.2]
  · rw [hA.1, hB.1, Option.map_some', Option.map_some', hA.2, hB.2]

theorem typedef_alias_equivalence_witness :
    (typedefLoop 13 (⟨"typedef", 1, 0⟩ :: ⟨"unsigned", 1, 0⟩ :: ⟨"int", 1, 0⟩ :: ⟨"u32", 1, 0⟩ ::
        ⟨";", 1, 0⟩ :: [⟨"const", 2, 0⟩, ⟨"u32", 2, 0⟩, ⟨"k", 2, 0⟩, ⟨";", 2, 0⟩])).map
        unsignedPass =
      some (⟨"typedef", 1, 0⟩ :: ⟨"int", 1, 0⟩ :: ⟨"u32", 1, 0⟩ :: ⟨";", 1, 0⟩ ::
        (aliasDirect [⟨"const", 2, 0⟩, ⟨"u32", 2, 0⟩, ⟨"k", 2, 0⟩, ⟨";", 2, 0⟩]).filter
          (fun t => t.str ≠ "unsigned")) :=
  (typedef_alias_equivalence ⟨"typedef", 1, 0⟩ ⟨"unsigned", 1, 0⟩ ⟨"int", 1, 0⟩ ⟨"u32", 1, 0⟩
    ⟨";", 1, 0⟩ [⟨"const", 2, 0⟩, ⟨"u32", 2, 0⟩, ⟨"k", 2, 0⟩, ⟨";", 2, 0⟩] 13 rfl rfl rfl rfl rfl
    (by decide) (by simp [PlainUnsigned]) (by decide)).2.2.1

/-! ## Splitting of declarations with an initializer -/

theorem splitScan_cons (ins : List TOKEN) (parlevel : Int) (tok2 : TOKEN) (rest : List TOKEN) :
    splitScan ins parlevel (tok2 :: rest) =
      if strchr "\x7b(" (str0 tok2.str) then
        (splitScan ins (parlevel + 1) rest).map (tok2 :: ·)
      else if strchr "\x7d)" (str0 tok2.str) then
        if parlevel < 0 then none
        else (splitScan ins (parlevel - 1) rest).map (tok2 :: ·)
      else if parlevel == 0 && strchr ";," (str0 tok2.str) then
        if str0 tok2.str == ',' then
          some (InsertTokens ({ tok2 with str := ";" } :: rest) ins ins.length)
        else some (tok2 :: rest)
      else (splitScan ins parlevel rest).map (tok2 :: ·) := rfl

theorem splitScan_term (ins : List TOKEN) (term : TOKEN) (rest : List TOKEN)
    (hterm : term.str = ";" ∨ term.str = ",") :
    splitScan ins 0 (term :: rest) = some (initTail ins term rest) := by
  rw [splitScan_cons]
  rcases hterm with h | h
  · have e1 : strchr "\x7b(" (str0 term.str) = false := by rw [h]; decide
    have e2 : strchr "\x7d)" (str0 term.str) = false := by rw [h]; decide
    have e3 : ((0 : Int) == 0 && strchr ";," (str0 term.str)) = true := by rw [h]; decide
    have e4 : (str0 term.str == ',') = false := by rw [h]; decide
    have e5 : term.str ≠ "," := by rw [h]; decide
    simp only [e1, e2, e3, e4, Bool.false_eq_true, if_false, if_true, initTail, if_neg e5]
  · have e1 : strchr "\x7b(" (str0 term.str) = false := by rw [h]; decide
    have e2 : strchr "\x7d)" (str0 term.str) = false := by rw [h]; decide
    have e3 : ((0 : Int) == 0 && strchr ";," (str0 term.str)) = true := by rw [h]; decide
    have e4 : (str0 term.str == ',') = true := by rw [h]; decide
    simp only [e1, e2, e3, e4, Bool.false_eq_true, if_false, if_true, initTail, if_pos h,
      InsertTokens, List.take_length]

theorem splitScan_init (ins : List TOKEN) (term : TOKEN) (rest : List TOKEN)
    (hterm : term.str = ";" ∨ term.str = ",") : ∀ (X : List TOKEN) (lvl : Int),
    InitOk lvl X = true →
    splitScan ins lvl (X ++ term :: rest) = some (X ++ initTail ins term rest) := by
  intro X
  induction X with
  | nil =>
    intro lvl h
    simp only [InitOk, beq_iff_eq] at h
    subst h
    exact splitScan_term ins term rest hterm
  | cons t X ih =>
    intro lvl h
    show splitScan ins lvl (t :: (X ++ term :: rest)) = _
    rw [splitScan_cons]
    unfold InitOk at h
    by_cases h1 : strchr "\x7b(" (str0 t.str) = true
    · rw [if_pos h1] at h ⊢
      rw [ih _ h]
      rfl
    · rw [if_neg h1] at h ⊢
      by_cases h2 : strchr "\x7d)" (str0 t.str) = true
      · rw [if_pos h2] at h ⊢
        simp only [Bool.and_eq_true, decide_eq_true_eq] at h
        rw [if_neg (by omega), ih _ h.2]
        rfl
      · rw [if_neg h2] at h ⊢
        by_cases h3 : (lvl == 0 && strchr ";," (str0 t.str)) = true
        · rw [if_pos h3] at h
          exact absurd h (by decide)
        · rw [if_neg h3] at h ⊢
          rw [ih _ h]
          rfl

theorem splitScan_eq (ins : List TOKEN) (eq term : TOKEN) (X rest : List TOKEN)
    (heq : eq.str = "=") (hX : InitOk 0 X = true) (hterm : term.str = ";" ∨ term.str = ",") :
    splitScan ins 0 (eq :: (X ++ term :: rest)) = some (eq :: (X ++ initTail ins term rest)) := by
  have e1 : strchr "\x7b(" (str0 eq.str) = false := by rw [heq]; decide
  have e2 : strchr "\x7d)" (str0 eq.str) = false := by rw [heq]; decide
  have e3 : ((0 : Int) == 0 && strchr ";," (str0 eq.str)) = false := by rw [heq]; decide
  rw [splitScan_cons]
  simp only [e1, e2, e3, Bool.false_eq_true, if_false]
  rw [splitScan_init ins term rest hterm X 0 hX]
  rfl

theorem name_facts2 (s : String) (h : IsName s = true) :
    s ≠ "=" ∧ s ≠ "[" ∧ (str0 s == '*') = false ∧ s ≠ ";" := by
  refine ⟨?_, ?_, ?_, ?_⟩
  · rintro rfl
    revert h
    decide
  · rintro rfl
    revert h
    decide
  · unfold IsName at h
    generalize str0 s = c at h
    cases hc : (c == '*') with
    | false => rfl
    | true =>
      have : c = '*' := by simpa using hc
      subst this
      revert h
      decide
  · rintro rfl
    revert h
    decide

theorem splitBody_init1 (b T V eq : TOKEN) (Y Y2 : List TOKEN)
    (hb : strchr "\x7b\x7d;" (str0 b.str) = true) (hT : IsName T.str = true)
    (hTe : T.str ≠ "else") (hV : IsName V.str = true) (heq : eq.str = "=")
    (hscan : splitScan [T] 0 (eq :: Y) = some (eq :: Y2)) :
    splitBody (b :: T :: V :: eq :: Y) =
      ([b], T :: V :: { eq with str := ";" } :: V :: eq :: Y2) := by
  have g0 : getstr (b :: T :: V :: eq :: Y) 0 = b.str := rfl
  have g1 : gettok (b :: T :: V :: eq :: Y) 1 = T :: V :: eq :: Y := rfl
  have g2 : getstr (b :: T :: V :: eq :: Y) 1 = T.str := rfl
  have hV1 := name_facts _ hV
  have hV2 := name_facts2 _ hV
  have hn : IsName "=" = false := by decide
  have hs : splitShape (T :: V :: eq :: Y) = some (2, 1) := by
    unfold splitShape
    simp [Match, Pat.ok, hT, hV, heq, hV1.2.1, hV2.2.1, hn]
  have hee : (str0 eq.str == ',') = false := by rw [heq]; decide
  have hvs : (str0 (getstr (T :: V :: eq :: Y) 1) == '*') = false := hV2.2.2.1
  unfold splitBody
  rw [g0, g1, g2, hb]
  simp only [Bool.not_true, Bool.false_eq_true, if_false, List.cons_ne_nil, hTe, hs]
  simp only [gettok, List.drop, hee, hvs, Bool.false_eq_true, if_false, List.take, hscan]
  simp [InsertTokens, stay]

theorem splitBody_init2 (b T s V eq : TOKEN) (Y Y2 : List TOKEN)
    (hb : strchr "\x7b\x7d;" (str0 b.str) = true) (hT : IsName T.str = true)
    (hTe : T.str ≠ "else") (hs : s.str = "*") (hV : IsName V.str = true) (heq : eq.str = "=")
    (hscan : splitScan [T] 0 (eq :: Y) = some (eq :: Y2)) :
    splitBody (b :: T :: s :: V :: eq :: Y) =
      ([b], T :: s :: V :: { eq with str := ";" } :: V :: eq :: Y2) := by
  have g0 : getstr (b :: T :: s :: V :: eq :: Y) 0 = b.str := rfl
  have g1 : gettok (b :: T :: s :: V :: eq :: Y) 1 = T :: s :: V :: eq :: Y := rfl
  have g2 : getstr (b :: T :: s :: V :: eq :: Y) 1 = T.str := rfl
  have hV1 := name_facts _ hV
  have hV2 := name_facts2 _ hV
  have hn : IsName "=" = false := by decide
  have hn2 : IsName "*" = false := by decide
  have hsh : splitShape (T :: s :: V :: eq :: Y) = some (3, 1) := by
    unfold splitShape
    simp [Match, Pat.ok, hT, hV, heq, hs, hV1.2.1, hV2.2.1, hn, hn2]
  have hee : (str0 eq.str == ',') = false := by rw [heq]; decide
  have hvs : (str0 (getstr (T :: s :: V :: eq :: Y) 1) == '*') = true := by
    show (str0 s.str == '*') = true
    rw [hs]
    decide
  unfold splitBody
  rw [g0, g1, g2, hb]
  simp only [Bool.not_true, Bool.false_eq_true, if_false, List.cons_ne_nil, hTe, hsh]
  simp only [gettok, List.drop, hee, hvs, Bool.false_eq_true, if_false, if_true, List.take, hscan]
  simp [InsertTokens, stay]

theorem splitBody_init3 (b st T s V eq : TOKEN) (Y Y2 : List TOKEN)
    (hb : strchr "\x7b\x7d;" (str0 b.str) = true) (hst : st.str = "struct")
    (hT : IsName T.str = true) (hs : s.str = "*") (hV : IsName V.str = true)
    (heq : eq.str = "=") (hscan : splitScan [st, T] 0 (eq :: Y) = some (eq :: Y2)) :
    splitBody (b :: st :: T :: s :: V :: eq :: Y) =
      ([b], st :: T :: s :: V :: { eq with str := ";" } :: V :: eq :: Y2) := by
  have g0 : getstr (b :: st :: T :: s :: V :: eq :: Y) 0 = b.str := rfl
  have g1 : gettok (b :: st :: T :: s :: V :: eq :: Y) 1 = st :: T :: s :: V :: eq :: Y := rfl
  have g2 : getstr (b :: st :: T :: s :: V :: eq :: Y) 1 = st.str := rfl
  have hT1 := name_facts _ hT
  have hT2 := name_facts2 _ hT
  have hV1 := name_facts _ hV
  have hV2 := name_facts2 _ hV
  have hn : IsName "=" = false := by decide
  have hn2 : IsName "*" = false := by decide
  have hn3 : IsName "struct" = true := by decide
  have hsh : splitShape (st :: T :: s :: V :: eq :: Y) = some (4, 2) := by
    unfold splitShape
    simp [Match, Pat.ok, hT, hV, heq, hs, hst, hT1.2.1, hT2.2.1, hV1.2.1, hV2.2.1, hn, hn2, hn3]
  have hee : (str0 eq.str == ',') = false := by rw [heq]; decide
  have hvs : (str0 (getstr (st :: T :: s :: V :: eq :: Y) 2) == '*') = true := by
    show (str0 s.str == '*') = true
    rw [hs]
    decide
  have hse : st.str ≠ "else" := by rw [hst]; decide
  unfold splitBody
  rw [g0, g1, g2, hb]
  simp only [Bool.not_true, Bool.false_eq_true, if_false, List.cons_ne_nil, hse, hsh]
  simp only [gettok, List.drop, hee, hvs, Bool.false_eq_true, if_false, if_true, List.take, hscan]
  simp [InsertTokens, stay]

theorem splitLoop_keeps (tail : List TOKEN) (k : Nat) : ∀ X : List TOKEN,
    splitKeeps tail X = true →
    splitLoop (k + X.length) (X ++ tail) = (splitLoop k tail).map (X ++ ·) := by
  intro X
  induction X with
  | nil =>
    intro _
    simp
  | cons t X ih =>
    intro h
    simp only [splitKeeps, Bool.and_eq_true, beq_iff_eq] at h
    show splitLoop (k + X.length + 1) (t :: (X ++ tail)) = _
    rw [splitLoop_succ, h.1, ih h.2]
    simp only [Option.map_map]
    rfl

theorem splitKeeps_plain (tail : List TOKEN) : ∀ X : List TOKEN,
    (∀ t ∈ X, strchr "\x7b\x7d;" (str0 t.str) = false) → splitKeeps tail X = true := by
  intro X
  induction X with
  | nil => intro _; rfl
  | cons t X ih =>
    intro h
    simp only [splitKeeps, Bool.and_eq_true, beq_iff_eq]
    exact ⟨splitBody_skip t _ (h t (List.mem_cons_self _ _)),
      ih fun u hu => h u (List.mem_cons_of_mem _ hu)⟩

theorem splitBody_assign (s V eq : TOKEN) (rest : List TOKEN) (heq : eq.str = "=") :
    splitBody (s :: V :: eq :: rest) = ([s], V :: eq :: rest) := by
  have hs : splitShape (V :: eq :: rest) = none := by
    have h2 : IsName "=" = false := by decide
    unfold splitShape
    simp [Match, Pat.ok, heq, h2]
  have g1 : gettok (s :: V :: eq :: rest) 1 = V :: eq :: rest := rfl
  unfold splitBody
  simp only [g1, hs, List.cons_ne_nil, if_false]
  split
  · rfl
  · split <;> rfl

theorem eq_facts (eq : TOKEN) (heq : eq.str = "=") :
    strchr "\x7b\x7d;" (str0 eq.str) = false := by
  rw [heq]
  decide

theorem splitLoop_init1 (b T V eq term : TOKEN) (X rest : List TOKEN) (k : Nat)
    (hb : strchr "\x7b\x7d;" (str0 b.str) = true) (hT : IsName T.str = true)
    (hTe : T.str ≠ "else") (hV : IsName V.str = true) (heq : eq.str = "=")
    (hX : InitOk 0 X = true) (hterm : term.str = ";" ∨ term.str = ",")
    (hk : splitKeeps (initTail [T] term rest) X = true) :
    splitLoop (k + X.length + 6) (b :: T :: V :: eq :: (X ++ term :: rest)) =
      (splitLoop k (initTail [T] term rest)).map
        (fun r => b :: T :: V :: { eq with str := ";" } :: V :: eq :: (X ++ r)) := by
  rw [splitLoop_succ, splitBody_init1 b T V eq _ _ hb hT hTe hV heq
      (splitScan_eq [T] eq term X rest heq hX hterm),
    splitLoop_succ, splitBody_skip T _ (name_facts _ hT).1,
    splitLoop_succ, splitBody_skip V _ (name_facts _ hV).1,
    splitLoop_succ, splitBody_assign _ V eq _ heq,
    splitLoop_succ, splitBody_skip V _ (name_facts _ hV).1,
    splitLoop_succ, splitBody_skip eq _ (eq_facts eq heq),
    splitLoop_keeps _ k X hk]
  simp only [Option.map_map]
  rfl

theorem splitLoop_init2 (b T s V eq term : TOKEN) (X rest : List TOKEN) (k : Nat)
    (hb : strchr "\x7b\x7d;" (str0 b.str) = true) (hT : IsName T.str = true)
    (hTe : T.str ≠ "else") (hs : s.str = "*") (hV : IsName V.str = true) (heq : eq.str = "=")
    (hX : InitOk 0 X = true) (hterm : term.str = ";" ∨ term.str = ",")
    (hk : splitKeeps (initTail [T] term rest) X = true) :
    splitLoop (k + X.length + 7) (b :: T :: s :: V :: eq :: (X ++ term :: rest)) =
      (splitLoop k (initTail [T] term rest)).map
        (fun r => b :: T :: s :: V :: { eq with str := ";" } :: V :: eq :: (X ++ r)) := by
  have hss : strchr "\x7b\x7d;" (str0 s.str) = false := by rw [hs]; decide
  rw [splitLoop_succ, splitBody_init2 b T s V eq _ _ hb hT hTe hs hV heq
      (splitScan_eq [T] eq term X rest heq hX hterm),
    splitLoop_succ, splitBody_skip T _ (name_facts _ hT).1,
    splitLoop_succ, splitBody_skip s _ hss,
    splitLoop_succ, splitBody_skip V _ (name_facts _ hV).1,
    splitLoop_succ, splitBody_assign _ V eq _ heq,
    splitLoop_succ, splitBody_skip V _ (name_facts _ hV).1,
    splitLoop_succ, splitBody_skip eq _ (eq_facts eq heq),
    splitLoop_keeps _ k X hk]
  simp only [Option.map_map]
  rfl

theorem splitLoop_init3 (b st T s V eq term : TOKEN) (X rest : List TOKEN) (k : Nat)
    (hb : strchr "\x7b\x7d;" (str0 b.str) = true) (hst : st.str = "struct")
    (hT : IsName T.str = true) (hs : s.str = "*") (hV : IsName V.str = true)
    (heq : eq.str = "=") (hX : InitOk 0 X = true) (hterm : term.str = ";" ∨ term.str = ",")
    (hk : splitKeeps (initTail [st, T] term rest) X = true) :
    splitLoop (k + X.length + 8) (b :: st :: T :: s :: V :: eq :: (X ++ term :: rest)) =
      (splitLoop k (initTail [st, T] term rest)).map
        (fun r => b :: st :: T :: s :: V :: { eq with str := ";" } :: V :: eq :: (X ++ r)) := by
  have hss : strchr "\x7b\x7d;" (str0 s.str) = false := by rw [hs]; decide
  have hst2 : strchr "\x7b\x7d;" (str0 st.str) = false := by rw [hst]; decide
  rw [splitLoop_succ, splitBody_init3 b st T s V eq _ _ hb hst hT hs hV heq
      (splitScan_eq [st, T] eq term X rest heq hX hterm),
    splitLoop_succ, splitBody_skip st _ hst2,
    splitLoop_succ, splitBody_skip T _ (name_facts _ hT).1,
    splitLoop_succ, splitBody_skip s _ hss,
    splitLoop_succ, splitBody_skip V _ (name_facts _ hV).1,
    splitLoop_succ, splitBody_assign _ V eq _ heq,
    splitLoop_succ, splitBody_skip V _ (name_facts _ hV).1,
    splitLoop_succ, splitBody_skip eq _ (eq_facts eq heq),
    splitLoop_keeps _ k X hk]
  simp only [Option.map_map]
  rfl

/-- C11, when the loop "Split up variable declarations" arrives at the boundary token with the
declaration in place: at a token that starts with `{`, `}` or `;` and is followed by `T V = X`
(`T`, `V` names, `T` not `else`), by `T * V = X` or by `struct T * V = X`, where the brackets
of `X` match and `X` has no `;` or `,` at depth 0, and then by a `;` or a `,`, the step turns
the `=` into `;`, links copies of `V` and `=` after it, leaves `X` as it is, and turns a `,`
after `X` into `;` followed by a copy of the type; the loop goes on at the token after the
boundary token.  When no later step at a token of `X` changes the list, as is the case when no
token of `X` starts with `{`, `}` or `;`, the loop uses one iteration for each token up to the
end of `X` and then goes on at the `;` after `X`; up to there the tokens are the boundary token
and `T V ; V = X`.  The result reads `T V ; V = X ;`, and `T V ; V = X ; T W ;` for
`T V = X , W ;`.  On the stream `; int a = f ( 1 , 2 ) , b ;` the whole loop gives
`; int a ; a = f ( 1 , 2 ) ; int b ;`, and on `; int a = { 1 , 2 } ;` it gives
`; int a ; a = { 1 , 2 } ;`. -/
theorem initializer_split (b T V eq s st term : TOKEN) (X rest : List TOKEN)
    (hb : strchr "\x7b\x7d;" (str0 b.str) = true) (hT : IsName T.str = true)
    (hTe : T.str ≠ "else") (hV : IsName V.str = true) (heq : eq.str = "=") (hs : s.str = "*")
    (hst : st.str = "struct") (hX : InitOk 0 X = true)
    (hterm : term.str = ";" ∨ term.str = ",") :
    splitBody (b :: T :: V :: eq :: (X ++ term :: rest)) =
      ([b], T :: V :: { eq with str := ";" } :: V :: eq :: (X ++ initTail [T] term rest)) ∧
    splitBody (b :: T :: s :: V :: eq :: (X ++ term :: rest)) =
      ([b], T :: s :: V :: { eq with str := ";" } :: V :: eq ::
        (X ++ initTail [T] term rest)) ∧
    splitBody (b :: st :: T :: s :: V :: eq :: (X ++ term :: rest)) =
      ([b], st :: T :: s :: V :: { eq with str := ";" } :: V :: eq ::
        (X ++ initTail [st, T] term rest)) ∧
    (splitLoop 20 (toks [";", "int", "a", "=", "f", "(", "1", ",", "2", ")", ",", "b",
        ";"])).map texts =
      some [";", "int", "a", ";", "a", "=", "f", "(", "1", ",", "2", ")", ";", "int", "b",
        ";"] ∧
    (splitKeeps (initTail [T] term rest) X = true → ∀ k : Nat,
      splitLoop (k + X.length + 6) (b :: T :: V :: eq :: (X ++ term :: rest)) =
        (splitLoop k (initTail [T] term rest)).map
          (fun r => b :: T :: V :: { eq with str := ";" } :: V :: eq :: (X ++ r))) ∧
    (splitKeeps (initTail [T] term rest) X = true → ∀ k : Nat,
      splitLoop (k + X.length + 7) (b :: T :: s :: V :: eq :: (X ++ term :: rest)) =
        (splitLoop k (initTail [T] term rest)).map
          (fun r => b :: T :: s :: V :: { eq with str := ";" } :: V :: eq :: (X ++ r))) ∧
    (splitKeeps (initTail [st, T] term rest) X = true → ∀ k : Nat,
      splitLoop (k + X.length + 8) (b :: st :: T :: s :: V :: eq :: (X ++ term :: rest)) =
        (splitLoop k (initTail [st, T] term rest)).map
          (fun r => b :: st :: T :: s :: V :: { eq with str := ";" } :: V :: eq ::
            (X ++ r))) ∧
    ((∀ t ∈ X, strchr "\x7b\x7d;" (str0 t.str) = false) →
      ∀ tail : List TOKEN, splitKeeps tail X = true) ∧
    (splitLoop 20 (toks [";", "int", "a", "=", "\x7b", "1", ",", "2", "\x7d", ";"])).map
        texts =
      some [";", "int", "a", ";", "a", "=", "\x7b", "1", ",", "2", "\x7d", ";"] :=
  ⟨splitBody_init1 b T V eq _ _ hb hT hTe hV heq (splitScan_eq [T] eq term X rest heq hX hterm),
   splitBody_init2 b T s V eq _ _ hb hT hTe hs hV heq
     (splitScan_eq [T] eq term X rest heq hX hterm),
   splitBody_init3 b st T s V eq _ _ hb hst hT hs hV heq
     (splitScan_eq [st, T] eq term X rest heq hX hterm),
   by decide,
   fun hk k => splitLoop_init1 b T V eq term X rest k hb hT hTe hV heq hX hterm hk,
   fun hk k => splitLoop_init2 b T s V eq term X rest k hb hT hTe hs hV heq hX hterm hk,
   fun hk k => splitLoop_init3 b st T s V eq term X rest k hb hst hT hs hV heq hX hterm hk,
   fun h tail => splitKeeps_plain tail X h,
   by decide⟩

theorem initializer_split_witness :
    splitLoop (1 + (toks ["\x7b", "1", ",", "2", "\x7d"]).length + 7)
        (⟨"\x7b", 1, 0⟩ :: ⟨"char", 1, 0⟩ :: ⟨"*", 1, 0⟩ :: ⟨"p", 1, 0⟩ :: ⟨"=", 1, 0⟩ ::
          (toks ["\x7b", "1", ",", "2", "\x7d"] ++ ⟨",", 2, 0⟩ :: toks ["q", ";"])) =
      (splitLoop 1 (initTail [⟨"char", 1, 0⟩] ⟨",", 2, 0⟩ (toks ["q", ";"]))).map
        (fun r => ⟨"\x7b", 1, 0⟩ :: ⟨"char", 1, 0⟩ :: ⟨"*", 1, 0⟩ :: ⟨"p", 1, 0⟩ ::
          ⟨";", 1, 0⟩ :: ⟨"p", 1, 0⟩ :: ⟨"=", 1, 0⟩ ::
          (toks ["\x7b", "1", ",", "2", "\x7d"] ++ r)) :=
  (initializer_split ⟨"\x7b", 1, 0⟩ ⟨"char", 1, 0⟩ ⟨"p", 1, 0⟩ ⟨"=", 1, 0⟩ ⟨"*", 1, 0⟩
    ⟨"struct", 1, 0⟩ ⟨",", 2, 0⟩ (toks ["\x7b", "1", ",", "2", "\x7d"]) (toks ["q", ";"])
    (by decide) (by decide) (by decide) (by decide) rfl rfl rfl (by decide)
    (by decide)).2.2.2.2.2.1 (by decide) 1

/-- C11, as stated, fails for a declaration that stands inside the initializer: in
`; int a = ( { int b , c ; b ; } ) ;` the step at the first `;` leaves the comma between `b`
and `c` as it is, but the loop later arrives at the `{` inside the initializer and splits
`int b , c ;` there, so this comma, enclosed in `( )` and `{ }`, becomes `;`.  It also fails
when the scan of an earlier initializer reaches the declaration: in
`; long v = { 1 } int a = 2 , b ;` the declaration `int a = 2 , b ;` follows a `}`, and the
type token inserted for `b` is `long`. -/
theorem comma_inside_initializer :
    (splitLoop 30 (toks [";", "int", "a", "=", "(", "\x7b", "int", "b", ",", "c", ";", "b",
        ";", "\x7d", ")", ";"])).map texts =
      some [";", "int", "a", ";", "a", "=", "(", "\x7b", "int", "b", ";", "int", "c", ";", "b",
        ";", "\x7d", ")", ";"] ∧
    (splitLoop 30 (toks [";", "long", "v", "=", "\x7b", "1", "\x7d", "int", "a", "=", "2", ",",
        "b", ";"])).map texts =
      some [";", "long", "v", ";", "v", "=", "\x7b", "1", "\x7d", "int", "a", ";", "a", "=",
        "2", ";", "long", "b", ";"] ∧
    splitKeeps (toks [";"]) (toks ["(", "\x7b", "int", "b", ",", "c", ";", "b", ";", "\x7d",
        ")"]) = false := by
  decide

/-! ## An `#include` line without closing quote -/

/-- C21 at the failing input: the file has the one line `#include "abc`, with an opening quote
and no closing quote.  The first `erase` leaves `abc`, the second `find` gives `npos`, and
`line.erase(npos)` throws `std::out_of_range`: the call of `Tokenize`, and in it the call of
`TokenizeCode`, does not return. -/
theorem include_without_closing_quote :
    Tokenize env0 20 "#include \"abc\n".data "a.c" State.empty = .out_of_range ∧
    TokenizeCode env0 20 "#include \"abc\n".data 0 ⟨["a.c"], [], [], .last⟩ = .out_of_range := by
  decide

/-! ## Line numbers after a `/` -/

/-- C23 at the failing input: in the file with the lines `a /` and `b` the token `b` stands
on line 2 and is stored with line 1.  The line feed after the `/` is read inside the branch
of the `/` and goes on to the white space branch, which does not count the line; in
`x = a /`, `  b;`, `y;` all the tokens after the `/` are one line short. -/
theorem line_feed_after_slash :
    Tokenize env0 30 "a /\nb\n".data "a.c" State.empty =
      .ok ⟨["a.c"], [⟨"a", 1, 0⟩, ⟨"/", 1, 0⟩, ⟨"b", 1, 0⟩], [], .last⟩ ∧
    Tokenize env0 30 "x = a /\n  b;\ny;\n".data "a.c" State.empty =
      .ok ⟨["a.c"], [⟨"x", 1, 0⟩, ⟨"=", 1, 0⟩, ⟨"a", 1, 0⟩, ⟨"/", 1, 0⟩, ⟨"b", 1, 0⟩,
        ⟨";", 1, 0⟩, ⟨"y", 2, 0⟩, ⟨";", 2, 0⟩], [], .last⟩ := by
  decide

/-! ## The typedef loop run twice -/

set_option maxRecDepth 8000 in
/-- C24 at the failing input: on `typedef struct Foo Foo ; Foo x ;` the typedef loop gives
`struct Foo x ;`, and run again on its own result it gives `struct struct Foo x ;`: the
inserted `Foo` has the text of the alias and is replaced in turn.  This is what happens in
the file `src/main.c` with the lines `typedef struct Foo Foo;`, `Foo x;` and
`#include "sub/a.h"`, where the loop runs at the end of the header and again at the end of
the file. -/
theorem typedef_struct_alias_twice :
    (typedefLoop 30 (toks ["typedef", "struct", "Foo", "Foo", ";", "Foo", "x", ";"])).map texts =
      some ["typedef", "struct", "Foo", "Foo", ";", "struct", "Foo", "x", ";"] ∧
    ((typedefLoop 30 (toks ["typedef", "struct", "Foo", "Foo", ";", "Foo", "x", ";"])).bind
        (typedefLoop 30)).map texts =
      some ["typedef", "struct", "Foo", "Foo", ";", "struct", "struct", "Foo", "x", ";"] ∧
    tokenTexts (Tokenize envHeader 100
        "typedef struct Foo Foo;\nFoo x;\n#include \"sub/a.h\"\n".data "src/main.c"
        State.empty) =
      some ["typedef", "struct", "Foo", "Foo", ";", "struct", "struct", "Foo", "x", ";",
        "#include", "src/sub/a.h", "int", "a", ";"] := by
  decide

/-! ## The number of sweeps of the simple calculations -/

/-- C22 at the failing input: for the file text `a +=` the reading loop calls `addtoken` for
`a`, `+` and `=`, after which `tokens_back` points to the last node, the node of `=` at
address 2.  The combination loop then fuses `+` and `=` and `DeleteNextToken` frees the node
of `=`: the list is `a`, `+=`, its last node has the address 1, and `tokens_back` still
holds the address 2 of the freed node, so the next `addtoken` writes through a dangling
pointer.  The nodes are those of the token list that `TokenizeCode` returns. -/
theorem tokens_back_after_fusion :
    ((Heap.addtoken lp64 "a" 1 0 [] Heap.empty).bind (Heap.addtoken lp64 "+" 1 0 [])).bind
        (Heap.addtoken lp64 "=" 1 0 []) =
      some ⟨[⟨0, ⟨"a", 1, 0⟩⟩, ⟨1, ⟨"+", 1, 0⟩⟩, ⟨2, ⟨"=", 1, 0⟩⟩], some 2, 3⟩ ∧
    TailOk ⟨[⟨0, ⟨"a", 1, 0⟩⟩, ⟨1, ⟨"+", 1, 0⟩⟩, ⟨2, ⟨"=", 1, 0⟩⟩], some 2, 3⟩ = true ∧
    Heap.combineLoop 3 0 ⟨[⟨0, ⟨"a", 1, 0⟩⟩, ⟨1, ⟨"+", 1, 0⟩⟩, ⟨2, ⟨"=", 1, 0⟩⟩], some 2, 3⟩ =
      ⟨[⟨0, ⟨"a", 1, 0⟩⟩, ⟨1, ⟨"+=", 1, 0⟩⟩], some 2, 3⟩ ∧
    TailOk ⟨[⟨0, ⟨"a", 1, 0⟩⟩, ⟨1, ⟨"+=", 1, 0⟩⟩], some 2, 3⟩ = false ∧
    Heap.addtoken lp64 "b" 2 0 [] ⟨[⟨0, ⟨"a", 1, 0⟩⟩, ⟨1, ⟨"+=", 1, 0⟩⟩], some 2, 3⟩ = none ∧
    TokenizeCode env0 20 "a +=\n".data 0 ⟨["a.c"], [], [], .last⟩ =
      .ok ⟨["a.c"], [⟨"a", 1, 0⟩, ⟨"+=", 1, 0⟩], [], .freed⟩ := by
  decide

/-! ## The pointers and the token list -/

theorem heap_combine_2tokens_back (i : Nat) (s1 s2 : String) (h : Heap) :
    (Heap.combine_2tokens i s1 s2 h).tokens_back = h.tokens_back ∧
    (Heap.combine_2tokens i s1 s2 h).allocated = h.allocated := by
  unfold Heap.combine_2tokens
  split
  · split <;> exact ⟨rfl, rfl⟩
  · exact ⟨rfl, rfl⟩

theorem heap_combineAt_back (i : Nat) (h : Heap) :
    (Heap.combineAt i h).tokens_back = h.tokens_back ∧
    (Heap.combineAt i h).allocated = h.allocated := by
  unfold Heap.combineAt
  generalize combinePairs = ps
  induction ps generalizing h with
  | nil => exact ⟨rfl, rfl⟩
  | cons p ps ih =>
    rw [List.foldl_cons]
    have h1 := ih (Heap.combine_2tokens i p.1 p.2 h)
    have h2 := heap_combine_2tokens_back i p.1 p.2 h
    exact ⟨h1.1.trans h2.1, h1.2.trans h2.2⟩

/-- The combination loop never writes `tokens_back`. -/
theorem heap_combineLoop_back (n : Nat) : ∀ (i : Nat) (h : Heap),
    (Heap.combineLoop n i h).tokens_back = h.tokens_back := by
  induction n with
  | zero => intro i h; rfl
  | succ n ih =>
    intro i h
    unfold Heap.combineLoop
    split
    · rw [ih, (heap_combineAt_back i h).1]
    · rfl

theorem heap_combine_2tokens_zero (s1 s2 : String) (l : List Node) (b : Option Nat) (a : Nat) :
    (Heap.combine_2tokens 0 s1 s2 ⟨l, b, a⟩).nodes.map Node.tok =
      combine_2tokens s1 s2 (l.map Node.tok) := by
  unfold Heap.combine_2tokens
  cases l with
  | nil => rfl
  | cons x l =>
    cases l with
    | nil => rfl
    | cons y l =>
      simp only [List.getElem?_cons_zero, List.getElem?_cons_succ, List.map_cons,
        combine_2tokens]
      split <;> simp [Heap.DeleteNextToken, DeleteNextToken]

theorem heap_combine_2tokens_succ (i : Nat) (s1 s2 : String) (x : Node) (l : List Node)
    (b : Option Nat) (a : Nat) :
    (Heap.combine_2tokens (i + 1) s1 s2 ⟨x :: l, b, a⟩).nodes =
      x :: (Heap.combine_2tokens i s1 s2 ⟨l, b, a⟩).nodes := by
  unfold Heap.combine_2tokens
  simp only [List.getElem?_cons_succ]
  split
  · split <;> simp [Heap.DeleteNextToken]
  · rfl
theorem heap_combine_2tokens_shift (i : Nat) (s1 s2 : String) (x : Node) (l : List Node)
    (b : Option Nat) (a : Nat) :
    Heap.combine_2tokens (i + 1) s1 s2 ⟨x :: l, b, a⟩ =
      ⟨x :: (Heap.combine_2tokens i s1 s2 ⟨l, b, a⟩).nodes, b, a⟩ := by
  have h1 := heap_combine_2tokens_succ i s1 s2 x l b a
  have h2 := heap_combine_2tokens_back (i + 1) s1 s2 ⟨x :: l, b, a⟩
  cases hh : Heap.combine_2tokens (i + 1) s1 s2 ⟨x :: l, b, a⟩ with
  | mk n2 b2 a2 =>
    rw [hh] at h1 h2
    simp only at h1 h2
    rw [h1, h2.1, h2.2]

theorem heap_combine_2tokens_eta (i : Nat) (s1 s2 : String) (l : List Node) (b : Option Nat)
    (a : Nat) :
    Heap.combine_2tokens i s1 s2 ⟨l, b, a⟩ =
      ⟨(Heap.combine_2tokens i s1 s2 ⟨l, b, a⟩).nodes, b, a⟩ := by
  have h2 := heap_combine_2tokens_back i s1 s2 ⟨l, b, a⟩
  cases hh : Heap.combine_2tokens i s1 s2 ⟨l, b, a⟩ with
  | mk n2 b2 a2 =>
    rw [hh] at h2
    simp only at h2
    rw [h2.1, h2.2]

theorem heap_fold_shift (i : Nat) (x : Node) (b : Option Nat) (a : Nat)
    (ps : List (String × String)) : ∀ l : List Node,
    ps.foldl (fun acc p => Heap.combine_2tokens (i + 1) p.1 p.2 acc) ⟨x :: l, b, a⟩ =
      ⟨x :: (ps.foldl (fun acc p => Heap.combine_2tokens i p.1 p.2 acc) ⟨l, b, a⟩).nodes,
        b, a⟩ := by
  induction ps with
  | nil => intro l; rfl
  | cons p ps ih =>
    intro l
    rw [List.foldl_cons, List.foldl_cons, heap_combine_2tokens_shift, ih,
      ← heap_combine_2tokens_eta]

theorem heap_fold_zero (b : Option Nat) (a : Nat) (ps : List (String × String)) :
    ∀ l : List Node,
    (ps.foldl (fun acc p => Heap.combine_2tokens 0 p.1 p.2 acc) ⟨l, b, a⟩).nodes.map Node.tok =
      ps.foldl (fun acc p => Cppcheck.combine_2tokens p.1 p.2 acc) (l.map Node.tok) := by
  induction ps with
  | nil => intro l; rfl
  | cons p ps ih =>
    intro l
    rw [List.foldl_cons, List.foldl_cons, heap_combine_2tokens_eta, ih,
      heap_combine_2tokens_zero]

theorem heap_combineAt_eta (i : Nat) (l : List Node) (b : Option Nat) (a : Nat) :
    Heap.combineAt i ⟨l, b, a⟩ = ⟨(Heap.combineAt i ⟨l, b, a⟩).nodes, b, a⟩ := by
  have h2 := heap_combineAt_back i ⟨l, b, a⟩
  cases hh : Heap.combineAt i ⟨l, b, a⟩ with
  | mk n2 b2 a2 =>
    rw [hh] at h2
    simp only at h2
    rw [h2.1, h2.2]

theorem heap_combineLoop_shift (n : Nat) : ∀ (i : Nat) (x : Node) (l : List Node)
    (b : Option Nat) (a : Nat),
    (Heap.combineLoop n (i + 1) ⟨x :: l, b, a⟩).nodes =
      x :: (Heap.combineLoop n i ⟨l, b, a⟩).nodes := by
  induction n with
  | zero => intro i x l b a; rfl
  | succ n ih =>
    intro i x l b a
    have e : Heap.combineAt (i + 1) ⟨x :: l, b, a⟩ = ⟨x :: (Heap.combineAt i ⟨l, b, a⟩).nodes, b, a⟩ :=
      heap_fold_shift i x b a combinePairs l
    unfold Heap.combineLoop
    by_cases hlt : i + 1 < l.length
    · rw [if_pos (by simpa using hlt), if_pos hlt, e, ih, ← heap_combineAt_eta]
    · rw [if_neg (by simpa using hlt), if_neg hlt]

/-- The combination loop on the pointers gives the nodes of the combination loop on the token
list. -/
theorem heap_combineLoop_tokens (n : Nat) : ∀ (l : List Node) (b : Option Nat) (a : Nat),
    (Heap.combineLoop n 0 ⟨l, b, a⟩).nodes.map Node.tok = combineLoopN n (l.map Node.tok) := by
  induction n with
  | zero => intro l b a; rfl
  | succ n ih =>
    intro l b a
    cases l with
    | nil => rfl
    | cons x l =>
      cases l with
      | nil => rfl
      | cons y l =>
        have hz : (Heap.combineAt 0 ⟨x :: y :: l, b, a⟩).nodes.map Node.tok =
            combineAt ((x :: y :: l).map Node.tok) := heap_fold_zero b a combinePairs _
        unfold Heap.combineLoop
        rw [if_pos (by simp), heap_combineAt_eta]
        show _ = combineLoopN (n + 1) (x.tok :: y.tok :: l.map Node.tok)
        rw [combineLoopN_step]
        simp only [List.map_cons] at hz
        cases hc : (Heap.combineAt 0 ⟨x :: y :: l, b, a⟩).nodes with
        | nil =>
          rw [hc] at hz
          rw [← hz]
          cases n <;> rfl
        | cons x2 l2 =>
          rw [hc] at hz
          rw [← hz, heap_combineLoop_shift, List.map_cons, ih]
          rfl

/-! ## The substitution of a defined symbol through the reading loop -/

end Cppcheck
